import Mathlib

/-!
# The recurrence engine and the scheduler of kklumper/scheduler

A shallow embedding of `src/scheduler/ical.c` (`ical_find_next_event` and the helpers it
calls) and of `src/scheduler/scheduler.c` (the schedule queue, the event queue and
`scheduler_update_events`), followed by theorems about them.

Modelling conventions

* `struct tm` is the structure `Tm`; every field is an `Int`.
* `time_t` is an unbounded `Int` (seconds since 1970-01-01 00:00:00).
* The calendar primitives `mktime` and `localtime` of the C library are modelled
  for the time zone `UTC0` without daylight saving, which is the zone the test
  suite of the repository selects (`setenv("TZ", "UTC0", 1)`); the calendar is the
  proleptic Gregorian one.  `mktime` normalises its argument in place, so the
  model returns the pair of the timestamp and the normalised structure.
* `uint8_t` values are natural numbers; the local counter `count` of
  `_ical_find_next_recur_event` is incremented modulo `2^8`.
* The enumerations `FREQ` and `BYDAY` are natural numbers, because the code
  range-checks them (`freq > 3`, `byday > 0x7F`).
* A `while` loop whose termination depends on its data takes a fuel argument and
  returns `none` when the fuel runs out; the callers pass a fuel that is
  sufficient whenever the loop of the C code terminates.
* The tail queues of `queue.h` are lists, first entry first.  The result of a call of
  `malloc` is an argument of the function that calls it: `none` for `NULL`, else the
  content of the fresh block.  The statements about calls that succeed are made for
  calls that get a block.
-/

namespace Scheduler

/-! ## Calendar primitive (C library, time zone UTC0) -/

/-- The broken-down time `struct tm` of `<time.h>`. -/
structure Tm where
  tm_sec : Int
  tm_min : Int
  tm_hour : Int
  tm_mday : Int
  tm_mon : Int
  tm_year : Int
  tm_wday : Int
  tm_yday : Int
  tm_isdst : Int
  deriving DecidableEq, Repr

/-- Number of days from 1970-01-01 to the proleptic Gregorian date `y-m-d`
(`m` counted from 1). -/
def days_from_civil (y m d : Int) : Int :=
  let y1 := if m ≤ 2 then y - 1 else y
  let era := y1 / 400
  let yoe := y1 - era * 400
  let doy := (153 * (if m > 2 then m - 3 else m + 9) + 2) / 5 + d - 1
  let doe := yoe * 365 + yoe / 4 - yoe / 100 + doy
  era * 146097 + doe - 719468

/-- The proleptic Gregorian date `(year, month, day)` of the day that lies `z` days
after 1970-01-01 (`month` counted from 1). -/
def civil_from_days (z : Int) : Int × Int × Int :=
  let z1 := z + 719468
  let era := z1 / 146097
  let doe := z1 - era * 146097
  let yoe := (doe - doe / 1460 + doe / 36524 - doe / 146096) / 365
  let doy := doe - (365 * yoe + yoe / 4 - yoe / 100)
  let mp := (5 * doy + 2) / 153
  let d := doy - (153 * mp + 2) / 5 + 1
  let m := if mp < 10 then mp + 3 else mp - 9
  (if m ≤ 2 then yoe + era * 400 + 1 else yoe + era * 400, m, d)

/-- The function `localtime` for the zone UTC0: the broken-down form of a timestamp. -/
def localtime (e : Int) : Tm :=
  let days := e / 86400
  let rem := e % 86400
  let ymd := civil_from_days days
  { tm_sec := rem % 60
    tm_min := rem / 60 % 60
    tm_hour := rem / 3600
    tm_mday := ymd.2.2
    tm_mon := ymd.2.1 - 1
    tm_year := ymd.1 - 1900
    tm_wday := (days + 4) % 7
    tm_yday := days - days_from_civil ymd.1 1 1
    tm_isdst := 0 }

/-- The timestamp that `mktime` computes for the zone UTC0; fields out of their
range are carried over, `tm_wday`, `tm_yday` and `tm_isdst` are ignored. -/
def timestamp (t : Tm) : Int :=
  let months := t.tm_year * 12 + t.tm_mon
  let days := days_from_civil (1900 + months / 12) (months % 12 + 1) 1 + (t.tm_mday - 1)
  days * 86400 + t.tm_hour * 3600 + t.tm_min * 60 + t.tm_sec

/-- The function `mktime` for the zone UTC0: the timestamp of a broken-down time together
with the normalised structure that `mktime` leaves in its argument. -/
def mktime (t : Tm) : Int × Tm :=
  (timestamp t, localtime (timestamp t))

/-! ## `ical.h` -/

/-- `FREQ` value `LIMITS`. -/
def LIMITS : Nat := 0
/-- `FREQ` value `SECONDLY`. -/
def SECONDLY : Nat := 1
/-- `FREQ` value `MINUTELY`. -/
def MINUTELY : Nat := 2
/-- `FREQ` value `HOURLY`. -/
def HOURLY : Nat := 3

/-- `BYDAY` bit of Sunday. -/
def SU : Nat := 0x40
/-- `BYDAY` bit of Monday. -/
def MO : Nat := 0x20
/-- `BYDAY` bit of Tuesday. -/
def TU : Nat := 0x10
/-- `BYDAY` bit of Wednesday. -/
def WE : Nat := 0x08
/-- `BYDAY` bit of Thursday. -/
def TH : Nat := 0x04
/-- `BYDAY` bit of Friday. -/
def FR : Nat := 0x02
/-- `BYDAY` bit of Saturday. -/
def SA : Nat := 0x01
/-- `BYDAY` mask of all seven days. -/
def EVERYDAY : Nat := SU ||| MO ||| TU ||| WE ||| TH ||| FR ||| SA
/-- `BYDAY` mask Monday to Friday. -/
def WEEKDAYS : Nat := MO ||| TU ||| WE ||| TH ||| FR
/-- `BYDAY` mask Saturday and Sunday. -/
def WEEKENDS : Nat := SU ||| SA

/-- The enumeration `ICALEVENT`. -/
inductive ICALEVENT where
  | ICALEVENT_NONE
  | ICALEVENT_START
  | ICALEVENT_RECUR
  | ICALEVENT_END
  | ICALERROR_INVALID_FREQ
  | ICALERROR_INVALID_BYDAY
  | ICALERROR_INVALID_INTERVAL
  | ICALERROR_INVALID_RECURRENCE
  | ICALERROR_START_GREATER_THAN_END
  deriving DecidableEq, Repr

open ICALEVENT

/-- The structure `ICAL`; `interval` and `count` are `uint8_t` in the source. -/
structure ICAL where
  t_start : Tm
  t_end : Tm
  freq : Nat
  interval : Nat
  byday : Nat
  count : Nat
  enabled : Bool
  deriving DecidableEq, Repr

/-! ## `ical.c` -/

/-- The constant `ONE_MIN`. -/
def ONE_MIN : Int := 60
/-- The constant `ONE_HOUR`. -/
def ONE_HOUR : Int := 60 * ONE_MIN
/-- The constant `ONE_DAY`. -/
def ONE_DAY : Int := 24 * ONE_HOUR

/-- The helper `ical_set_time_struct`; the fields `tm_wday` and `tm_yday`, which the C
function leaves as they were, are taken as zero. -/
def ical_set_time_struct (year mon day hour min sec : Int) : Tm :=
  { tm_sec := sec, tm_min := min, tm_hour := hour, tm_mday := day, tm_mon := mon - 1,
    tm_year := year - 1900, tm_wday := 0, tm_yday := 0, tm_isdst := -1 }

/-- The static function `_is_day_of_week`: bit `6 - wday` of the mask, for `wday` in `0..6`. -/
def _is_day_of_week (wday : Nat) (cal_day : Nat) : Bool :=
  (List.range 7).any fun i => i == wday && ((cal_day >>> (6 - i)) &&& 1) != 0

/-- The function `ical_is_enabled`. -/
def ical_is_enabled (ical : ICAL) : Bool :=
  if ical.enabled = true then true else false

/-- The static function `_ical_set_new_start_and_end_times`: both structures get the date of
`t_current`; the end is moved one day on when the start is strictly after it.  The result is
the pair of the updated `*t_start` and `*t_end`. -/
def _ical_set_new_start_and_end_times (t_current t_start t_end : Tm) : Tm × Tm :=
  let t_start1 : Tm := { t_start with
    tm_year := t_current.tm_year, tm_mon := t_current.tm_mon, tm_mday := t_current.tm_mday }
  let t_end1 : Tm := { t_end with
    tm_year := t_current.tm_year, tm_mon := t_current.tm_mon, tm_mday := t_current.tm_mday }
  let e_start := (mktime t_start1).1
  let e_end := (mktime t_end1).1
  if e_start > e_end then
    ((mktime t_start1).2, localtime (e_end + ONE_DAY))
  else
    ((mktime t_start1).2, (mktime t_end1).2)

/-- The inner loop `while (e_next_event <= e_current)` of `_ical_find_next_recur_event`,
with the `switch` on the frequency and `count++` on a `uint8_t`.  The result is the pair of
`e_next_event` and `count` at the exit, `none` when the fuel is used up. -/
def step_while (freq interval : Nat) (e_end_time e_current : Int) :
    Nat → Int → Nat → Option (Int × Nat)
  | 0, e_next_event, count =>
    if e_next_event ≤ e_current then none else some (e_next_event, count)
  | fuel + 1, e_next_event, count =>
    if e_next_event ≤ e_current then
      let e_next_event1 : Int :=
        match freq with
        | 0 => e_end_time
        | 1 => e_next_event + interval
        | 2 => e_next_event + interval * 60
        | 3 => e_next_event + interval * 3600
        | _ => e_next_event
      step_while freq interval e_end_time e_current fuel e_next_event1 ((count + 1) % 256)
    else some (e_next_event, count)

/-- The outer loop `while (event == ICALEVENT_NONE && i < 10)` of
`_ical_find_next_recur_event`.  The first argument is the number `10 - i` of iterations that
are left, the second is `i`; the result is the pair of `event` and `e_next_event` at the exit
of the loop (by its condition or by the `break`). -/
def day_while (ical : ICAL) (t_current_time : Tm) :
    Nat → Nat → Int → Tm → Tm → Option (ICALEVENT × Int)
  | 0, _, e_next_event, _, _ => some (ICALEVENT_NONE, e_next_event)
  | n + 1, i, e_next_event, t_temp_start, t_temp_end =>
    let e_next_event1 : Int :=
      if i = 0 then e_next_event - ONE_DAY else e_next_event + ONE_DAY
    let t_next_event := localtime e_next_event1
    if _is_day_of_week (t_next_event.tm_wday % 256).toNat ical.byday = true then
      let r := _ical_set_new_start_and_end_times t_next_event t_temp_start t_temp_end
      let e_current := (mktime t_current_time).1
      let e_start_time := (mktime r.1).1
      let e_end_time := (mktime r.2).1
      if e_current < e_start_time then
        some (ICALEVENT_START, e_start_time)
      else if e_current ≥ e_start_time ∧ e_current < e_end_time then
        match step_while ical.freq ical.interval e_end_time e_current
            ((e_current - e_start_time).toNat + 1) e_start_time 0 with
        | none => none
        | some (e_next_event2, count) =>
          if e_next_event2 ≤ e_end_time then
            if ical.count ≠ 0 then
              if count < ical.count then
                some (if ical.freq = LIMITS then ICALEVENT_END else ICALEVENT_RECUR,
                  e_next_event2)
              else
                some (ICALEVENT_NONE, e_next_event2)
            else
              some (if ical.freq = LIMITS then ICALEVENT_END else ICALEVENT_RECUR,
                e_next_event2)
          else
            day_while ical t_current_time n (i + 1) e_next_event2 (mktime r.1).2 (mktime r.2).2
      else
        day_while ical t_current_time n (i + 1) e_next_event1 (mktime r.1).2 (mktime r.2).2
    else
      day_while ical t_current_time n (i + 1) e_next_event1 t_temp_start t_temp_end

/-- The static function `_ical_find_next_recur_event`; the result is the returned event and
the structure written to `*t_event`. -/
def _ical_find_next_recur_event (ical : ICAL) (t_current_time : Tm) :
    Option (ICALEVENT × Tm) :=
  match day_while ical t_current_time 10 0 (mktime t_current_time).1 ical.t_start ical.t_end with
  | none => none
  | some (event, e_next_event) =>
    if e_next_event > (mktime ical.t_end).1 then
      some (ICALEVENT_NONE, localtime e_next_event)
    else
      some (event, localtime e_next_event)

/-- The function `ical_find_next_event`.  The third argument is the value of `*t_next_event`
before the call; the result is the returned event and the value of `*t_next_event` after the
call, `none` when the call does not return. -/
def ical_find_next_event (ical : ICAL) (t_current_time t_next_event : Tm) :
    Option (ICALEVENT × Tm) :=
  let e_current := (mktime t_current_time).1
  let e_start := (mktime ical.t_start).1
  let e_end := (mktime ical.t_end).1
  let ical1 : ICAL := { ical with t_start := (mktime ical.t_start).2, t_end := (mktime ical.t_end).2 }
  if e_start > e_end then
    some (ICALERROR_START_GREATER_THAN_END, t_next_event)
  else if ical1.interval = 0 then
    some (ICALERROR_INVALID_INTERVAL, t_next_event)
  else if ical1.interval > 24 ∧ ical1.freq = HOURLY then
    some (ICALERROR_INVALID_INTERVAL, t_next_event)
  else if ical1.byday = 0 ∨ ical1.byday > 0x7F then
    some (ICALERROR_INVALID_BYDAY, t_next_event)
  else if ical1.freq > 3 then
    some (ICALERROR_INVALID_FREQ, t_next_event)
  else if _is_day_of_week (ical1.t_start.tm_wday % 256).toNat ical1.byday = false ∧
      ical1.interval % 168 = 0 ∧ ical1.freq = HOURLY then
    some (ICALERROR_INVALID_RECURRENCE, t_next_event)
  else if ical_is_enabled ical1 = true then
    if e_current < e_start then
      some (ICALEVENT_START, ical1.t_start)
    else if e_current ≥ e_start ∧ e_current < e_end then
      _ical_find_next_recur_event ical1 (mktime t_current_time).2
    else
      some (ICALEVENT_NONE, t_next_event)
  else
    some (ICALEVENT_NONE, t_next_event)

/-! ## `queue.h` -/

/-- Modelled from the spec: the macro `TAILQ_INSERT_TAIL` of `queue.h`, a file that is not among
the sources.  The spec calls the collections insertion-ordered and `add` an append; a tail
queue is the list of its elements from the first to the last, and this is the append. -/
def TAILQ_INSERT_TAIL {α : Type} (head : List α) (elm : α) : List α := head ++ [elm]

/-- Modelled from the spec: the macro `TAILQ_FIRST` of `queue.h`, a file that is not among the
sources: the oldest element, `NULL` for an empty queue. -/
def TAILQ_FIRST {α : Type} (head : List α) : Option α := head.head?

/-- Modelled from the spec: the macro `TAILQ_LAST` of `queue.h`, a file that is not among the
sources: the most recently appended element, `NULL` for an empty queue. -/
def TAILQ_LAST {α : Type} (head : List α) : Option α := head.getLast?

/-- Modelled from the spec: the macro `TAILQ_REMOVE` of `queue.h`, a file that is not among the
sources, applied to the element at position `i` of the queue: the other elements stay as they
are, in their order. -/
def TAILQ_REMOVE {α : Type} (head : List α) (i : Nat) : List α := head.eraseIdx i

/-! ## `scheduler.h` -/

/-- The constant `MAX_SCHEDULES`. -/
def MAX_SCHEDULES : Nat := 5

/-- The structure `SCHEDULE`; `group` and `id` are `uint8_t` in the source. -/
structure SCHEDULE where
  ical : ICAL
  group : Nat
  id : Nat
  deriving DecidableEq, Repr

/-- The structure `EVENT`; `id` and `group` are `uint8_t` in the source. -/
structure EVENT where
  ical_event : ICALEVENT
  epoch : Int
  id : Nat
  group : Nat
  deriving DecidableEq, Repr

/-! ## `scheduler.c`

The file-level variables `schedule_head`, `event_head`, `schedule_count` and `event_count`
make up the state; every function takes the state and returns the new one.  A pointer to an
entry of a queue is the entry itself.  The result of a call of `malloc` is an argument:
`none` for `NULL`, else the content of the fresh block, which is arbitrary. -/

/-- The static variables of `scheduler.c`. -/
structure State where
  schedule_head : List SCHEDULE
  event_head : List EVENT
  schedule_count : Nat
  event_count : Nat
  deriving DecidableEq, Repr

/-- The state at program start: the two counters are initialised to zero, and `scheduler_init`
has made both queues empty. -/
def init_state : State :=
  { schedule_head := [], event_head := [], schedule_count := 0, event_count := 0 }

/-- The function `scheduler_init`: both queues are made empty (`TAILQ_INIT`), the counters are
not touched. -/
def scheduler_init (st : State) : State :=
  { st with schedule_head := [], event_head := [] }

/-- The function `scheduler_add`; `m` is the result of `malloc`.  The fields of the new entry
are assigned one by one as in the source; what is not assigned keeps the content of the
fresh block. -/
def scheduler_add (st : State) (group : Nat) (ical : ICAL) (m : Option SCHEDULE) :
    Bool × State :=
  if st.schedule_count ≥ MAX_SCHEDULES then
    (false, st)
  else
    match m with
    | none => (false, st)
    | some s =>
      let s1 : SCHEDULE :=
        { s with
          id := st.schedule_count
          group := group
          ical := { s.ical with
            t_start := ical.t_start
            t_end := ical.t_end
            freq := ical.freq
            interval := ical.interval
            byday := ical.byday
            enabled := ical.enabled } }
      (true, { st with
        schedule_head := TAILQ_INSERT_TAIL st.schedule_head s1
        schedule_count := (st.schedule_count + 1) % 256 })

/-- The static function `_event_add`; `m` is the result of `malloc`. -/
def _event_add (st : State) (event : ICALEVENT) (epoch : Int) (id group : Nat)
    (m : Option EVENT) : Bool × State :=
  if st.event_count ≥ MAX_SCHEDULES then
    (false, st)
  else
    match m with
    | none => (false, st)
    | some e =>
      let e1 : EVENT := { e with ical_event := event, id := id, group := group, epoch := epoch }
      (true, { st with
        event_head := TAILQ_INSERT_TAIL st.event_head e1
        event_count := (st.event_count + 1) % 256 })

/-- The function `scheduler_get_schedule_by_id`: the first entry of the queue with this id,
`none` for `NULL`. -/
def scheduler_get_schedule_by_id (st : State) (id : Nat) : Option SCHEDULE :=
  st.schedule_head.find? fun s => id == s.id

/-- The function `scheduler_get_event_by_group`: the first entry of the queue with this group,
`none` for `NULL`. -/
def scheduler_get_event_by_group (st : State) (group : Nat) : Option EVENT :=
  st.event_head.find? fun e => group == e.group

/-- The loop `while ((e = TAILQ_FIRST(&head))) { TAILQ_REMOVE(&head, e, ...); free(e); }` of
`_event_list_clear` and `scheduler_clear`: the queue at its exit. -/
def clear_while {α : Type} : List α → List α
  | [] => []
  | e :: rest => clear_while (TAILQ_REMOVE (e :: rest) 0)

/-- The static function `_event_list_clear`. -/
def _event_list_clear (st : State) : State :=
  { st with event_count := 0, event_head := clear_while st.event_head }

/-- The function `scheduler_remove_last`. -/
def scheduler_remove_last (st : State) : Bool × State :=
  match TAILQ_LAST st.schedule_head with
  | none => (false, st)
  | some _ =>
    (true, { st with
      schedule_head := TAILQ_REMOVE st.schedule_head (st.schedule_head.length - 1) })

/-- The function `scheduler_clear`. -/
def scheduler_clear (st : State) : State :=
  let st1 := _event_list_clear { st with schedule_count := 0 }
  { st1 with schedule_head := clear_while st1.schedule_head }

/-- The loop `TAILQ_FOREACH(e, &event_head, event_entries)` of `_event_list_update` for the
schedule `s`: the event queue after the `return` inside the loop, `none` when the loop ends
without meeting the group of the schedule. -/
def event_list_update_foreach (s : SCHEDULE) (event : ICALEVENT) (new_epoch : Int) :
    List EVENT → Option (List EVENT)
  | [] => none
  | e :: rest =>
    if s.group = e.group then
      if new_epoch < e.epoch then
        some ({ e with ical_event := event, id := s.id, group := s.group, epoch := new_epoch }
          :: rest)
      else
        some (e :: rest)
    else
      match event_list_update_foreach s event new_epoch rest with
      | none => none
      | some rest1 => some (e :: rest1)

/-- The static function `_event_list_update`; `m` is the result of the call of `malloc` in
`_event_add`, should it be reached.  The result is the new state and the content of
`*new_event_time`, which `mktime` normalises. -/
def _event_list_update (st : State) (s : SCHEDULE) (new_event_time : Tm) (event : ICALEVENT)
    (m : Option EVENT) : State × Tm :=
  let new_epoch := (mktime new_event_time).1
  match event_list_update_foreach s event new_epoch st.event_head with
  | some events => ({ st with event_head := events }, (mktime new_event_time).2)
  | none => ((_event_add st event new_epoch s.id s.group m).2, (mktime new_event_time).2)

/-- The content of `*ical` after a call of `ical_find_next_event`: the two calls of `mktime` at
its start normalise `t_start` and `t_end` in place. -/
def ical_after_find (ical : ICAL) : ICAL :=
  { ical with t_start := (mktime ical.t_start).2, t_end := (mktime ical.t_end).2 }

/-- The loop `TAILQ_FOREACH(s, &schedule_head, schedule_entries)` of
`scheduler_update_events` over the schedules that are left.  `j` is the number of the pass,
`mem j` the result of `malloc` should pass `j` reach it, `t_temp` the content of the local
variable of this name and `current_time` that of `*current_time`.  The result is the list of
the schedules visited, as the calls of `ical_find_next_event` leave them, and the state;
`none` when a call of `ical_find_next_event` does not return. -/
def update_events_foreach (mem : Nat → Option EVENT) :
    List SCHEDULE → Nat → State → Tm → Tm → Option (List SCHEDULE × State)
  | [], _, st, _, _ => some ([], st)
  | s :: rest, j, st, t_temp, current_time =>
    if s.ical.enabled = true then
      match ical_find_next_event s.ical current_time t_temp with
      | none => none
      | some (ical_event, t_temp1) =>
        let s1 : SCHEDULE := { s with ical := ical_after_find s.ical }
        let r := _event_list_update st s1 t_temp1 ical_event (mem j)
        match update_events_foreach mem rest (j + 1) r.1 r.2 (mktime current_time).2 with
        | none => none
        | some (rest1, st1) => some (s1 :: rest1, st1)
    else
      match update_events_foreach mem rest (j + 1) st t_temp current_time with
      | none => none
      | some (rest1, st1) => some (s :: rest1, st1)

/-- The function `scheduler_update_events`.  `t_temp` is the content of the local variable of
this name at the start, which the source does not initialise; `mem j` is the result of
`malloc` in pass `j` of the loop over the schedules. -/
def scheduler_update_events (st : State) (current_time : Tm) (t_temp : Tm)
    (mem : Nat → Option EVENT) : Option State :=
  let st1 := _event_list_clear st
  match update_events_foreach mem st1.schedule_head 0 st1 t_temp current_time with
  | none => none
  | some (schedules, st2) => some { st2 with schedule_head := schedules }

/-! ## Runs of the scheduler -/

/-- A call of one of the four functions that change the state of the scheduler, together with
what the environment contributes to it (the results of `malloc`, the content of the local
variable `t_temp`). -/
inductive Op where
  | add (group : Nat) (ical : ICAL) (m : Option SCHEDULE)
  | remove_last
  | clear
  | update_events (current_time t_temp : Tm) (mem : Nat → Option EVENT)

/-- The call is a call of `scheduler_clear`. -/
def Op.is_clear : Op → Bool
  | Op.clear => true
  | _ => false

/-- The state after one call, `none` when the call does not return. -/
def step (st : State) : Op → Option State
  | Op.add group ical m => some (scheduler_add st group ical m).2
  | Op.remove_last => some (scheduler_remove_last st).2
  | Op.clear => some (scheduler_clear st)
  | Op.update_events current_time t_temp mem =>
    scheduler_update_events st current_time t_temp mem

/-- The state after a sequence of calls. -/
def run : State → List Op → Option State
  | st, [] => some st
  | st, op :: ops =>
    match step st op with
    | none => none
    | some st1 => run st1 ops

/-- The call is a call of `scheduler_add` that returns `true` in the state `st`. -/
def Op.add_succeeds (st : State) : Op → Bool
  | Op.add group ical m => (scheduler_add st group ical m).1
  | _ => false

/-- The number of calls of `scheduler_add` that return `true` in a sequence of calls. -/
def add_successes : State → List Op → Nat
  | _, [] => 0
  | st, op :: ops =>
    match step st op with
    | none => 0
    | some st1 => (if op.add_succeeds st = true then 1 else 0) + add_successes st1 ops

/-- A state that the scheduler reaches from its state at program start through calls of
`scheduler_add`, `scheduler_remove_last`, `scheduler_clear` and `scheduler_update_events`. -/
def Reachable (st : State) : Prop := ∃ ops, run init_state ops = some st

/-! ## Vocabulary of the statements -/

/-- The start of the window of a schedule as a timestamp (`e_start` in the source). -/
def window_start (ical : ICAL) : Int := (mktime ical.t_start).1

/-- The end of the window of a schedule as a timestamp (`e_end` in the source). -/
def window_end (ical : ICAL) : Int := (mktime ical.t_end).1

/-- A rule passes the validation of `ical_find_next_event`: none of the conditions of the
error branches for the window, the interval, the weekday mask and the frequency holds. -/
def Valid (ical : ICAL) : Prop :=
  ¬ (window_start ical > window_end ical) ∧ ¬ (ical.interval = 0) ∧
  ¬ (ical.interval > 24 ∧ ical.freq = HOURLY) ∧ ¬ (ical.byday = 0 ∨ ical.byday > 0x7F) ∧
  ¬ (ical.freq > 3)

instance (ical : ICAL) : Decidable (Valid ical) := by
  unfold Valid; infer_instance

/-- The weekday of the date that lies `D` days after 1970-01-01 is in the mask of the schedule,
as the day loop tests it. -/
def day_enabled (ical : ICAL) (D : Int) : Prop :=
  _is_day_of_week ((localtime (D * ONE_DAY)).tm_wday % 256).toNat ical.byday = true

instance (ical : ICAL) (D : Int) : Decidable (day_enabled ical D) := by
  unfold day_enabled; infer_instance

/-- The day-local start of the date `D` (days after 1970-01-01): the timestamp `e_start_time`
that the day loop computes for this candidate date. -/
def day_start (ical : ICAL) (D : Int) : Int :=
  (mktime (_ical_set_new_start_and_end_times (localtime (D * ONE_DAY))
    (mktime ical.t_start).2 (mktime ical.t_end).2).1).1

/-- The day-local end of the date `D` (days after 1970-01-01): the timestamp `e_end_time`
that the day loop computes for this candidate date. -/
def day_end (ical : ICAL) (D : Int) : Int :=
  (mktime (_ical_set_new_start_and_end_times (localtime (D * ONE_DAY))
    (mktime ical.t_start).2 (mktime ical.t_end).2).2).1

/-- Seconds between two recurrences: the increment of the `switch` in the stepping loop. -/
def step_seconds (freq interval : Nat) : Int :=
  match freq with
  | 1 => interval
  | 2 => interval * 60
  | 3 => interval * 3600
  | _ => 0

/-- The stepping loop, started at the day-local start `s` with the day-local end `e`, reaches
its first stepped time after `now` in `k` steps, and this time is `T`: for the frequency
`LIMITS` the single step goes to `e`; for the other frequencies `T = s + k * step` is the
first multiple step after `now`. -/
def first_step_after (freq interval : Nat) (s e now : Int) (k : Nat) (T : Int) : Prop :=
  (freq = LIMITS ∧ k = 1 ∧ T = e) ∨
  ((freq = SECONDLY ∨ freq = MINUTELY ∨ freq = HOURLY) ∧ 1 ≤ k ∧
    T = s + k * step_seconds freq interval ∧ T - step_seconds freq interval ≤ now ∧ now < T)

instance (freq interval : Nat) (s e now : Int) (k : Nat) (T : Int) :
    Decidable (first_step_after freq interval s e now k T) := by
  unfold first_step_after; infer_instance

/-! ## Example inputs -/

/-- The rule of the test suite: window 2016-10-24 08:00:00 to 2018-10-24 16:00:00, every five
minutes, all weekdays, no occurrence limit, enabled. -/
def ex_ical : ICAL :=
  { t_start := ical_set_time_struct 2016 10 24 8 0 0
    t_end := ical_set_time_struct 2018 10 24 16 0 0
    freq := MINUTELY, interval := 5, byday := EVERYDAY, count := 0, enabled := true }

/-- A value of `*t_next_event` before the call. -/
def ex_next : Tm := ical_set_time_struct 1970 1 1 0 0 0

/-- A content of a fresh block for a schedule entry: the occurrence limit of its rule is 7. -/
def ex_block : SCHEDULE :=
  { ical := { ex_ical with count := 7, enabled := false }, group := 99, id := 99 }

/-- A content of a fresh block for an event entry. -/
def ex_event_block : EVENT :=
  { ical_event := ICALEVENT_NONE, epoch := 0, id := 0, group := 0 }

/-- Five calls of `scheduler_add` for the groups 0, 2, 2, 2 and 0. -/
def ex_ops5 : List Op :=
  [Op.add 0 ex_ical (some ex_block), Op.add 2 { ex_ical with interval := 10 } (some ex_block),
   Op.add 2 ex_ical (some ex_block), Op.add 2 { ex_ical with interval := 3 } (some ex_block),
   Op.add 0 { ex_ical with enabled := false } (some ex_block)]

/-- The schedule that the `n`-th successful `scheduler_add` of a run stores for the rule
`ical` and the group `group`, when the fresh block is `ex_block`. -/
def ex_schedule (n group : Nat) (ical : ICAL) : SCHEDULE :=
  { id := n, group := group, ical := { ical with count := 7 } }

/-- The state after the five calls `ex_ops5` from the start. -/
def ex_state5 : State :=
  { schedule_head :=
      [ex_schedule 0 0 ex_ical, ex_schedule 1 2 { ex_ical with interval := 10 },
       ex_schedule 2 2 ex_ical, ex_schedule 3 2 { ex_ical with interval := 3 },
       ex_schedule 4 0 { ex_ical with enabled := false }]
    event_head := [], schedule_count := 5, event_count := 0 }

/-- The rule of the test suite with a step of one hour and the end of the window at
16:30:00. -/
def ex_ical_hourly : ICAL :=
  { ex_ical with
    t_end := ical_set_time_struct 2018 10 24 16 30 0, freq := HOURLY, interval := 1 }

/-- The rule of the test suite with the end of the window at 08:00:00, the time of day of its
start. -/
def ex_ical_equal : ICAL := { ex_ical with t_end := ical_set_time_struct 2018 10 24 8 0 0 }

/-! ## Auxiliary definitions of the proofs -/

/-- Seconds after midnight that the time-of-day fields of a broken-down time stand for. -/
def tod (t : Tm) : Int := t.tm_hour * 3600 + t.tm_min * 60 + t.tm_sec

/-- The timestamp of the candidate date in pass `i` of the day loop, from the value `x` of
`e_next_event` at the end of the pass before. -/
def cand (i : Nat) (x : Int) : Int := if i = 0 then x - 86400 else x + 86400

/-- The weekday test of the day loop for the date of the timestamp `x1`. -/
def lin_enabled (byday : Nat) (x1 : Int) : Bool :=
  _is_day_of_week ((x1 / 86400 + 4) % 7).toNat byday

/-- The day-local start on the date of the timestamp `x1`, for a schedule that starts `S`
seconds after midnight. -/
def lin_start (S x1 : Int) : Int := x1 / 86400 * 86400 + S

/-- The day-local end on the date of the timestamp `x1`, for a schedule that starts `S` and ends
`E` seconds after midnight. -/
def lin_end (S E x1 : Int) : Int :=
  if S > E then x1 / 86400 * 86400 + E + 86400 else x1 / 86400 * 86400 + E

/-- The event kind of a recurrence: `ICALEVENT_END` for the frequency `LIMITS`. -/
def recur_kind (freq : Nat) : ICALEVENT :=
  if freq = LIMITS then ICALEVENT_END else ICALEVENT_RECUR

/-- The exit of the day loop when the stepped time `y`, reached in `c` counted steps, lies in
the day-local window: the occurrence counter decides between a recurrence and no event. -/
def landed (freq cnt : Nat) (y : Int) (c : Nat) : ICALEVENT × Int :=
  if cnt ≠ 0 then
    if c < cnt then (recur_kind freq, y) else (ICALEVENT_NONE, y)
  else (recur_kind freq, y)

/-- The loop `day_while` written with timestamps only: `S` and `E` are the seconds after
midnight of the start and of the end of the schedule, `now` is the current timestamp.  It is
a device of the proofs; `day_while_eq_lin` shows that `day_while` computes the same result. -/
def day_while_lin (byday freq interval cnt : Nat) (S E now : Int) :
    Nat → Nat → Int → Option (ICALEVENT × Int)
  | 0, _, x => some (ICALEVENT_NONE, x)
  | n + 1, i, x =>
    if lin_enabled byday (cand i x) = true then
      if now < lin_start S (cand i x) then
        some (ICALEVENT_START, lin_start S (cand i x))
      else if now < lin_end S E (cand i x) then
        match step_while freq interval (lin_end S E (cand i x)) now
            ((now - lin_start S (cand i x)).toNat + 1) (lin_start S (cand i x)) 0 with
        | none => none
        | some (y, c) =>
          if y ≤ lin_end S E (cand i x) then some (landed freq cnt y c)
          else day_while_lin byday freq interval cnt S E now n (i + 1) y
      else
        day_while_lin byday freq interval cnt S E now n (i + 1) (cand i x)
    else
      day_while_lin byday freq interval cnt S E now n (i + 1) (cand i x)

/-- A schedule as the loop of `scheduler_update_events` leaves it: the rule of an enabled
schedule has been passed to `ical_find_next_event`. -/
def visited (s : SCHEDULE) : SCHEDULE :=
  if s.ical.enabled = true then { s with ical := ical_after_find s.ical } else s

/-- The invariant of the schedule queue: at most `schedule_count` entries, `schedule_count` at
most `MAX_SCHEDULES`, the ids strictly increasing from the first entry to the last and all
below `schedule_count`. -/
def Inv (st : State) : Prop :=
  st.schedule_head.length ≤ st.schedule_count ∧ st.schedule_count ≤ MAX_SCHEDULES ∧
  List.Pairwise (fun a b => a < b) (st.schedule_head.map fun s => s.id) ∧
  ∀ s ∈ st.schedule_head, s.id < st.schedule_count

/-- The event queue holds an event for the group `g` whose timestamp is at most `B`; the event
meant is the one that `scheduler_get_event_by_group` returns. -/
def event_le (es : List EVENT) (g : Nat) (B : Int) : Prop :=
  ∃ e, es.find? (fun e => g == e.group) = some e ∧ e.epoch ≤ B

/-- The event that the loop of `scheduler_update_events` stores for the schedule `s` when its
call of `ical_find_next_event` returns the kind `ev` and writes the time `t`. -/
def own_event (s : SCHEDULE) (ev : ICALEVENT) (t : Tm) : EVENT :=
  { ical_event := ev, epoch := (mktime t).1, id := s.id, group := s.group }

/-- The event `o1` of the group `g` after the loop of `scheduler_update_events` over the
schedules `l`, when it was `o` before: either it is as before, and then no enabled schedule
of the group in `l` has an earlier time; or it is the event of a schedule of `l` whose time
is before that of `o`, before the times of the enabled schedules of the group that precede it
in `l`, and not after the times of those that follow it. -/
def group_winner (now tn0 : Tm) (g : Nat) (l : List SCHEDULE) (o o1 : Option EVENT) : Prop :=
  (o1 = o ∧ ∀ s ∈ l, s.group = g → s.ical.enabled = true →
    ∃ e0, o = some e0 ∧ ∀ ev t, ical_find_next_event s.ical now tn0 = some (ev, t) →
      e0.epoch ≤ (mktime t).1) ∨
  (∃ pre s post ev t, l = pre ++ s :: post ∧ s.group = g ∧ s.ical.enabled = true ∧
    ical_find_next_event s.ical now tn0 = some (ev, t) ∧ o1 = some (own_event s ev t) ∧
    (∀ e0, o = some e0 → (mktime t).1 < e0.epoch) ∧
    (∀ s' ∈ pre, s'.group = g → s'.ical.enabled = true → ∀ ev' t',
      ical_find_next_event s'.ical now tn0 = some (ev', t') → (mktime t).1 < (mktime t').1) ∧
    (∀ s' ∈ post, s'.group = g → s'.ical.enabled = true → ∀ ev' t',
      ical_find_next_event s'.ical now tn0 = some (ev', t') → (mktime t).1 ≤ (mktime t').1))

/-! ## Facts about the calendar primitive -/

theorem yoe_bounds (doe : Int) (h0 : 0 ≤ doe) (h1 : doe ≤ 146096) :
    0 ≤ (doe - doe / 1460 + doe / 36524 - doe / 146096) / 365 ∧
    (doe - doe / 1460 + doe / 36524 - doe / 146096) / 365 ≤ 399 := by
  omega

set_option maxHeartbeats 4000000 in
theorem doy_bounds (doe yoe : Int) (h0 : 0 ≤ doe) (h1 : doe ≤ 146096)
    (hy : yoe = (doe - doe / 1460 + doe / 36524 - doe / 146096) / 365) :
    0 ≤ doe - (365 * yoe + yoe / 4 - yoe / 100) ∧
    doe - (365 * yoe + yoe / 4 - yoe / 100) ≤ 365 := by
  have hd : 0 ≤ doe / 1460 ∧ doe / 1460 ≤ 100 := by omega
  have hc : 0 ≤ doe / 36524 ∧ doe / 36524 ≤ 4 := by omega
  obtain ⟨hd0, hd4⟩ := hd
  obtain ⟨hc0, hc4⟩ := hc
  generalize hD : doe / 1460 = d at *
  generalize hC : doe / 36524 = c at *
  interval_cases d <;> first | omega | (interval_cases c <;> omega)

theorem civil_month_range (z : Int) :
    1 ≤ (civil_from_days z).2.1 ∧ (civil_from_days z).2.1 ≤ 12 := by
  simp only [civil_from_days]
  split <;> omega

theorem days_from_civil_day (y m d : Int) :
    days_from_civil y m 1 + (d - 1) = days_from_civil y m d := by
  simp only [days_from_civil]
  omega

theorem days_from_civil_of_parts (era yoe doy : Int) (hy0 : 0 ≤ yoe) (hy1 : yoe ≤ 399)
    (hd0 : 0 ≤ doy) (hd1 : doy ≤ 365) :
    days_from_civil
      (if (if (5 * doy + 2) / 153 < 10 then (5 * doy + 2) / 153 + 3 else (5 * doy + 2) / 153 - 9) ≤ 2
        then yoe + era * 400 + 1 else yoe + era * 400)
      (if (5 * doy + 2) / 153 < 10 then (5 * doy + 2) / 153 + 3 else (5 * doy + 2) / 153 - 9)
      (doy - (153 * ((5 * doy + 2) / 153) + 2) / 5 + 1)
    = era * 146097 + (yoe * 365 + yoe / 4 - yoe / 100 + doy) - 719468 := by
  simp only [days_from_civil]
  split_ifs <;> omega

theorem days_civil_roundtrip (z : Int) :
    days_from_civil (civil_from_days z).1 (civil_from_days z).2.1 (civil_from_days z).2.2 = z := by
  have hdoe : 0 ≤ z + 719468 - (z + 719468) / 146097 * 146097 ∧
      z + 719468 - (z + 719468) / 146097 * 146097 ≤ 146096 := by omega
  obtain ⟨h0, h1⟩ := hdoe
  have hy := yoe_bounds _ h0 h1
  have hd := doy_bounds _ _ h0 h1 rfl
  simp only [civil_from_days]
  rw [days_from_civil_of_parts _ _ _ hy.1 hy.2 hd.1 hd.2]
  omega

/-- The timestamp of a broken-down time whose date fields come from `localtime x`. -/
theorem timestamp_reanchor (t : Tm) (x : Int) :
    timestamp { t with tm_year := (localtime x).tm_year, tm_mon := (localtime x).tm_mon,
                       tm_mday := (localtime x).tm_mday } = x / 86400 * 86400 + tod t := by
  have hm := civil_month_range (x / 86400)
  have hr := days_civil_roundtrip (x / 86400)
  simp only [timestamp, localtime, tod]
  generalize civil_from_days (x / 86400) = p at hm hr ⊢
  have hY : 1900 + ((p.1 - 1900) * 12 + (p.2.1 - 1)) / 12 = p.1 := by omega
  have hM : ((p.1 - 1900) * 12 + (p.2.1 - 1)) % 12 + 1 = p.2.1 := by omega
  rw [hY, hM, days_from_civil_day, hr]
  omega

theorem tod_localtime (e : Int) : tod (localtime e) = e % 86400 := by
  simp only [tod, localtime]
  omega

theorem timestamp_localtime (e : Int) : timestamp (localtime e) = e := by
  have h : timestamp (localtime e) = e / 86400 * 86400 + tod (localtime e) :=
    timestamp_reanchor (localtime e) e
  rw [tod_localtime] at h
  omega

theorem mktime_fst (t : Tm) : (mktime t).1 = timestamp t := rfl

theorem mktime_snd (t : Tm) : (mktime t).2 = localtime (timestamp t) := rfl

theorem localtime_wday (e : Int) :
    ((localtime e).tm_wday % 256).toNat = ((e / 86400 + 4) % 7).toNat := by
  simp only [localtime]
  congr 1
  omega

theorem ONE_DAY_eq : ONE_DAY = 86400 := by decide

/-! ## The day loop on the linear time axis -/

theorem step_while_succ (freq interval : Nat) (e_end_time e_current : Int) (fuel : Nat) (e_next_event : Int) (count : Nat) :
  step_while freq interval e_end_time e_current (fuel + 1) e_next_event count = 
      if e_next_event ≤ e_current then
      let e_next_event1 : Int :=
        match freq with
        | 0 => e_end_time
        | 1 => e_next_event + interval
        | 2 => e_next_event + interval * 60
        | 3 => e_next_event + interval * 3600
        | _ => e_next_event
      step_while freq interval e_end_time e_current fuel e_next_event1 ((count + 1) % 256)
    else some (e_next_event, count) := rfl

theorem day_while_succ (ical : ICAL) (t_current_time : Tm) (n i : Nat) (e_next_event : Int) (t_temp_start t_temp_end : Tm) :
  day_while ical t_current_time (n + 1) i e_next_event t_temp_start t_temp_end =
    (let e_next_event1 : Int :=
      if i = 0 then e_next_event - ONE_DAY else e_next_event + ONE_DAY
    let t_next_event := localtime e_next_event1
    if _is_day_of_week (t_next_event.tm_wday % 256).toNat ical.byday = true then
      let r := _ical_set_new_start_and_end_times t_next_event t_temp_start t_temp_end
      let e_current := (mktime t_current_time).1
      let e_start_time := (mktime r.1).1
      let e_end_time := (mktime r.2).1
      if e_current < e_start_time then
        some (ICALEVENT_START, e_start_time)
      else if e_current ≥ e_start_time ∧ e_current < e_end_time then
        match step_while ical.freq ical.interval e_end_time e_current
            ((e_current - e_start_time).toNat + 1) e_start_time 0 with
        | none => none
        | some (e_next_event2, count) =>
          if e_next_event2 ≤ e_end_time then
            if ical.count ≠ 0 then
              if count < ical.count then
                some (if ical.freq = LIMITS then ICALEVENT_END else ICALEVENT_RECUR,
                  e_next_event2)
              else
                some (ICALEVENT_NONE, e_next_event2)
            else
              some (if ical.freq = LIMITS then ICALEVENT_END else ICALEVENT_RECUR,
                e_next_event2)
          else
            day_while ical t_current_time n (i + 1) e_next_event2 (mktime r.1).2 (mktime r.2).2
      else
        day_while ical t_current_time n (i + 1) e_next_event1 (mktime r.1).2 (mktime r.2).2
    else
      day_while ical t_current_time n (i + 1) e_next_event1 t_temp_start t_temp_end) := rfl
theorem day_while_lin_succ (byday freq interval cnt : Nat) (S E now : Int) (n i : Nat) (x : Int) :
    day_while_lin byday freq interval cnt S E now (n + 1) i x =
      if lin_enabled byday (cand i x) = true then
        if now < lin_start S (cand i x) then
          some (ICALEVENT_START, lin_start S (cand i x))
        else if now < lin_end S E (cand i x) then
          match step_while freq interval (lin_end S E (cand i x)) now
              ((now - lin_start S (cand i x)).toNat + 1) (lin_start S (cand i x)) 0 with
          | none => none
          | some (y, c) =>
            if y ≤ lin_end S E (cand i x) then some (landed freq cnt y c)
            else day_while_lin byday freq interval cnt S E now n (i + 1) y
        else
          day_while_lin byday freq interval cnt S E now n (i + 1) (cand i x)
      else
        day_while_lin byday freq interval cnt S E now n (i + 1) (cand i x) := rfl

theorem set_times_start (x : Int) (ts te : Tm) :
    (mktime (_ical_set_new_start_and_end_times (localtime x) ts te).1).1
      = x / 86400 * 86400 + tod ts := by
  simp only [_ical_set_new_start_and_end_times, mktime_fst, mktime_snd]
  split <;> simp only [timestamp_localtime, timestamp_reanchor]

theorem set_times_end (x : Int) (ts te : Tm) :
    (mktime (_ical_set_new_start_and_end_times (localtime x) ts te).2).1
      = if tod ts > tod te then x / 86400 * 86400 + tod te + 86400
        else x / 86400 * 86400 + tod te := by
  simp only [_ical_set_new_start_and_end_times, mktime_fst, mktime_snd, timestamp_reanchor,
    ONE_DAY_eq]
  by_cases h : tod ts > tod te
  · have h' : x / 86400 * 86400 + tod ts > x / 86400 * 86400 + tod te := by omega
    simp only [h, h', if_true, timestamp_localtime]
  · have h' : ¬ x / 86400 * 86400 + tod ts > x / 86400 * 86400 + tod te := by omega
    simp only [h, h', if_false, timestamp_localtime, timestamp_reanchor]

theorem tod_mktime_snd (t : Tm) : tod (mktime t).2 = (mktime t).1 % 86400 := by
  rw [mktime_snd, tod_localtime, mktime_fst]

theorem day_while_eq_lin (ical : ICAL) (tc : Tm) (S E : Int)
    (hS : 0 ≤ S ∧ S < 86400) (hE : 0 ≤ E ∧ E < 86400) :
    ∀ (n i : Nat) (x : Int) (ts te : Tm), tod ts = S → tod te = E →
      day_while ical tc n i x ts te
        = day_while_lin ical.byday ical.freq ical.interval ical.count S E (mktime tc).1 n i x := by
  intro n
  induction n with
  | zero => intro i x ts te _ _; rfl
  | succ n ih =>
    intro i x ts te hts hte
    have hs' : ∀ y : Int, tod (mktime (_ical_set_new_start_and_end_times (localtime y) ts te).1).2
        = S := by
      intro y; rw [tod_mktime_snd, set_times_start, hts]; omega
    have he' : ∀ y : Int, tod (mktime (_ical_set_new_start_and_end_times (localtime y) ts te).2).2
        = E := by
      intro y; rw [tod_mktime_snd, set_times_end, hts, hte]; split <;> omega
    rw [day_while_succ, day_while_lin_succ]
    simp only [localtime_wday, set_times_start, set_times_end, hts, hte, ONE_DAY_eq]
    simp only [ih _ _ _ _ (hs' _) (he' _), ih _ _ _ _ hts hte]
    have hc : (if i = 0 then x - 86400 else x + 86400) = cand i x := rfl
    rw [hc]
    have hls : cand i x / 86400 * 86400 + S = lin_start S (cand i x) := rfl
    have hle : (if S > E then cand i x / 86400 * 86400 + E + 86400
        else cand i x / 86400 * 86400 + E) = lin_end S E (cand i x) := rfl
    have hen : _is_day_of_week ((cand i x / 86400 + 4) % 7).toNat ical.byday
        = lin_enabled ical.byday (cand i x) := rfl
    rw [hls, hle, hen]
    by_cases h1 : lin_enabled ical.byday (cand i x) = true
    · rw [if_pos h1, if_pos h1]
      by_cases h2 : (mktime tc).1 < lin_start S (cand i x)
      · rw [if_pos h2, if_pos h2]
      · rw [if_neg h2, if_neg h2]
        by_cases h3 : (mktime tc).1 < lin_end S E (cand i x)
        · rw [if_pos h3, if_pos ⟨by omega, h3⟩]
          cases step_while ical.freq ical.interval (lin_end S E (cand i x)) (mktime tc).1
            (((mktime tc).1 - lin_start S (cand i x)).toNat + 1) (lin_start S (cand i x)) 0 with
          | none => rfl
          | some r =>
            obtain ⟨y, c⟩ := r
            simp only [landed, recur_kind]
            split_ifs <;> rfl
        · rw [if_neg h3, if_neg (fun h => h3 h.2)]
    · rw [if_neg h1, if_neg h1]

/-! ## The stepping loop -/

theorem step_seconds_pos (freq interval : Nat) (hf : freq = SECONDLY ∨ freq = MINUTELY ∨ freq = HOURLY)
    (hi : interval ≠ 0) : 0 < step_seconds freq interval := by
  rcases hf with h | h | h <;> subst h <;> simp only [step_seconds, SECONDLY, MINUTELY, HOURLY] <;> omega

/-- One pass through the body of the stepping loop for a recurring frequency. -/
theorem step_while_succ_recur (freq interval : Nat) (e now : Int) (fuel : Nat) (x : Int) (c : Nat)
    (hf : freq = SECONDLY ∨ freq = MINUTELY ∨ freq = HOURLY) (hx : x ≤ now) :
    step_while freq interval e now (fuel + 1) x c
      = step_while freq interval e now fuel (x + step_seconds freq interval) ((c + 1) % 256) := by
  rw [step_while_succ, if_pos hx]
  rcases hf with h | h | h <;> subst h <;> rfl

theorem step_while_exit (freq interval : Nat) (e now : Int) (fuel : Nat) (x : Int) (c : Nat)
    (hx : now < x) : step_while freq interval e now fuel x c = some (x, c) := by
  cases fuel with
  | zero => simp only [step_while]; rw [if_neg (by omega)]
  | succ f => rw [step_while_succ, if_neg (by omega)]

/-- The stepping loop for a recurring frequency: `k` steps lead from `x` to the first stepped
time after `now`. -/
theorem step_while_recur (freq interval : Nat) (e now : Int)
    (hf : freq = SECONDLY ∨ freq = MINUTELY ∨ freq = HOURLY) :
    ∀ (k fuel : Nat) (x : Int) (c : Nat), k ≤ fuel →
      (∀ j : Nat, j < k → x + j * step_seconds freq interval ≤ now) →
      now < x + k * step_seconds freq interval →
      step_while freq interval e now fuel x c
        = some (x + k * step_seconds freq interval, if k = 0 then c else (c + k) % 256) := by
  intro k
  induction k with
  | zero =>
    intro fuel x c _ _ hhi
    simp only [Nat.cast_zero, zero_mul, add_zero] at hhi
    rw [step_while_exit _ _ _ _ _ _ _ hhi]
    simp only [Nat.cast_zero, zero_mul, add_zero, if_true]
  | succ k ih =>
    intro fuel x c hfuel hlo hhi
    obtain ⟨f, rfl⟩ : ∃ f, fuel = f + 1 := ⟨fuel - 1, by omega⟩
    have hx : x ≤ now := by simpa using hlo 0 (by omega)
    rw [step_while_succ_recur _ _ _ _ _ _ _ hf hx]
    rw [ih f _ _ (by omega)]
    · have h1 : x + step_seconds freq interval + (k : Int) * step_seconds freq interval
          = x + ((k + 1 : Nat) : Int) * step_seconds freq interval := by push_cast; ring
      have h2 : (if k = 0 then (c + 1) % 256 else ((c + 1) % 256 + k) % 256)
          = (if k + 1 = 0 then c else (c + (k + 1)) % 256) := by
        split <;> simp only [Nat.succ_ne_zero, if_false] <;> omega
      rw [h1, h2]
    · intro j hj
      have := hlo (j + 1) (by omega)
      push_cast at this
      linarith
    · push_cast at hhi
      linarith

/-! ## The entry point on the linear time axis -/

theorem mktime_mktime_snd (t : Tm) : (mktime (mktime t).2).1 = (mktime t).1 := by
  simp only [mktime_fst, mktime_snd, timestamp_localtime]

theorem day_enabled_iff (ical : ICAL) (D : Int) :
    day_enabled ical D ↔ _is_day_of_week ((D + 4) % 7).toNat ical.byday = true := by
  unfold day_enabled
  rw [localtime_wday, ONE_DAY_eq]
  have h : D * 86400 / 86400 = D := by omega
  rw [h]

theorem day_start_eq (ical : ICAL) (D : Int) :
    day_start ical D = D * 86400 + window_start ical % 86400 := by
  unfold day_start window_start
  rw [set_times_start, tod_mktime_snd, ONE_DAY_eq]
  omega

theorem day_end_eq (ical : ICAL) (D : Int) :
    day_end ical D =
      if window_start ical % 86400 > window_end ical % 86400
      then D * 86400 + window_end ical % 86400 + 86400
      else D * 86400 + window_end ical % 86400 := by
  unfold day_end window_start window_end
  rw [set_times_end, tod_mktime_snd, tod_mktime_snd, ONE_DAY_eq]
  have h : D * 86400 / 86400 * 86400 = D * 86400 := by omega
  rw [h]

/-- The check for `ICALERROR_INVALID_RECURRENCE` never fires on a rule that passed the
earlier checks. -/
theorem recurrence_check_false (ical : ICAL) (hv : Valid ical) :
    ¬ (ical.interval % 168 = 0 ∧ ical.freq = HOURLY) := by
  obtain ⟨_, h2, h3, _, _⟩ := hv
  intro ⟨h, hf⟩
  have : ¬ ical.interval > 24 := fun hh => h3 ⟨hh, hf⟩
  omega

/-- The result of `ical_find_next_event` for an enabled valid rule inside its window, in terms
of the day loop on the linear time axis. -/
theorem find_next_event_active (ical : ICAL) (tc tn : Tm) (hv : Valid ical)
    (hen : ical.enabled = true) (h1 : window_start ical ≤ (mktime tc).1)
    (h2 : (mktime tc).1 < window_end ical) :
    ical_find_next_event ical tc tn =
      match day_while_lin ical.byday ical.freq ical.interval ical.count
        (window_start ical % 86400) (window_end ical % 86400) (mktime tc).1 10 0 (mktime tc).1 with
      | none => none
      | some (event, x) =>
        if x > window_end ical then some (ICALEVENT_NONE, localtime x)
        else some (event, localtime x) := by
  have hr := recurrence_check_false ical hv
  obtain ⟨v1, v2, v3, v4, v5⟩ := hv
  unfold window_start window_end at *
  have hS : 0 ≤ (mktime ical.t_start).1 % 86400 ∧ (mktime ical.t_start).1 % 86400 < 86400 := by
    omega
  have hE : 0 ≤ (mktime ical.t_end).1 % 86400 ∧ (mktime ical.t_end).1 % 86400 < 86400 := by
    omega
  have hr' : ¬ (_is_day_of_week ((mktime ical.t_start).2.tm_wday % 256).toNat ical.byday = false ∧
      ical.interval % 168 = 0 ∧ ical.freq = HOURLY) := fun h => hr h.2
  have hlt : ¬ (mktime tc).1 < (mktime ical.t_start).1 := by omega
  unfold ical_find_next_event
  simp only [if_neg v1, if_neg v2, if_neg v3, if_neg v4, if_neg v5, if_neg hr', ical_is_enabled,
    hen, if_true, if_neg hlt, ge_iff_le, h1, h2, and_self]
  unfold _ical_find_next_recur_event
  simp only [mktime_mktime_snd]
  rw [day_while_eq_lin _ _ _ _ hS hE 10 0 _ _ _ (tod_mktime_snd _) (tod_mktime_snd _)]
  simp only [mktime_mktime_snd]

/-! ## The four ways through the body of the day loop -/

theorem lin_skip (byday freq interval cnt : Nat) (S E now : Int) (n i : Nat) (x : Int)
    (h : ¬ lin_enabled byday (cand i x) = true) :
    day_while_lin byday freq interval cnt S E now (n + 1) i x
      = day_while_lin byday freq interval cnt S E now n (i + 1) (cand i x) := by
  rw [day_while_lin_succ, if_neg h]

theorem lin_before (byday freq interval cnt : Nat) (S E now : Int) (n i : Nat) (x : Int)
    (h : lin_enabled byday (cand i x) = true) (h1 : now < lin_start S (cand i x)) :
    day_while_lin byday freq interval cnt S E now (n + 1) i x
      = some (ICALEVENT_START, lin_start S (cand i x)) := by
  rw [day_while_lin_succ, if_pos h, if_pos h1]

theorem lin_after (byday freq interval cnt : Nat) (S E now : Int) (n i : Nat) (x : Int)
    (h1 : ¬ now < lin_start S (cand i x)) (h2 : ¬ now < lin_end S E (cand i x)) :
    day_while_lin byday freq interval cnt S E now (n + 1) i x
      = day_while_lin byday freq interval cnt S E now n (i + 1) (cand i x) := by
  rw [day_while_lin_succ, if_neg h1, if_neg h2]
  split <;> rfl

theorem lin_inside (byday freq interval cnt : Nat) (S E now : Int) (n i : Nat) (x : Int)
    (y : Int) (c : Nat)
    (h : lin_enabled byday (cand i x) = true) (h1 : ¬ now < lin_start S (cand i x))
    (h2 : now < lin_end S E (cand i x))
    (hs : step_while freq interval (lin_end S E (cand i x)) now
      ((now - lin_start S (cand i x)).toNat + 1) (lin_start S (cand i x)) 0 = some (y, c)) :
    day_while_lin byday freq interval cnt S E now (n + 1) i x
      = if y ≤ lin_end S E (cand i x) then some (landed freq cnt y c)
        else day_while_lin byday freq interval cnt S E now n (i + 1) y := by
  rw [day_while_lin_succ, if_pos h, if_neg h1, if_pos h2, hs]

/-! ## Termination of the loops -/

/-- The stepping loop returns when the frequency is one of the four defined values and the
interval is not zero: the fuel `now - x + 1` is enough. -/
theorem step_while_isSome (freq interval : Nat) (e now : Int) (hf : freq ≤ 3)
    (hi : interval ≠ 0) (he : now < e) :
    ∀ (fuel : Nat) (x : Int) (c : Nat), now - x < fuel →
      ∃ r, step_while freq interval e now fuel x c = some r := by
  intro fuel
  induction fuel with
  | zero =>
    intro x c h
    exact ⟨_, step_while_exit _ _ _ _ _ _ _ (by simpa using h)⟩
  | succ f ih =>
    intro x c h
    by_cases hx : x ≤ now
    · rw [step_while_succ, if_pos hx]
      have h3 : freq = 0 ∨ freq = 1 ∨ freq = 2 ∨ freq = 3 := by omega
      have hi' : (1 : Int) ≤ interval := by omega
      rcases h3 with h0 | h0 | h0 | h0 <;> subst h0 <;> simp only [] <;> apply ih <;>
        push_cast at h ⊢ <;> omega
    · exact ⟨_, step_while_exit _ _ _ _ _ _ _ (by omega)⟩

theorem landed_kind (freq cnt : Nat) (y : Int) (c : Nat) :
    (landed freq cnt y c).2 = y ∧
    ((landed freq cnt y c).1 = ICALEVENT_NONE ∨ (landed freq cnt y c).1 = recur_kind freq) := by
  unfold landed
  split_ifs <;> simp

theorem recur_kind_cases (freq : Nat) :
    recur_kind freq = ICALEVENT_RECUR ∨ recur_kind freq = ICALEVENT_END := by
  unfold recur_kind
  split_ifs <;> simp

/-- The day loop returns, with one of the four event kinds, when the frequency is one of the
four defined values and the interval is not zero. -/
theorem day_while_lin_total (byday freq interval cnt : Nat) (S E now : Int) (hf : freq ≤ 3)
    (hi : interval ≠ 0) :
    ∀ (n i : Nat) (x : Int), ∃ ev y,
      day_while_lin byday freq interval cnt S E now n i x = some (ev, y) ∧
      (ev = ICALEVENT_NONE ∨ ev = ICALEVENT_START ∨ ev = ICALEVENT_RECUR ∨
        ev = ICALEVENT_END) := by
  intro n
  induction n with
  | zero => intro i x; exact ⟨_, _, rfl, Or.inl rfl⟩
  | succ n ih =>
    intro i x
    by_cases h : lin_enabled byday (cand i x) = true
    · by_cases h1 : now < lin_start S (cand i x)
      · exact ⟨_, _, lin_before _ _ _ _ _ _ _ _ _ _ h h1, Or.inr (Or.inl rfl)⟩
      · by_cases h2 : now < lin_end S E (cand i x)
        · obtain ⟨⟨y, c⟩, hr⟩ := step_while_isSome freq interval _ now hf hi h2
            ((now - lin_start S (cand i x)).toNat + 1) (lin_start S (cand i x)) 0 (by omega)
          rw [lin_inside _ _ _ _ _ _ _ _ _ _ y c h h1 h2 hr]
          by_cases h3 : y ≤ lin_end S E (cand i x)
          · rw [if_pos h3]
            refine ⟨(landed freq cnt y c).1, (landed freq cnt y c).2, rfl, ?_⟩
            rcases (landed_kind freq cnt y c).2 with hk | hk
            · exact Or.inl hk
            · rw [hk]
              rcases recur_kind_cases freq with hk2 | hk2 <;> rw [hk2] <;> simp
          · rw [if_neg h3]
            exact ih _ _
        · rw [lin_after _ _ _ _ _ _ _ _ _ _ h1 h2]
          exact ih _ _
    · rw [lin_skip _ _ _ _ _ _ _ _ _ _ h]
      exact ih _ _

/-! ## Validation and the window classification -/

/-- The result for a rule that passes the validation. -/
theorem find_next_event_valid (ical : ICAL) (tc tn : Tm) (hv : Valid ical) :
    ical_find_next_event ical tc tn =
      if ical.enabled = true then
        if (mktime tc).1 < window_start ical then
          some (ICALEVENT_START, localtime (window_start ical))
        else if (mktime tc).1 ≥ window_start ical ∧ (mktime tc).1 < window_end ical then
          _ical_find_next_recur_event
            { ical with t_start := (mktime ical.t_start).2, t_end := (mktime ical.t_end).2 }
            (mktime tc).2
        else some (ICALEVENT_NONE, tn)
      else some (ICALEVENT_NONE, tn) := by
  have hr := recurrence_check_false ical hv
  obtain ⟨v1, v2, v3, v4, v5⟩ := hv
  unfold window_start window_end at *
  have hr' : ¬ (_is_day_of_week ((mktime ical.t_start).2.tm_wday % 256).toNat ical.byday = false ∧
      ical.interval % 168 = 0 ∧ ical.freq = HOURLY) := fun h => hr h.2
  unfold ical_find_next_event
  simp only [if_neg v1, if_neg v2, if_neg v3, if_neg v4, if_neg v5, if_neg hr', ical_is_enabled]
  by_cases hen : ical.enabled = true
  · simp only [hen, if_true]
    rfl
  · simp only [hen, if_false]
    rfl

/-- The result for a rule that fails the validation is one of the four error kinds of the
checks of the window, the interval, the weekday mask and the frequency, in this order. -/
theorem find_next_event_invalid (ical : ICAL) (tc tn : Tm) :
    (window_start ical > window_end ical →
      ical_find_next_event ical tc tn = some (ICALERROR_START_GREATER_THAN_END, tn)) ∧
    (¬ window_start ical > window_end ical →
      (ical.interval = 0 ∨ (ical.interval > 24 ∧ ical.freq = HOURLY)) →
      ical_find_next_event ical tc tn = some (ICALERROR_INVALID_INTERVAL, tn)) ∧
    (¬ window_start ical > window_end ical →
      ¬ (ical.interval = 0 ∨ (ical.interval > 24 ∧ ical.freq = HOURLY)) →
      (ical.byday = 0 ∨ ical.byday > 0x7F) →
      ical_find_next_event ical tc tn = some (ICALERROR_INVALID_BYDAY, tn)) ∧
    (¬ window_start ical > window_end ical →
      ¬ (ical.interval = 0 ∨ (ical.interval > 24 ∧ ical.freq = HOURLY)) →
      ¬ (ical.byday = 0 ∨ ical.byday > 0x7F) → ical.freq > 3 →
      ical_find_next_event ical tc tn = some (ICALERROR_INVALID_FREQ, tn)) := by
  unfold window_start window_end
  refine ⟨?_, ?_, ?_, ?_⟩
  · intro h1
    unfold ical_find_next_event
    simp only [if_pos h1]
  · intro h1 h2
    unfold ical_find_next_event
    simp only [if_neg h1]
    by_cases h : ical.interval = 0
    · simp only [if_pos h]
    · simp only [if_neg h]
      rcases h2 with h2 | h2
      · exact absurd h2 h
      · simp only [if_pos h2]
  · intro h1 h2 h3
    unfold ical_find_next_event
    have h2a : ¬ ical.interval = 0 := fun h => h2 (Or.inl h)
    have h2b : ¬ (ical.interval > 24 ∧ ical.freq = HOURLY) := fun h => h2 (Or.inr h)
    simp only [if_neg h1, if_neg h2a, if_neg h2b, if_pos h3]
  · intro h1 h2 h3 h4
    unfold ical_find_next_event
    have h2a : ¬ ical.interval = 0 := fun h => h2 (Or.inl h)
    have h2b : ¬ (ical.interval > 24 ∧ ical.freq = HOURLY) := fun h => h2 (Or.inr h)
    simp only [if_neg h1, if_neg h2a, if_neg h2b, if_neg h3, if_pos h4]

theorem valid_iff (ical : ICAL) :
    Valid ical ↔ (¬ window_start ical > window_end ical ∧
      ¬ (ical.interval = 0 ∨ (ical.interval > 24 ∧ ical.freq = HOURLY)) ∧
      ¬ (ical.byday = 0 ∨ ical.byday > 0x7F) ∧ ¬ ical.freq > 3) := by
  unfold Valid
  tauto

/-- The interior search returns, with one of the four event kinds. -/
theorem find_next_event_active_total (ical : ICAL) (tc tn : Tm) (hv : Valid ical)
    (hen : ical.enabled = true) (h1 : window_start ical ≤ (mktime tc).1)
    (h2 : (mktime tc).1 < window_end ical) :
    ∃ ev y, ical_find_next_event ical tc tn = some (ev, localtime y) ∧
      (ev = ICALEVENT_NONE ∨ ev = ICALEVENT_START ∨ ev = ICALEVENT_RECUR ∨
        ev = ICALEVENT_END) := by
  rw [find_next_event_active ical tc tn hv hen h1 h2]
  obtain ⟨ev, y, hy, hk⟩ := day_while_lin_total ical.byday ical.freq ical.interval ical.count
    (window_start ical % 86400) (window_end ical % 86400) (mktime tc).1
    (by have := hv.2.2.2.2; omega) hv.2.1 10 0 (mktime tc).1
  rw [hy]
  by_cases h : y > window_end ical
  · exact ⟨_, y, by simp only [if_pos h], Or.inl rfl⟩
  · exact ⟨ev, y, by simp only [if_neg h], hk⟩

/-! ## The stepping loop and the day-local window that holds the current time -/

theorem step_while_first (freq interval : Nat) (s e now : Int) (k : Nat) (T : Int)
    (h : first_step_after freq interval s e now k T) (hs : s ≤ now) (he : now < e) :
    step_while freq interval e now ((now - s).toNat + 1) s 0 = some (T, k % 256) := by
  rcases h with ⟨hf, hk, hT⟩ | ⟨hf, hk, hT, hlo, hhi⟩
  · subst hf hk hT
    rw [step_while_succ, if_pos hs]
    exact step_while_exit _ _ _ _ _ _ _ he
  · have hpos : 0 < step_seconds freq interval := by omega
    have hk1 : ((k - 1 : Nat) : Int) = (k : Int) - 1 := by omega
    have hmul : ∀ j : Nat, j < k →
        (j : Int) * step_seconds freq interval ≤ ((k : Int) - 1) * step_seconds freq interval := by
      intro j hj
      apply mul_le_mul_of_nonneg_right _ (le_of_lt hpos)
      omega
    have hTe : T - step_seconds freq interval
        = s + ((k : Int) - 1) * step_seconds freq interval := by rw [hT]; ring
    have hfuel : k ≤ (now - s).toNat + 1 := by
      have h1 : ((k : Int) - 1) * 1 ≤ ((k : Int) - 1) * step_seconds freq interval := by
        apply mul_le_mul_of_nonneg_left _ (by omega)
        omega
      omega
    rw [step_while_recur freq interval e now hf k _ s 0 hfuel ?_ (by rw [← hT]; exact hhi)]
    · rw [← hT]
      have hk0 : ¬ k = 0 := by omega
      simp only [if_neg hk0, Nat.zero_add]
    · intro j hj
      have := hmul j hj
      omega

theorem lin_start_congr (S x1 x2 : Int) (h : x1 / 86400 = x2 / 86400) :
    lin_start S x1 = lin_start S x2 := by
  unfold lin_start; rw [h]

theorem lin_end_congr (S E x1 x2 : Int) (h : x1 / 86400 = x2 / 86400) :
    lin_end S E x1 = lin_end S E x2 := by
  unfold lin_end; rw [h]

theorem lin_enabled_congr (byday : Nat) (x1 x2 : Int) (h : x1 / 86400 = x2 / 86400) :
    lin_enabled byday x1 = lin_enabled byday x2 := by
  unfold lin_enabled; rw [h]

theorem lin_end_le (S E x1 : Int) (hS : 0 ≤ S ∧ S < 86400) (hE : 0 ≤ E ∧ E < 86400) :
    lin_end S E x1 ≤ lin_start S x1 + 86400 := by
  unfold lin_end lin_start
  split <;> omega

/-- When the current time lies in the day-local window of an enabled date and the stepping
loop lands inside this window, the day loop stops there: the date is the candidate of the
first pass (the day before) or of the second pass (the day of the current time). -/
theorem lin_window_hit (byday freq interval cnt : Nat) (S E now : Int)
    (hS : 0 ≤ S ∧ S < 86400) (hE : 0 ≤ E ∧ E < 86400) (D : Int) (y : Int) (c : Nat)
    (hen : lin_enabled byday (D * 86400) = true)
    (h1 : lin_start S (D * 86400) ≤ now) (h2 : now < lin_end S E (D * 86400))
    (hstep : step_while freq interval (lin_end S E (D * 86400)) now
      ((now - lin_start S (D * 86400)).toNat + 1) (lin_start S (D * 86400)) 0 = some (y, c))
    (hy : y ≤ lin_end S E (D * 86400)) (n : Nat) :
    day_while_lin byday freq interval cnt S E now (n + 2) 0 now = some (landed freq cnt y c) := by
  have hle := lin_end_le S E (D * 86400) hS hE
  have hD : D = (now - 86400) / 86400 ∨ D = now / 86400 := by
    unfold lin_start at h1 hle
    omega
  have hc0 : cand 0 now = now - 86400 := rfl
  rcases hD with hD | hD
  · have hq : cand 0 now / 86400 = D * 86400 / 86400 := by rw [hc0]; omega
    have e1 := lin_start_congr S _ _ hq
    have e2 := lin_end_congr S E _ _ hq
    have e3 := lin_enabled_congr byday _ _ hq
    rw [lin_inside byday freq interval cnt S E now (n + 1) 0 now y c (by rw [e3]; exact hen)
      (by rw [e1]; omega) (by rw [e2]; exact h2) (by rw [e1, e2]; exact hstep)]
    rw [e2, if_pos hy]
  · have hq : cand 1 (cand 0 now) / 86400 = D * 86400 / 86400 := by
      have : cand 1 (cand 0 now) = now := by unfold cand; simp
      rw [this]; omega
    have e1 := lin_start_congr S _ _ hq
    have e2 := lin_end_congr S E _ _ hq
    have e3 := lin_enabled_congr byday _ _ hq
    have hpass0 : day_while_lin byday freq interval cnt S E now (n + 2) 0 now
        = day_while_lin byday freq interval cnt S E now (n + 1) 1 (cand 0 now) := by
      by_cases h : lin_enabled byday (cand 0 now) = true
      · apply lin_after
        · unfold lin_start at h1 ⊢; rw [hc0]; omega
        · have := lin_end_le S E (cand 0 now) hS hE
          unfold lin_start at h1 this; rw [hc0] at this ⊢; omega
      · exact lin_skip _ _ _ _ _ _ _ _ _ _ h
    rw [hpass0]
    rw [lin_inside byday freq interval cnt S E now n 1 (cand 0 now) y c (by rw [e3]; exact hen)
      (by rw [e1]; omega) (by rw [e2]; exact h2) (by rw [e1, e2]; exact hstep)]
    rw [e2, if_pos hy]

theorem day_start_lin (ical : ICAL) (D : Int) :
    day_start ical D = lin_start (window_start ical % 86400) (D * 86400) := by
  rw [day_start_eq]; unfold lin_start; omega

theorem day_end_lin (ical : ICAL) (D : Int) :
    day_end ical D
      = lin_end (window_start ical % 86400) (window_end ical % 86400) (D * 86400) := by
  rw [day_end_eq]; unfold lin_end
  have h : D * 86400 / 86400 * 86400 = D * 86400 := by omega
  rw [h]

theorem day_enabled_lin (ical : ICAL) (D : Int) :
    day_enabled ical D ↔ lin_enabled ical.byday (D * 86400) = true := by
  rw [day_enabled_iff]; unfold lin_enabled
  have h : D * 86400 / 86400 = D := by omega
  rw [h]

/-- The result of `ical_find_next_event` when the current time lies in the window of the rule
and in the day-local window of an enabled date, and the first stepped time `T` after the
current time, reached in `k` steps, is not after the day-local end. -/
theorem active_window_hit (ical : ICAL) (tc tn : Tm) (D : Int) (k : Nat) (T : Int)
    (hv : Valid ical) (hen : ical.enabled = true)
    (h1 : window_start ical ≤ (mktime tc).1) (h2 : (mktime tc).1 < window_end ical)
    (hD : day_enabled ical D) (hs : day_start ical D ≤ (mktime tc).1)
    (he : (mktime tc).1 < day_end ical D)
    (hk : first_step_after ical.freq ical.interval (day_start ical D) (day_end ical D)
      (mktime tc).1 k T)
    (hT : T ≤ day_end ical D) :
    ical_find_next_event ical tc tn =
      if T > window_end ical then some (ICALEVENT_NONE, localtime T)
      else some ((landed ical.freq ical.count T (k % 256)).1, localtime T) := by
  rw [find_next_event_active ical tc tn hv hen h1 h2]
  have hstep := step_while_first _ _ _ _ _ _ _ hk hs he
  rw [day_start_lin, day_end_lin] at hstep
  rw [day_start_lin] at hs
  rw [day_end_lin] at he hT
  rw [lin_window_hit ical.byday ical.freq ical.interval ical.count _ _ _ (by omega) (by omega)
    D T (k % 256) ((day_enabled_lin ical D).1 hD) hs he hstep hT 8]
  have h := (landed_kind ical.freq ical.count T (k % 256)).1
  generalize landed ical.freq ical.count T (k % 256) = r at h ⊢
  obtain ⟨ev, y⟩ := r
  simp only at h
  subst h
  rfl

/-! ## Where the result of the day loop comes from -/

theorem lin_inside_none (byday freq interval cnt : Nat) (S E now : Int) (n i : Nat) (x : Int)
    (h : lin_enabled byday (cand i x) = true) (h1 : ¬ now < lin_start S (cand i x))
    (h2 : now < lin_end S E (cand i x))
    (hs : step_while freq interval (lin_end S E (cand i x)) now
      ((now - lin_start S (cand i x)).toNat + 1) (lin_start S (cand i x)) 0 = none) :
    day_while_lin byday freq interval cnt S E now (n + 1) i x = none := by
  rw [day_while_lin_succ, if_pos h, if_neg h1, if_pos h2, hs]

/-- Every result of the day loop is `ICALEVENT_NONE`, or the start of the day-local window of
an enabled date that lies after the current time, or the time at which the stepping loop
landed in the day-local window of an enabled date that holds the current time. -/
theorem lin_result_cases (byday freq interval cnt : Nat) (S E now : Int) :
    ∀ (n i : Nat) (x : Int) (ev : ICALEVENT) (y : Int),
      day_while_lin byday freq interval cnt S E now n i x = some (ev, y) →
      ev = ICALEVENT_NONE ∨
      (∃ x1, lin_enabled byday x1 = true ∧ now < lin_start S x1 ∧ ev = ICALEVENT_START ∧
        y = lin_start S x1) ∨
      (∃ x1 c, lin_enabled byday x1 = true ∧ lin_start S x1 ≤ now ∧ now < lin_end S E x1 ∧
        step_while freq interval (lin_end S E x1) now ((now - lin_start S x1).toNat + 1)
          (lin_start S x1) 0 = some (y, c) ∧
        y ≤ lin_end S E x1 ∧ landed freq cnt y c = (ev, y)) := by
  intro n
  induction n with
  | zero =>
    intro i x ev y h
    simp only [day_while_lin, Option.some.injEq, Prod.mk.injEq] at h
    exact Or.inl h.1.symm
  | succ n ih =>
    intro i x ev y h
    by_cases h0 : lin_enabled byday (cand i x) = true
    · by_cases h1 : now < lin_start S (cand i x)
      · rw [lin_before _ _ _ _ _ _ _ _ _ _ h0 h1] at h
        simp only [Option.some.injEq, Prod.mk.injEq] at h
        exact Or.inr (Or.inl ⟨cand i x, h0, h1, h.1.symm, h.2.symm⟩)
      · by_cases h2 : now < lin_end S E (cand i x)
        · cases hst : step_while freq interval (lin_end S E (cand i x)) now
            ((now - lin_start S (cand i x)).toNat + 1) (lin_start S (cand i x)) 0 with
          | none =>
            rw [lin_inside_none _ _ _ _ _ _ _ _ _ _ h0 h1 h2 hst] at h
            exact absurd h (by simp)
          | some r =>
            obtain ⟨y1, c⟩ := r
            rw [lin_inside _ _ _ _ _ _ _ _ _ _ y1 c h0 h1 h2 hst] at h
            by_cases h3 : y1 ≤ lin_end S E (cand i x)
            · rw [if_pos h3] at h
              simp only [Option.some.injEq] at h
              have hy : y1 = y := by
                have := (landed_kind freq cnt y1 c).1
                rw [h] at this
                exact this.symm
              subst hy
              exact Or.inr (Or.inr ⟨cand i x, c, h0, by omega, h2, hst, h3, h⟩)
            · rw [if_neg h3] at h
              exact ih _ _ _ _ h
        · rw [lin_after _ _ _ _ _ _ _ _ _ _ h1 h2] at h
          exact ih _ _ _ _ h
    · rw [lin_skip _ _ _ _ _ _ _ _ _ _ h0] at h
      exact ih _ _ _ _ h

/-- Every result of the stepping loop for a recurring frequency is a number `k` of steps away
from the start, lies after the current time, and the step before it does not. -/
theorem step_while_result (freq interval : Nat) (e now : Int)
    (hf : freq = SECONDLY ∨ freq = MINUTELY ∨ freq = HOURLY) :
    ∀ (fuel : Nat) (x : Int) (c : Nat) (y : Int) (c1 : Nat),
      step_while freq interval e now fuel x c = some (y, c1) →
      ∃ k : Nat, y = x + k * step_seconds freq interval ∧ now < y ∧
        (x ≤ now → 1 ≤ k ∧ y - step_seconds freq interval ≤ now) := by
  intro fuel
  induction fuel with
  | zero =>
    intro x c y c1 h
    simp only [step_while] at h
    by_cases hx : x ≤ now
    · rw [if_pos hx] at h; exact absurd h (by simp)
    · rw [if_neg hx] at h
      simp only [Option.some.injEq, Prod.mk.injEq] at h
      exact ⟨0, by simp [h.1], by omega, fun h' => absurd h' hx⟩
  | succ f ih =>
    intro x c y c1 h
    by_cases hx : x ≤ now
    · rw [step_while_succ_recur _ _ _ _ _ _ _ hf hx] at h
      by_cases hx2 : x + step_seconds freq interval ≤ now
      · obtain ⟨k, hk1, hk2, hk3⟩ := ih _ _ _ _ h
        exact ⟨k + 1, by rw [hk1]; push_cast; ring, hk2, fun _ => ⟨by omega, (hk3 hx2).2⟩⟩
      · rw [step_while_exit _ _ _ _ _ _ _ (by omega)] at h
        simp only [Option.some.injEq, Prod.mk.injEq] at h
        exact ⟨1, by rw [← h.1]; simp, by omega, fun _ => ⟨le_refl _, by omega⟩⟩
    · rw [step_while_succ, if_neg hx] at h
      simp only [Option.some.injEq, Prod.mk.injEq] at h
      exact ⟨0, by simp [h.1], by omega, fun h' => absurd h' hx⟩

/-! ## Where a recurrence returned by the entry point comes from -/

/-- A rule that fails the validation gets one of the four error kinds. -/
theorem find_next_event_not_valid (ical : ICAL) (tc tn : Tm) (hv : ¬ Valid ical) :
    ∃ ev, ical_find_next_event ical tc tn = some (ev, tn) ∧
      (ev = ICALERROR_START_GREATER_THAN_END ∨ ev = ICALERROR_INVALID_INTERVAL ∨
        ev = ICALERROR_INVALID_BYDAY ∨ ev = ICALERROR_INVALID_FREQ) := by
  have hinv := find_next_event_invalid ical tc tn
  rw [valid_iff] at hv
  by_cases h1 : window_start ical > window_end ical
  · exact ⟨_, hinv.1 h1, Or.inl rfl⟩
  · by_cases h2 : ical.interval = 0 ∨ (ical.interval > 24 ∧ ical.freq = HOURLY)
    · exact ⟨_, hinv.2.1 h1 h2, Or.inr (Or.inl rfl)⟩
    · by_cases h3 : ical.byday = 0 ∨ ical.byday > 0x7F
      · exact ⟨_, hinv.2.2.1 h1 h2 h3, Or.inr (Or.inr (Or.inl rfl))⟩
      · by_cases h4 : ical.freq > 3
        · exact ⟨_, hinv.2.2.2 h1 h2 h3 h4, Or.inr (Or.inr (Or.inr rfl))⟩
        · exact absurd ⟨h1, h2, h3, h4⟩ hv

/-- A result `ICALEVENT_RECUR` or `ICALEVENT_END` of `ical_find_next_event` comes from the
interior search: the rule is valid and enabled, the current time lies in the window, and the
time written is the time at which the stepping loop landed in the day-local window of an
enabled date that holds the current time. -/
theorem recur_result_origin (ical : ICAL) (tc tn : Tm) (ev : ICALEVENT) (t : Tm)
    (hev : ev = ICALEVENT_RECUR ∨ ev = ICALEVENT_END)
    (h : ical_find_next_event ical tc tn = some (ev, t)) :
    Valid ical ∧ ical.enabled = true ∧ window_start ical ≤ (mktime tc).1 ∧
    (mktime tc).1 < window_end ical ∧
    ∃ x1 c y, t = localtime y ∧ y ≤ window_end ical ∧ lin_enabled ical.byday x1 = true ∧
      lin_start (window_start ical % 86400) x1 ≤ (mktime tc).1 ∧
      (mktime tc).1 < lin_end (window_start ical % 86400) (window_end ical % 86400) x1 ∧
      step_while ical.freq ical.interval
        (lin_end (window_start ical % 86400) (window_end ical % 86400) x1) (mktime tc).1
        (((mktime tc).1 - lin_start (window_start ical % 86400) x1).toNat + 1)
        (lin_start (window_start ical % 86400) x1) 0 = some (y, c) ∧
      y ≤ lin_end (window_start ical % 86400) (window_end ical % 86400) x1 ∧
      landed ical.freq ical.count y c = (ev, y) := by
  by_cases hv : Valid ical
  · by_cases hen : ical.enabled = true
    · by_cases h1 : (mktime tc).1 < window_start ical
      · rw [find_next_event_valid ical tc tn hv, if_pos hen, if_pos h1] at h
        simp only [Option.some.injEq, Prod.mk.injEq] at h
        rcases hev with hev | hev <;> rw [hev] at h <;> exact absurd h.1 (by decide)
      · by_cases h2 : (mktime tc).1 < window_end ical
        · refine ⟨hv, hen, by omega, h2, ?_⟩
          rw [find_next_event_active ical tc tn hv hen (by omega) h2] at h
          cases hd : day_while_lin ical.byday ical.freq ical.interval ical.count
            (window_start ical % 86400) (window_end ical % 86400) (mktime tc).1 10 0
            (mktime tc).1 with
          | none => rw [hd] at h; exact absurd h (by simp)
          | some r =>
            obtain ⟨ev1, y⟩ := r
            rw [hd] at h
            simp only at h
            by_cases h3 : y > window_end ical
            · rw [if_pos h3] at h
              simp only [Option.some.injEq, Prod.mk.injEq] at h
              rcases hev with hev | hev <;> rw [hev] at h <;> exact absurd h.1 (by decide)
            · rw [if_neg h3] at h
              simp only [Option.some.injEq, Prod.mk.injEq] at h
              obtain ⟨he1, ht⟩ := h
              subst he1
              rcases lin_result_cases _ _ _ _ _ _ _ _ _ _ _ _ hd with hc | hc | hc
              · rcases hev with hev | hev <;> rw [hev] at hc <;> exact absurd hc (by decide)
              · obtain ⟨_, _, _, hc, _⟩ := hc
                rcases hev with hev | hev <;> rw [hev] at hc <;> exact absurd hc (by decide)
              · obtain ⟨x1, c, a1, a2, a3, a4, a5, a6⟩ := hc
                exact ⟨x1, c, y, ht.symm, by omega, a1, a2, a3, a4, a5, a6⟩
        · rw [find_next_event_valid ical tc tn hv, if_pos hen, if_neg h1,
            if_neg (fun hh => h2 hh.2)] at h
          simp only [Option.some.injEq, Prod.mk.injEq] at h
          rcases hev with hev | hev <;> rw [hev] at h <;> exact absurd h.1 (by decide)
    · rw [find_next_event_valid ical tc tn hv, if_neg hen] at h
      simp only [Option.some.injEq, Prod.mk.injEq] at h
      rcases hev with hev | hev <;> rw [hev] at h <;> exact absurd h.1 (by decide)
  · obtain ⟨ev1, he, hk⟩ := find_next_event_not_valid ical tc tn hv
    rw [he] at h
    simp only [Option.some.injEq, Prod.mk.injEq] at h
    rw [h.1] at hk
    rcases hev with hev | hev <;> rw [hev] at hk <;> exact absurd hk (by decide)

/-! ## Where a start returned by the entry point comes from, and the time of an event -/

/-- A result `ICALEVENT_START` of `ical_find_next_event` is the start of the window, when the
current time lies before it, or comes from the interior search: the start of the day-local
window of an enabled date that lies after the current time and not after the end of the
window. -/
theorem start_result_origin (ical : ICAL) (tc tn t : Tm)
    (h : ical_find_next_event ical tc tn = some (ICALEVENT_START, t)) :
    Valid ical ∧ ical.enabled = true ∧
    (((mktime tc).1 < window_start ical ∧ t = localtime (window_start ical)) ∨
     (window_start ical ≤ (mktime tc).1 ∧ (mktime tc).1 < window_end ical ∧
      ∃ x1, lin_enabled ical.byday x1 = true ∧
        (mktime tc).1 < lin_start (window_start ical % 86400) x1 ∧
        lin_start (window_start ical % 86400) x1 ≤ window_end ical ∧
        t = localtime (lin_start (window_start ical % 86400) x1))) := by
  by_cases hv : Valid ical
  · by_cases hen : ical.enabled = true
    · refine ⟨hv, hen, ?_⟩
      by_cases h1 : (mktime tc).1 < window_start ical
      · rw [find_next_event_valid ical tc tn hv, if_pos hen, if_pos h1] at h
        simp only [Option.some.injEq, Prod.mk.injEq, true_and] at h
        exact Or.inl ⟨h1, h.symm⟩
      · by_cases h2 : (mktime tc).1 < window_end ical
        · refine Or.inr ⟨by omega, h2, ?_⟩
          rw [find_next_event_active ical tc tn hv hen (by omega) h2] at h
          cases hd : day_while_lin ical.byday ical.freq ical.interval ical.count
            (window_start ical % 86400) (window_end ical % 86400) (mktime tc).1 10 0
            (mktime tc).1 with
          | none => rw [hd] at h; exact absurd h (by simp)
          | some r =>
            obtain ⟨ev1, y⟩ := r
            rw [hd] at h
            simp only at h
            by_cases h3 : y > window_end ical
            · rw [if_pos h3] at h
              simp only [Option.some.injEq, Prod.mk.injEq] at h
              exact absurd h.1 (by decide)
            · rw [if_neg h3] at h
              simp only [Option.some.injEq, Prod.mk.injEq] at h
              obtain ⟨he1, ht⟩ := h
              subst he1
              rcases lin_result_cases _ _ _ _ _ _ _ _ _ _ _ _ hd with hc | hc | hc
              · exact absurd hc (by decide)
              · obtain ⟨x1, a1, a2, _, a4⟩ := hc
                exact ⟨x1, a1, a2, by rw [← a4]; omega, by rw [← a4]; exact ht.symm⟩
              · obtain ⟨x1, c, _, _, _, _, _, a6⟩ := hc
                have hk := (landed_kind ical.freq ical.count y c).2
                rw [a6] at hk
                simp only at hk
                rcases hk with hk | hk
                · exact absurd hk (by decide)
                · rcases recur_kind_cases ical.freq with h5 | h5 <;> rw [h5] at hk <;>
                    exact absurd hk (by decide)
        · rw [find_next_event_valid ical tc tn hv, if_pos hen, if_neg h1,
            if_neg (fun hh => h2 hh.2)] at h
          simp only [Option.some.injEq, Prod.mk.injEq] at h
          exact absurd h.1 (by decide)
    · rw [find_next_event_valid ical tc tn hv, if_neg hen] at h
      simp only [Option.some.injEq, Prod.mk.injEq] at h
      exact absurd h.1 (by decide)
  · obtain ⟨ev1, he, hk⟩ := find_next_event_not_valid ical tc tn hv
    rw [he] at h
    simp only [Option.some.injEq, Prod.mk.injEq] at h
    rw [h.1] at hk
    rcases hk with hk | hk | hk | hk <;> exact absurd hk (by decide)

theorem mktime_localtime_fst (e : Int) : (mktime (localtime e)).1 = e := by
  rw [mktime_fst, timestamp_localtime]

/-- The stepping loop ends after the current time, whatever the frequency. -/
theorem step_while_gt (freq interval : Nat) (e now : Int) :
    ∀ (fuel : Nat) (x : Int) (c : Nat) (y : Int) (c1 : Nat),
      step_while freq interval e now fuel x c = some (y, c1) → now < y := by
  intro fuel
  induction fuel with
  | zero =>
    intro x c y c1 h
    simp only [step_while] at h
    by_cases hx : x ≤ now
    · rw [if_pos hx] at h; exact absurd h (by simp)
    · rw [if_neg hx] at h
      simp only [Option.some.injEq, Prod.mk.injEq] at h
      omega
  | succ f ih =>
    intro x c y c1 h
    by_cases hx : x ≤ now
    · rw [step_while_succ, if_pos hx] at h
      exact ih _ _ _ _ h
    · rw [step_while_succ, if_neg hx] at h
      simp only [Option.some.injEq, Prod.mk.injEq] at h
      omega

/-- Every result of the stepping loop, started in the day-local window, is the first stepped
time after the current time. -/
theorem step_while_first_conv (freq interval : Nat) (s e now : Int) (hf : freq ≤ 3)
    (hs : s ≤ now) (he : now < e) (fuel : Nat) (y : Int) (c : Nat)
    (h : step_while freq interval e now fuel s 0 = some (y, c)) :
    ∃ k, first_step_after freq interval s e now k y := by
  have h3 : freq = 0 ∨ freq = SECONDLY ∨ freq = MINUTELY ∨ freq = HOURLY := by
    simp only [SECONDLY, MINUTELY, HOURLY]; omega
  rcases h3 with h0 | h0
  · subst h0
    cases fuel with
    | zero =>
      simp only [step_while] at h
      rw [if_pos hs] at h; exact absurd h (by simp)
    | succ f =>
      rw [step_while_succ, if_pos hs] at h
      simp only at h
      rw [step_while_exit _ _ _ _ _ _ _ he] at h
      simp only [Option.some.injEq, Prod.mk.injEq] at h
      exact ⟨1, Or.inl ⟨rfl, rfl, h.1.symm⟩⟩
  · obtain ⟨k, hk1, hk2, hk3⟩ := step_while_result freq interval e now h0 _ _ _ _ _ h
    exact ⟨k, Or.inr ⟨h0, (hk3 hs).1, hk1, (hk3 hs).2, hk2⟩⟩

/-! ## The queues of the scheduler -/

theorem clear_while_nil {α : Type} (l : List α) : clear_while l = [] := by
  induction l with
  | nil => rfl
  | cons a l ih => simpa [clear_while, TAILQ_REMOVE] using ih

theorem scheduler_clear_eq (st : State) : scheduler_clear st = init_state := by
  simp only [scheduler_clear, _event_list_clear, clear_while_nil, init_state]

theorem remove_last_nil (st : State) (h : st.schedule_head = []) :
    scheduler_remove_last st = (false, st) := by
  simp only [scheduler_remove_last, TAILQ_LAST, h, List.getLast?_nil]

theorem remove_last_cons (st : State) (h : st.schedule_head ≠ []) :
    scheduler_remove_last st
      = (true, { st with schedule_head := st.schedule_head.dropLast }) := by
  obtain ⟨a, ha⟩ : ∃ a, st.schedule_head.getLast? = some a := by
    cases hl : st.schedule_head.getLast? with
    | none => exact absurd (List.getLast?_eq_none_iff.1 hl) h
    | some a => exact ⟨a, rfl⟩
  simp only [scheduler_remove_last, TAILQ_LAST, ha, TAILQ_REMOVE]
  have hlen : st.schedule_head.length - 1 + 1 = st.schedule_head.length := by
    have := List.length_pos.2 h
    omega
  rw [List.dropLast_eq_eraseIdx hlen]

theorem add_full (st : State) (group : Nat) (ical : ICAL) (m : Option SCHEDULE)
    (h : st.schedule_count ≥ MAX_SCHEDULES) : scheduler_add st group ical m = (false, st) := by
  simp only [scheduler_add, if_pos h]

theorem add_null (st : State) (group : Nat) (ical : ICAL) :
    scheduler_add st group ical none = (false, st) := by
  simp only [scheduler_add]
  split <;> rfl

/-- The entry that `scheduler_add` appends for the block `s` in the state `st`. -/
theorem add_some (st : State) (group : Nat) (ical : ICAL) (s : SCHEDULE)
    (h : st.schedule_count < MAX_SCHEDULES) :
    scheduler_add st group ical (some s) =
      (true, { st with
        schedule_head := st.schedule_head ++
          [{ id := st.schedule_count, group := group,
             ical := { t_start := ical.t_start, t_end := ical.t_end, freq := ical.freq,
                       interval := ical.interval, byday := ical.byday,
                       count := s.ical.count, enabled := ical.enabled } }]
        schedule_count := st.schedule_count + 1 }) := by
  have h1 : ¬ st.schedule_count ≥ MAX_SCHEDULES := by omega
  have h2 : (st.schedule_count + 1) % 256 = st.schedule_count + 1 := by
    unfold MAX_SCHEDULES at h; omega
  simp only [scheduler_add, if_neg h1, TAILQ_INSERT_TAIL, h2]

/-- A call of `scheduler_add` that returns `true` found the counter below the capacity and got
a block. -/
theorem add_true (st : State) (group : Nat) (ical : ICAL) (m : Option SCHEDULE)
    (h : (scheduler_add st group ical m).1 = true) :
    st.schedule_count < MAX_SCHEDULES ∧ ∃ s, m = some s := by
  by_cases hc : st.schedule_count ≥ MAX_SCHEDULES
  · rw [add_full st group ical m hc] at h; exact absurd h (by simp)
  · cases m with
    | none => rw [add_null] at h; exact absurd h (by simp)
    | some s => exact ⟨by omega, s, rfl⟩

theorem add_false (st : State) (group : Nat) (ical : ICAL) (m : Option SCHEDULE)
    (h : ¬ (scheduler_add st group ical m).1 = true) :
    scheduler_add st group ical m = (false, st) := by
  by_cases hc : st.schedule_count ≥ MAX_SCHEDULES
  · exact add_full st group ical m hc
  · cases m with
    | none => exact add_null st group ical
    | some s => rw [add_some st group ical s (by omega)] at h; exact absurd rfl h

/-! ## What `scheduler_update_events` does to the schedules -/

theorem event_add_frame (st : State) (event : ICALEVENT) (epoch : Int) (id group : Nat)
    (m : Option EVENT) :
    (_event_add st event epoch id group m).2.schedule_head = st.schedule_head ∧
    (_event_add st event epoch id group m).2.schedule_count = st.schedule_count := by
  unfold _event_add
  split
  · exact ⟨rfl, rfl⟩
  · cases m <;> exact ⟨rfl, rfl⟩

theorem event_list_update_frame (st : State) (s : SCHEDULE) (t : Tm) (event : ICALEVENT)
    (m : Option EVENT) :
    (_event_list_update st s t event m).1.schedule_head = st.schedule_head ∧
    (_event_list_update st s t event m).1.schedule_count = st.schedule_count := by
  unfold _event_list_update
  simp only
  split
  · exact ⟨rfl, rfl⟩
  · exact event_add_frame _ _ _ _ _ _

theorem update_events_foreach_nil (mem : Nat → Option EVENT) (j : Nat) (st : State)
    (t_temp cur : Tm) : update_events_foreach mem [] j st t_temp cur = some ([], st) := rfl

theorem update_events_foreach_cons (mem : Nat → Option EVENT) (s : SCHEDULE)
    (rest : List SCHEDULE) (j : Nat) (st : State) (t_temp current_time : Tm) :
    update_events_foreach mem (s :: rest) j st t_temp current_time =
      if s.ical.enabled = true then
        match ical_find_next_event s.ical current_time t_temp with
        | none => none
        | some (ical_event, t_temp1) =>
          match update_events_foreach mem rest (j + 1)
              (_event_list_update st { s with ical := ical_after_find s.ical } t_temp1
                ical_event (mem j)).1
              (_event_list_update st { s with ical := ical_after_find s.ical } t_temp1
                ical_event (mem j)).2
              (mktime current_time).2 with
          | none => none
          | some (rest1, st1) => some ({ s with ical := ical_after_find s.ical } :: rest1, st1)
      else
        match update_events_foreach mem rest (j + 1) st t_temp current_time with
        | none => none
        | some (rest1, st1) => some (s :: rest1, st1) := rfl

theorem update_foreach_frame (mem : Nat → Option EVENT) :
    ∀ (l : List SCHEDULE) (j : Nat) (st : State) (t_temp cur : Tm) (l1 : List SCHEDULE)
      (st1 : State),
      update_events_foreach mem l j st t_temp cur = some (l1, st1) →
      l1 = l.map visited ∧ st1.schedule_head = st.schedule_head ∧
      st1.schedule_count = st.schedule_count := by
  intro l
  induction l with
  | nil =>
    intro j st t_temp cur l1 st1 h
    rw [update_events_foreach_nil] at h
    simp only [Option.some.injEq, Prod.mk.injEq] at h
    obtain ⟨h1, h2⟩ := h
    subst h1 h2
    exact ⟨rfl, rfl, rfl⟩
  | cons s rest ih =>
    intro j st t_temp cur l1 st1 h
    rw [update_events_foreach_cons] at h
    by_cases hen : s.ical.enabled = true
    · rw [if_pos hen] at h
      cases hf : ical_find_next_event s.ical cur t_temp with
      | none => rw [hf] at h; exact absurd h (by simp)
      | some r =>
        obtain ⟨ev, t1⟩ := r
        rw [hf] at h
        simp only at h
        cases hr : update_events_foreach mem rest (j + 1)
            (_event_list_update st { s with ical := ical_after_find s.ical } t1 ev (mem j)).1
            (_event_list_update st { s with ical := ical_after_find s.ical } t1 ev (mem j)).2
            (mktime cur).2 with
        | none => rw [hr] at h; exact absurd h (by simp)
        | some r2 =>
          obtain ⟨rest1, st2⟩ := r2
          rw [hr] at h
          simp only [Option.some.injEq, Prod.mk.injEq] at h
          obtain ⟨h1, h2⟩ := h
          subst h1 h2
          obtain ⟨i1, i2, i3⟩ := ih _ _ _ _ _ _ hr
          have hfr := event_list_update_frame st { s with ical := ical_after_find s.ical } t1 ev
            (mem j)
          refine ⟨?_, by rw [i2, hfr.1], by rw [i3, hfr.2]⟩
          simp only [List.map_cons, visited, if_pos hen, i1]
    · rw [if_neg hen] at h
      cases hr : update_events_foreach mem rest (j + 1) st t_temp cur with
      | none => rw [hr] at h; exact absurd h (by simp)
      | some r2 =>
        obtain ⟨rest1, st2⟩ := r2
        rw [hr] at h
        simp only [Option.some.injEq, Prod.mk.injEq] at h
        obtain ⟨h1, h2⟩ := h
        subst h1 h2
        obtain ⟨i1, i2, i3⟩ := ih _ _ _ _ _ _ hr
        refine ⟨?_, i2, i3⟩
        simp only [List.map_cons, visited, if_neg hen, i1]

theorem visited_id (s : SCHEDULE) : (visited s).id = s.id := by
  unfold visited; split <;> rfl

theorem visited_group (s : SCHEDULE) : (visited s).group = s.group := by
  unfold visited; split <;> rfl

theorem visited_enabled (s : SCHEDULE) : (visited s).ical.enabled = s.ical.enabled := by
  unfold visited; split <;> rfl

/-- The schedule queue and the id counter after `scheduler_update_events`. -/
theorem update_events_schedules (st : State) (now t_temp : Tm) (mem : Nat → Option EVENT)
    (st1 : State) (h : scheduler_update_events st now t_temp mem = some st1) :
    st1.schedule_head = st.schedule_head.map visited ∧
    st1.schedule_count = st.schedule_count := by
  unfold scheduler_update_events at h
  simp only at h
  cases hr : update_events_foreach mem (_event_list_clear st).schedule_head 0
      (_event_list_clear st) t_temp now with
  | none => rw [hr] at h; exact absurd h (by simp)
  | some r =>
    obtain ⟨l1, st2⟩ := r
    rw [hr] at h
    simp only [Option.some.injEq] at h
    subst h
    obtain ⟨i1, _, i3⟩ := update_foreach_frame mem _ _ _ _ _ _ _ hr
    exact ⟨i1, i3⟩

/-! ## The invariant of the schedule queue -/

theorem inv_init : Inv init_state := by
  simp [Inv, init_state]

theorem inv_add (st : State) (group : Nat) (ical : ICAL) (m : Option SCHEDULE)
    (h : Inv st) : Inv (scheduler_add st group ical m).2 := by
  by_cases hs : (scheduler_add st group ical m).1 = true
  · obtain ⟨hc, s, hm⟩ := add_true st group ical m hs
    subst hm
    rw [add_some st group ical s hc]
    obtain ⟨h1, h2, h3, h4⟩ := h
    refine ⟨?_, ?_, ?_, ?_⟩
    · simp only [List.length_append, List.length_singleton]; omega
    · simp only; omega
    · simp only [List.map_append, List.map_cons, List.map_nil]
      rw [List.pairwise_append]
      refine ⟨h3, List.pairwise_singleton _ _, ?_⟩
      intro a ha b hb
      simp only [List.mem_singleton] at hb
      subst hb
      obtain ⟨s0, hs0, rfl⟩ := List.mem_map.1 ha
      exact h4 s0 hs0
    · intro s0 hs0
      simp only [List.mem_append, List.mem_singleton] at hs0
      rcases hs0 with hs0 | hs0
      · have := h4 s0 hs0; simp only; omega
      · subst hs0; simp only; omega
  · rw [add_false st group ical m hs]; exact h

theorem inv_remove_last (st : State) (h : Inv st) : Inv (scheduler_remove_last st).2 := by
  by_cases hn : st.schedule_head = []
  · rw [remove_last_nil st hn]; exact h
  · rw [remove_last_cons st hn]
    obtain ⟨h1, h2, h3, h4⟩ := h
    refine ⟨?_, h2, ?_, ?_⟩
    · simp only [List.length_dropLast]; omega
    · exact h3.sublist ((List.dropLast_sublist _).map _)
    · intro s hs
      exact h4 s ((List.dropLast_subset _) hs)

theorem inv_update_events (st : State) (now t_temp : Tm) (mem : Nat → Option EVENT)
    (st1 : State) (h : Inv st) (hu : scheduler_update_events st now t_temp mem = some st1) :
    Inv st1 := by
  obtain ⟨e1, e2⟩ := update_events_schedules st now t_temp mem st1 hu
  obtain ⟨h1, h2, h3, h4⟩ := h
  have hid : (st.schedule_head.map visited).map (fun s => s.id)
      = st.schedule_head.map fun s => s.id := by
    rw [List.map_map]
    apply List.map_congr_left
    intro s _
    exact visited_id s
  refine ⟨by rw [e1, e2, List.length_map]; exact h1, by rw [e2]; exact h2,
    by rw [e1, hid]; exact h3, ?_⟩
  intro s hs
  rw [e1] at hs
  obtain ⟨s0, hs0, rfl⟩ := List.mem_map.1 hs
  rw [visited_id, e2]
  exact h4 s0 hs0

theorem inv_step (st : State) (op : Op) (st1 : State) (h : Inv st)
    (hs : step st op = some st1) : Inv st1 := by
  cases op with
  | add group ical m =>
    simp only [step, Option.some.injEq] at hs
    subst hs; exact inv_add st group ical m h
  | remove_last =>
    simp only [step, Option.some.injEq] at hs
    subst hs; exact inv_remove_last st h
  | clear =>
    simp only [step, Option.some.injEq] at hs
    subst hs; rw [scheduler_clear_eq]; exact inv_init
  | update_events now t_temp mem =>
    exact inv_update_events st now t_temp mem st1 h hs

theorem inv_run : ∀ (ops : List Op) (st st1 : State), Inv st → run st ops = some st1 →
    Inv st1 := by
  intro ops
  induction ops with
  | nil =>
    intro st st1 h hr
    simp only [run, Option.some.injEq] at hr
    subst hr; exact h
  | cons op ops ih =>
    intro st st1 h hr
    unfold run at hr
    cases hs : step st op with
    | none => rw [hs] at hr; exact absurd hr (by simp)
    | some st2 =>
      rw [hs] at hr
      exact ih st2 st1 (inv_step st op st2 h hs) hr

theorem inv_reachable (st : State) (h : Reachable st) : Inv st := by
  obtain ⟨ops, hr⟩ := h
  exact inv_run ops init_state st inv_init hr

/-! ## The id counter along a run -/

theorem step_count (st : State) (op : Op) (st1 : State) (hc : op.is_clear = false)
    (hs : step st op = some st1) :
    st1.schedule_count = st.schedule_count + (if op.add_succeeds st = true then 1 else 0) := by
  cases op with
  | add group ical m =>
    simp only [step, Option.some.injEq] at hs
    subst hs
    simp only [Op.add_succeeds]
    by_cases hs : (scheduler_add st group ical m).1 = true
    · obtain ⟨hlt, s, hm⟩ := add_true st group ical m hs
      subst hm
      rw [if_pos hs, add_some st group ical s hlt]
    · rw [if_neg hs, add_false st group ical m hs]; rfl
  | remove_last =>
    simp only [step, Option.some.injEq] at hs
    subst hs
    simp only [Op.add_succeeds]
    by_cases hn : st.schedule_head = []
    · rw [remove_last_nil st hn]; rfl
    · rw [remove_last_cons st hn]; rfl
  | clear => exact absurd hc (by simp [Op.is_clear])
  | update_events now t_temp mem =>
    simp only [Op.add_succeeds]
    exact (update_events_schedules st now t_temp mem st1 hs).2

theorem run_count : ∀ (ops : List Op) (st st1 : State),
    (ops.all fun op => !op.is_clear) = true → run st ops = some st1 →
    st1.schedule_count = st.schedule_count + add_successes st ops := by
  intro ops
  induction ops with
  | nil =>
    intro st st1 _ hr
    simp only [run, Option.some.injEq] at hr
    subst hr; rfl
  | cons op ops ih =>
    intro st st1 hnc hr
    simp only [List.all_cons, Bool.and_eq_true, Bool.not_eq_eq_eq_not, Bool.not_true] at hnc
    unfold run at hr
    unfold add_successes
    cases hs : step st op with
    | none => rw [hs] at hr; exact absurd hr (by simp)
    | some st2 =>
      rw [hs] at hr
      simp only
      rw [ih st2 st1 hnc.2 hr, step_count st op st2 hnc.1 hs]
      omega

/-- A lookup by id skips the entries with another id. -/
theorem find_id_append (l : List SCHEDULE) (s : SCHEDULE) (id : Nat)
    (h : ∀ a ∈ l, a.id ≠ id) (hs : s.id = id) :
    (l ++ [s]).find? (fun a => id == a.id) = some s := by
  induction l with
  | nil => simp [List.find?, hs]
  | cons a l ih =>
    have ha : (id == a.id) = false := by
      have := h a (List.mem_cons_self _ _)
      simp only [beq_eq_false_iff_ne, ne_eq]
      exact fun hh => this hh.symm
    rw [List.cons_append, List.find?_cons, ha]
    exact ih fun b hb => h b (List.mem_cons_of_mem _ hb)

theorem find_id_none (l : List SCHEDULE) (id : Nat) (h : ∀ a ∈ l, a.id ≠ id) :
    l.find? (fun a => id == a.id) = none := by
  rw [List.find?_eq_none]
  intro a ha
  simp only [beq_iff_eq]
  exact fun hh => h a ha hh.symm

/-- In a state that satisfies the invariant, `scheduler_get_schedule_by_id` finds the entry
that a successful `scheduler_add` has just appended: its six assigned fields are those of the
rule passed, its occurrence limit is that of the fresh block. -/
theorem add_then_get (st : State) (group : Nat) (ical : ICAL) (s : SCHEDULE) (h : Inv st)
    (hc : st.schedule_count < MAX_SCHEDULES) :
    scheduler_get_schedule_by_id (scheduler_add st group ical (some s)).2 st.schedule_count
      = some { id := st.schedule_count, group := group,
               ical := { t_start := ical.t_start, t_end := ical.t_end, freq := ical.freq,
                         interval := ical.interval, byday := ical.byday,
                         count := s.ical.count, enabled := ical.enabled } } := by
  rw [add_some st group ical s hc]
  unfold scheduler_get_schedule_by_id
  apply find_id_append
  · intro a ha
    have := h.2.2.2 a ha
    omega
  · rfl

/-- An id below the id counter that no stored schedule has stays so through every call but
`scheduler_clear`. -/
theorem absent_step (st : State) (op : Op) (st1 : State) (x : Nat)
    (hc : op.is_clear = false) (hx : x < st.schedule_count)
    (ha : ∀ s ∈ st.schedule_head, s.id ≠ x) (hs : step st op = some st1) :
    x < st1.schedule_count ∧ ∀ s ∈ st1.schedule_head, s.id ≠ x := by
  have hcount := step_count st op st1 hc hs
  refine ⟨by omega, ?_⟩
  cases op with
  | add group ical m =>
    simp only [step, Option.some.injEq] at hs
    subst hs
    by_cases hs : (scheduler_add st group ical m).1 = true
    · obtain ⟨hlt, s, hm⟩ := add_true st group ical m hs
      subst hm
      rw [add_some st group ical s hlt]
      intro s0 hs0
      simp only [List.mem_append, List.mem_singleton] at hs0
      rcases hs0 with hs0 | hs0
      · exact ha s0 hs0
      · subst hs0; simp only; omega
    · rw [add_false st group ical m hs]; exact ha
  | remove_last =>
    simp only [step, Option.some.injEq] at hs
    subst hs
    by_cases hn : st.schedule_head = []
    · rw [remove_last_nil st hn]; exact ha
    · rw [remove_last_cons st hn]
      intro s hs
      exact ha s ((List.dropLast_subset _) hs)
  | clear => exact absurd hc (by simp [Op.is_clear])
  | update_events now t_temp mem =>
    rw [(update_events_schedules st now t_temp mem st1 hs).1]
    intro s hs
    obtain ⟨s0, hs0, rfl⟩ := List.mem_map.1 hs
    rw [visited_id]
    exact ha s0 hs0

theorem absent_run : ∀ (ops : List Op) (st st1 : State) (x : Nat),
    (ops.all fun op => !op.is_clear) = true → x < st.schedule_count →
    (∀ s ∈ st.schedule_head, s.id ≠ x) → run st ops = some st1 →
    ∀ s ∈ st1.schedule_head, s.id ≠ x := by
  intro ops
  induction ops with
  | nil =>
    intro st st1 x _ _ ha hr
    simp only [run, Option.some.injEq] at hr
    subst hr; exact ha
  | cons op ops ih =>
    intro st st1 x hnc hx ha hr
    simp only [List.all_cons, Bool.and_eq_true, Bool.not_eq_eq_eq_not, Bool.not_true] at hnc
    unfold run at hr
    cases hs : step st op with
    | none => rw [hs] at hr; exact absurd hr (by simp)
    | some st2 =>
      rw [hs] at hr
      obtain ⟨h1, h2⟩ := absent_step st op st2 x hnc.1 hx ha hs
      exact ih st2 st1 x hnc.2 h1 h2 hr

/-! ## One pass of the merge of the events -/

theorem foreach_none_iff (s : SCHEDULE) (ev : ICALEVENT) (ne : Int) (es : List EVENT) :
    event_list_update_foreach s ev ne es = none ↔ ∀ e ∈ es, e.group ≠ s.group := by
  induction es with
  | nil => simp [event_list_update_foreach]
  | cons e rest ih =>
    unfold event_list_update_foreach
    by_cases hg : s.group = e.group
    · rw [if_pos hg]
      constructor
      · intro h; split at h <;> exact absurd h (by simp)
      · intro h; exact absurd hg.symm (h e (List.mem_cons_self _ _))
    · rw [if_neg hg]
      constructor
      · intro h
        cases hr : event_list_update_foreach s ev ne rest with
        | none =>
          intro a ha
          rcases List.mem_cons.1 ha with ha | ha
          · subst ha; exact fun hh => hg hh.symm
          · exact (ih.1 hr) a ha
        | some r => rw [hr] at h; exact absurd h (by simp)
      · intro h
        rw [ih.2 fun a ha => h a (List.mem_cons_of_mem _ ha)]

theorem foreach_some_groups (s : SCHEDULE) (ev : ICALEVENT) (ne : Int) :
    ∀ (es es1 : List EVENT), event_list_update_foreach s ev ne es = some es1 →
      (es1.map fun e => e.group) = es.map fun e => e.group := by
  intro es
  induction es with
  | nil => intro es1 h; simp [event_list_update_foreach] at h
  | cons e rest ih =>
    intro es1 h
    unfold event_list_update_foreach at h
    by_cases hg : s.group = e.group
    · rw [if_pos hg] at h
      by_cases hl : ne < e.epoch
      · rw [if_pos hl] at h
        simp only [Option.some.injEq] at h
        subst h
        simp only [List.map_cons, hg]
      · rw [if_neg hl] at h
        simp only [Option.some.injEq] at h
        subst h; rfl
    · rw [if_neg hg] at h
      cases hr : event_list_update_foreach s ev ne rest with
      | none => rw [hr] at h; exact absurd h (by simp)
      | some r =>
        rw [hr] at h
        simp only [Option.some.injEq] at h
        subst h
        simp only [List.map_cons, ih r hr]

theorem find_group_cons_pos (g : Nat) (e : EVENT) (rest : List EVENT) (h : g = e.group) :
    (e :: rest).find? (fun a => g == a.group) = some e := by
  rw [List.find?_cons]
  simp [h]

theorem find_group_cons_neg (g : Nat) (e : EVENT) (rest : List EVENT) (h : g ≠ e.group) :
    (e :: rest).find? (fun a => g == a.group) = rest.find? (fun a => g == a.group) := by
  rw [List.find?_cons]
  have : (g == e.group) = false := by simpa using h
  simp [this]

theorem foreach_some_mono (s : SCHEDULE) (ev : ICALEVENT) (ne : Int) (g : Nat) (B : Int) :
    ∀ (es es1 : List EVENT), event_list_update_foreach s ev ne es = some es1 →
      event_le es g B → event_le es1 g B := by
  intro es
  induction es with
  | nil => intro es1 h; simp [event_list_update_foreach] at h
  | cons e rest ih =>
    intro es1 h hle
    unfold event_list_update_foreach at h
    obtain ⟨e0, hf, hb⟩ := hle
    by_cases hg : s.group = e.group
    · rw [if_pos hg] at h
      by_cases hl : ne < e.epoch
      · rw [if_pos hl] at h
        simp only [Option.some.injEq] at h
        subst h
        by_cases hge : g = e.group
        · rw [find_group_cons_pos g e rest hge] at hf
          simp only [Option.some.injEq] at hf
          subst hf
          refine ⟨_, find_group_cons_pos g _ rest (by rw [hge, hg]), ?_⟩
          simp only; omega
        · rw [find_group_cons_neg g e rest hge] at hf
          exact ⟨e0, by rw [find_group_cons_neg g _ rest (by rw [hg]; exact hge)]; exact hf, hb⟩
      · rw [if_neg hl] at h
        simp only [Option.some.injEq] at h
        subst h
        exact ⟨e0, hf, hb⟩
    · rw [if_neg hg] at h
      cases hr : event_list_update_foreach s ev ne rest with
      | none => rw [hr] at h; exact absurd h (by simp)
      | some r =>
        rw [hr] at h
        simp only [Option.some.injEq] at h
        subst h
        by_cases hge : g = e.group
        · rw [find_group_cons_pos g e rest hge] at hf
          exact ⟨e0, by rw [find_group_cons_pos g e r hge]; exact hf, hb⟩
        · rw [find_group_cons_neg g e rest hge] at hf
          obtain ⟨e1, hf1, hb1⟩ := ih r hr ⟨e0, hf, hb⟩
          exact ⟨e1, by rw [find_group_cons_neg g e r hge]; exact hf1, hb1⟩

theorem foreach_some_bound (s : SCHEDULE) (ev : ICALEVENT) (ne : Int) :
    ∀ (es es1 : List EVENT), event_list_update_foreach s ev ne es = some es1 →
      event_le es1 s.group ne := by
  intro es
  induction es with
  | nil => intro es1 h; simp [event_list_update_foreach] at h
  | cons e rest ih =>
    intro es1 h
    unfold event_list_update_foreach at h
    by_cases hg : s.group = e.group
    · rw [if_pos hg] at h
      by_cases hl : ne < e.epoch
      · rw [if_pos hl] at h
        simp only [Option.some.injEq] at h
        subst h
        exact ⟨_, find_group_cons_pos _ _ rest rfl, le_refl _⟩
      · rw [if_neg hl] at h
        simp only [Option.some.injEq] at h
        subst h
        exact ⟨e, find_group_cons_pos _ e rest hg, by omega⟩
    · rw [if_neg hg] at h
      cases hr : event_list_update_foreach s ev ne rest with
      | none => rw [hr] at h; exact absurd h (by simp)
      | some r =>
        rw [hr] at h
        simp only [Option.some.injEq] at h
        subst h
        obtain ⟨e1, hf1, hb1⟩ := ih r hr
        exact ⟨e1, by rw [find_group_cons_neg _ e r hg]; exact hf1, hb1⟩

/-- One call of `_event_list_update` that gets a block should it need one, in a state whose
event counter is the length of the event queue and below the capacity: the groups of the
event queue are those of before, with the group of the schedule appended when it was not
among them; the event of every group keeps or lowers its timestamp; and the event of the group
of the schedule has a timestamp at most that of the new event time. -/
theorem event_list_update_spec (st : State) (s : SCHEDULE) (t : Tm) (ev : ICALEVENT)
    (blk : EVENT) (hc : st.event_count = st.event_head.length)
    (hlt : st.event_head.length < MAX_SCHEDULES) :
    (_event_list_update st s t ev (some blk)).1.event_count
      = (_event_list_update st s t ev (some blk)).1.event_head.length ∧
    ((_event_list_update st s t ev (some blk)).1.event_head.map fun e => e.group)
      = (if s.group ∈ st.event_head.map (fun e => e.group) then
          st.event_head.map fun e => e.group
        else (st.event_head.map fun e => e.group) ++ [s.group]) ∧
    (∀ g B, event_le st.event_head g B →
      event_le (_event_list_update st s t ev (some blk)).1.event_head g B) ∧
    event_le (_event_list_update st s t ev (some blk)).1.event_head s.group (mktime t).1 := by
  unfold _event_list_update
  simp only
  cases hr : event_list_update_foreach s ev (mktime t).1 st.event_head with
  | some es1 =>
    simp only
    have hg := foreach_some_groups s ev _ _ _ hr
    have hin : s.group ∈ st.event_head.map (fun e => e.group) := by
      by_contra hcon
      have := (foreach_none_iff s ev (mktime t).1 st.event_head).2 (by
        intro e he hh
        exact hcon (List.mem_map.2 ⟨e, he, hh⟩))
      rw [this] at hr
      exact absurd hr (by simp)
    refine ⟨?_, by rw [if_pos hin, hg], fun g B => foreach_some_mono s ev _ g B _ _ hr,
      foreach_some_bound s ev _ _ _ hr⟩
    have : es1.length = st.event_head.length := by
      have := congrArg List.length hg
      simpa using this
    rw [this]; exact hc
  | none =>
    simp only
    have hnot := (foreach_none_iff s ev (mktime t).1 st.event_head).1 hr
    have hin : ¬ s.group ∈ st.event_head.map (fun e => e.group) := by
      intro hh
      obtain ⟨e, he, hge⟩ := List.mem_map.1 hh
      exact hnot e he hge
    have h1 : ¬ st.event_count ≥ MAX_SCHEDULES := by omega
    have h2 : (st.event_count + 1) % 256 = st.event_count + 1 := by
      unfold MAX_SCHEDULES at hlt; omega
    simp only [_event_add, if_neg h1, TAILQ_INSERT_TAIL, h2]
    refine ⟨by simp only [List.length_append, List.length_singleton]; omega,
      by rw [if_neg hin]; simp, ?_, ?_⟩
    · intro g B hle
      obtain ⟨e0, hf, hb⟩ := hle
      exact ⟨e0, by rw [List.find?_append, hf]; rfl, hb⟩
    · have hfn : st.event_head.find? (fun e => s.group == e.group) = none := by
        rw [List.find?_eq_none]
        intro e he
        simp only [beq_iff_eq]
        exact fun hh => hnot e he hh.symm
      refine ⟨{ ical_event := ev, epoch := (mktime t).1, id := s.id, group := s.group }, ?_,
        le_refl _⟩
      rw [List.find?_append, hfn]
      simp [List.find?]

/-! ## The calls of `ical_find_next_event` in the loop over the schedules -/

/-- The function `ical_find_next_event` returns for every rule and every current time. -/
theorem find_next_event_total (ical : ICAL) (tc tn : Tm) :
    ∃ ev t, ical_find_next_event ical tc tn = some (ev, t) := by
  by_cases hv : Valid ical
  · rw [find_next_event_valid ical tc tn hv]
    by_cases hen : ical.enabled = true
    · rw [if_pos hen]
      by_cases h1 : (mktime tc).1 < window_start ical
      · rw [if_pos h1]; exact ⟨_, _, rfl⟩
      · by_cases h2 : (mktime tc).1 < window_end ical
        · obtain ⟨ev, y, hy, _⟩ := find_next_event_active_total ical tc tn hv hen (by omega) h2
          rw [find_next_event_valid ical tc tn hv, if_pos hen, if_neg h1] at hy
          rw [if_neg h1]
          exact ⟨_, _, hy⟩
        · rw [if_neg h1, if_neg (fun hh => h2 hh.2)]; exact ⟨_, _, rfl⟩
    · rw [if_neg hen]; exact ⟨_, _, rfl⟩
  · obtain ⟨ev, he, _⟩ := find_next_event_not_valid ical tc tn hv
    exact ⟨_, _, he⟩

theorem mktime_idem (t : Tm) : mktime (mktime t).2 = mktime t := by
  simp only [mktime, timestamp_localtime]

/-- The result of `ical_find_next_event` depends on the current time through `mktime` only. -/
theorem find_next_event_cur (ical : ICAL) (cur now tn : Tm) (h : mktime cur = mktime now) :
    ical_find_next_event ical cur tn = ical_find_next_event ical now tn := by
  unfold ical_find_next_event
  simp only [h]

/-- An event `ICALEVENT_START`, `ICALEVENT_RECUR` or `ICALEVENT_END` and its time do not depend
on the content of `*t_next_event` before the call. -/
theorem find_next_event_indep (ical : ICAL) (tc tn tn1 : Tm) (ev : ICALEVENT) (t : Tm)
    (hev : ev = ICALEVENT_START ∨ ev = ICALEVENT_RECUR ∨ ev = ICALEVENT_END)
    (h : ical_find_next_event ical tc tn = some (ev, t)) :
    ical_find_next_event ical tc tn1 = some (ev, t) := by
  have hne : ev ≠ ICALEVENT_NONE := by rcases hev with h0 | h0 | h0 <;> subst h0 <;> decide
  by_cases hv : Valid ical
  · by_cases hen : ical.enabled = true
    · by_cases h1 : (mktime tc).1 < window_start ical
      · rw [find_next_event_valid ical tc tn hv, if_pos hen, if_pos h1] at h
        rw [find_next_event_valid ical tc tn1 hv, if_pos hen, if_pos h1]
        exact h
      · by_cases h2 : (mktime tc).1 < window_end ical
        · rw [find_next_event_active ical tc tn hv hen (by omega) h2] at h
          rw [find_next_event_active ical tc tn1 hv hen (by omega) h2]
          exact h
        · rw [find_next_event_valid ical tc tn hv, if_pos hen, if_neg h1,
            if_neg (fun hh => h2 hh.2)] at h
          simp only [Option.some.injEq, Prod.mk.injEq] at h
          exact absurd h.1.symm hne
    · rw [find_next_event_valid ical tc tn hv, if_neg hen] at h
      simp only [Option.some.injEq, Prod.mk.injEq] at h
      exact absurd h.1.symm hne
  · obtain ⟨ev1, he, hk⟩ := find_next_event_not_valid ical tc tn hv
    rw [he] at h
    simp only [Option.some.injEq, Prod.mk.injEq] at h
    rw [h.1] at hk
    rcases hev with h0 | h0 | h0 <;> subst h0 <;>
      rcases hk with hk | hk | hk | hk <;> exact absurd hk (by decide)

/-! ## The loop over the schedules -/

/-- The loop of `scheduler_update_events` over the schedules that are left, when every call of
`malloc` gives a block and the event queue has room for one event for each of them: the loop
returns; the groups of the event queue are then those of before and those of the enabled
schedules visited, each once when they were so before; the event of every group keeps or
lowers its timestamp; and for every enabled schedule visited whose own event is a start, a
recurrence or an end, the event of its group has a timestamp at most that of this event. -/
theorem update_foreach_spec (blocks : Nat → EVENT) (now : Tm) :
    ∀ (l : List SCHEDULE) (j : Nat) (st : State) (t_temp cur : Tm),
      st.event_count = st.event_head.length →
      st.event_head.length + l.length ≤ MAX_SCHEDULES →
      mktime cur = mktime now →
      ∃ l1 st1,
        update_events_foreach (fun i => some (blocks i)) l j st t_temp cur = some (l1, st1) ∧
        (∀ g, g ∈ st1.event_head.map (fun e => e.group) ↔
          (g ∈ st.event_head.map (fun e => e.group) ∨
            ∃ s ∈ l, s.group = g ∧ s.ical.enabled = true)) ∧
        ((st.event_head.map fun e => e.group).Nodup →
          (st1.event_head.map fun e => e.group).Nodup) ∧
        (∀ g B, event_le st.event_head g B → event_le st1.event_head g B) ∧
        (∀ s ∈ l, s.ical.enabled = true → ∀ (ev : ICALEVENT) (t tn : Tm),
          (ev = ICALEVENT_START ∨ ev = ICALEVENT_RECUR ∨ ev = ICALEVENT_END) →
          ical_find_next_event s.ical now tn = some (ev, t) →
          event_le st1.event_head s.group (mktime t).1) ∧
        st1.event_count = st1.event_head.length := by
  intro l
  induction l with
  | nil =>
    intro j st t_temp cur hc _ _
    refine ⟨[], st, rfl, ?_, fun h => h, fun _ _ h => h, ?_, hc⟩
    · intro g; simp
    · intro s hs; exact absurd hs (List.not_mem_nil _)
  | cons s rest ih =>
    intro j st t_temp cur hc hlen hcur
    simp only [List.length_cons] at hlen
    rw [update_events_foreach_cons]
    by_cases hen : s.ical.enabled = true
    · rw [if_pos hen]
      obtain ⟨ev, t1, hf⟩ := find_next_event_total s.ical cur t_temp
      rw [hf]
      simp only
      obtain ⟨q1, q2, q3, q4⟩ := event_list_update_spec st
        { s with ical := ical_after_find s.ical } t1 ev (blocks j) hc (by omega)
      simp only at q2 q4
      generalize (_event_list_update st { s with ical := ical_after_find s.ical } t1 ev
        (some (blocks j))) = r at q1 q2 q3 q4 ⊢
      have hlen1 : r.1.event_head.length ≤ st.event_head.length + 1 := by
        have := congrArg List.length q2
        rw [List.length_map] at this
        rw [this]
        split
        · simp
        · simp
      obtain ⟨l1, st1, hrun, i1, i2, i3, i4, i5⟩ := ih (j + 1) r.1 r.2 (mktime cur).2 q1
        (by omega) (by rw [mktime_idem]; exact hcur)
      rw [hrun]
      refine ⟨_, st1, rfl, ?_, ?_, ?_, ?_, i5⟩
      · intro g
        rw [i1 g, q2]
        by_cases hin : s.group ∈ st.event_head.map (fun e => e.group)
        · rw [if_pos hin]
          constructor
          · rintro (h | ⟨s0, hs0, hh⟩)
            · exact Or.inl h
            · exact Or.inr ⟨s0, List.mem_cons_of_mem _ hs0, hh⟩
          · rintro (h | ⟨s0, hs0, hg, he⟩)
            · exact Or.inl h
            · rcases List.mem_cons.1 hs0 with hs0 | hs0
              · subst hs0; subst hg; exact Or.inl hin
              · exact Or.inr ⟨s0, hs0, hg, he⟩
        · rw [if_neg hin]
          simp only [List.mem_append, List.mem_singleton]
          constructor
          · rintro ((h | h) | ⟨s0, hs0, hh⟩)
            · exact Or.inl h
            · exact Or.inr ⟨s, List.mem_cons_self _ _, h.symm, hen⟩
            · exact Or.inr ⟨s0, List.mem_cons_of_mem _ hs0, hh⟩
          · rintro (h | ⟨s0, hs0, hg, he⟩)
            · exact Or.inl (Or.inl h)
            · rcases List.mem_cons.1 hs0 with hs0 | hs0
              · subst hs0; exact Or.inl (Or.inr hg.symm)
              · exact Or.inr ⟨s0, hs0, hg, he⟩
      · intro hnd
        apply i2
        rw [q2]
        split
        · exact hnd
        · rename_i hin
          rw [List.nodup_append]
          refine ⟨hnd, List.nodup_singleton _, ?_⟩
          intro a ha hb
          simp only [List.mem_singleton] at hb
          subst hb
          exact hin ha
      · intro g B h
        exact i3 g B (q3 g B h)
      · intro s0 hs0 he0 ev0 t0 tn0 hk hres
        rcases List.mem_cons.1 hs0 with hs0 | hs0
        · subst hs0
          have h1 := find_next_event_indep _ _ _ t_temp _ _ hk hres
          rw [← find_next_event_cur _ cur now t_temp hcur, hf] at h1
          simp only [Option.some.injEq, Prod.mk.injEq] at h1
          rw [← h1.2]
          exact i3 _ _ q4
        · exact i4 s0 hs0 he0 ev0 t0 tn0 hk hres
    · rw [if_neg hen]
      obtain ⟨l1, st1, hrun, i1, i2, i3, i4, i5⟩ := ih (j + 1) st t_temp cur hc (by omega) hcur
      rw [hrun]
      refine ⟨_, st1, rfl, ?_, i2, i3, ?_, i5⟩
      · intro g
        rw [i1 g]
        constructor
        · rintro (h | ⟨s0, hs0, hh⟩)
          · exact Or.inl h
          · exact Or.inr ⟨s0, List.mem_cons_of_mem _ hs0, hh⟩
        · rintro (h | ⟨s0, hs0, hg, he⟩)
          · exact Or.inl h
          · rcases List.mem_cons.1 hs0 with hs0 | hs0
            · subst hs0; exact absurd he hen
            · exact Or.inr ⟨s0, hs0, hg, he⟩
      · intro s0 hs0 he0 ev0 t0 tn0 hk hres
        rcases List.mem_cons.1 hs0 with hs0 | hs0
        · subst hs0; exact absurd he0 hen
        · exact i4 s0 hs0 he0 ev0 t0 tn0 hk hres

/-! ## Claims about the validation and the window classification -/

/-- C1: for every rule that passes the validation and has `enabled = true`, and every current
time before the start of the window, `ical_find_next_event` returns `ICALEVENT_START` and
writes the (normalised) `t_start` of the rule, whose timestamp is exactly `window_start`;
neither the weekday mask nor the occurrence limit plays a part. -/
theorem start_before_window (ical : ICAL) (t_now t_next : Tm) (hv : Valid ical)
    (hen : ical.enabled = true) (h : (mktime t_now).1 < window_start ical) :
    ical_find_next_event ical t_now t_next = some (ICALEVENT_START, (mktime ical.t_start).2) ∧
    (mktime (mktime ical.t_start).2).1 = window_start ical := by
  refine ⟨?_, mktime_mktime_snd _⟩
  rw [find_next_event_valid ical t_now t_next hv, if_pos hen, if_pos h]
  rfl

/-- Witness of C1: the rule of the test suite at 2016-09-24 09:57:00, one month before the
start of its window. -/
theorem start_before_window_witness :
    ical_find_next_event ex_ical (ical_set_time_struct 2016 9 24 9 57 0) ex_next
      = some (ICALEVENT_START, (mktime ex_ical.t_start).2) ∧
    (mktime (mktime ex_ical.t_start).2).1 = window_start ex_ical :=
  start_before_window ex_ical (ical_set_time_struct 2016 9 24 9 57 0) ex_next
    (by decide) (by decide) (by decide)

/-- C2: for every rule that passes the validation and every current time at or after the end
of the window, `ical_find_next_event` returns `ICALEVENT_NONE` (and leaves `*t_next_event` as
it was). -/
theorem none_after_window (ical : ICAL) (t_now t_next : Tm) (hv : Valid ical)
    (h : window_end ical ≤ (mktime t_now).1) :
    ical_find_next_event ical t_now t_next = some (ICALEVENT_NONE, t_next) := by
  rw [find_next_event_valid ical t_now t_next hv]
  have h0 := hv.1
  have h1 : ¬ (mktime t_now).1 < window_start ical := by omega
  have h2 : ¬ ((mktime t_now).1 ≥ window_start ical ∧ (mktime t_now).1 < window_end ical) := by
    omega
  rw [if_neg h1, if_neg h2]
  split <;> rfl

/-- Witness of C2: the rule of the test suite at 2018-10-25 09:57:00, the day after the end
of its window. -/
theorem none_after_window_witness :
    ical_find_next_event ex_ical (ical_set_time_struct 2018 10 25 9 57 0) ex_next
      = some (ICALEVENT_NONE, ex_next) :=
  none_after_window ex_ical (ical_set_time_struct 2018 10 25 9 57 0) ex_next
    (by decide) (by decide)

/-- C3: for every rule and every current time, whatever `enabled` is, the error result of
`ical_find_next_event` is decided by the first condition that holds, in this order:
`ICALERROR_START_GREATER_THAN_END` when the window starts after its end; else
`ICALERROR_INVALID_INTERVAL` when the interval is zero or the frequency is `HOURLY` with an
interval above 24; else `ICALERROR_INVALID_BYDAY` when the weekday mask is zero or above
`0x7F`; else `ICALERROR_INVALID_FREQ` when the frequency is none of the four defined values;
and when none of the four conditions holds the call returns and its result is none of these
four error kinds. -/
theorem validation_order (ical : ICAL) (t_now t_next : Tm) :
    (window_start ical > window_end ical →
      ical_find_next_event ical t_now t_next
        = some (ICALERROR_START_GREATER_THAN_END, t_next)) ∧
    (¬ window_start ical > window_end ical →
      (ical.interval = 0 ∨ (ical.freq = HOURLY ∧ ical.interval > 24)) →
      ical_find_next_event ical t_now t_next = some (ICALERROR_INVALID_INTERVAL, t_next)) ∧
    (¬ window_start ical > window_end ical →
      ¬ (ical.interval = 0 ∨ (ical.freq = HOURLY ∧ ical.interval > 24)) →
      (ical.byday = 0 ∨ ical.byday > 0x7F) →
      ical_find_next_event ical t_now t_next = some (ICALERROR_INVALID_BYDAY, t_next)) ∧
    (¬ window_start ical > window_end ical →
      ¬ (ical.interval = 0 ∨ (ical.freq = HOURLY ∧ ical.interval > 24)) →
      ¬ (ical.byday = 0 ∨ ical.byday > 0x7F) →
      (ical.freq ≠ LIMITS ∧ ical.freq ≠ SECONDLY ∧ ical.freq ≠ MINUTELY ∧
        ical.freq ≠ HOURLY) →
      ical_find_next_event ical t_now t_next = some (ICALERROR_INVALID_FREQ, t_next)) ∧
    (¬ window_start ical > window_end ical →
      ¬ (ical.interval = 0 ∨ (ical.freq = HOURLY ∧ ical.interval > 24)) →
      ¬ (ical.byday = 0 ∨ ical.byday > 0x7F) →
      ¬ (ical.freq ≠ LIMITS ∧ ical.freq ≠ SECONDLY ∧ ical.freq ≠ MINUTELY ∧
        ical.freq ≠ HOURLY) →
      ∃ ev t, ical_find_next_event ical t_now t_next = some (ev, t) ∧
        ev ≠ ICALERROR_START_GREATER_THAN_END ∧ ev ≠ ICALERROR_INVALID_INTERVAL ∧
        ev ≠ ICALERROR_INVALID_BYDAY ∧ ev ≠ ICALERROR_INVALID_FREQ) := by
  have hinv := find_next_event_invalid ical t_now t_next
  have hsw : (ical.interval = 0 ∨ (ical.freq = HOURLY ∧ ical.interval > 24)) ↔
      (ical.interval = 0 ∨ (ical.interval > 24 ∧ ical.freq = HOURLY)) := by tauto
  have hfreq : (ical.freq ≠ LIMITS ∧ ical.freq ≠ SECONDLY ∧ ical.freq ≠ MINUTELY ∧
      ical.freq ≠ HOURLY) ↔ ical.freq > 3 := by
    simp only [LIMITS, SECONDLY, MINUTELY, HOURLY]; omega
  rw [hsw, hfreq]
  refine ⟨hinv.1, hinv.2.1, hinv.2.2.1, hinv.2.2.2, ?_⟩
  intro h1 h2 h3 h4
  have hv : Valid ical := (valid_iff ical).2 ⟨h1, h2, h3, h4⟩
  by_cases hen : ical.enabled = true
  · by_cases ha : (mktime t_now).1 < window_start ical
    · refine ⟨ICALEVENT_START, localtime (window_start ical), ?_,
        by decide, by decide, by decide, by decide⟩
      rw [find_next_event_valid ical t_now t_next hv, if_pos hen, if_pos ha]
    · by_cases hb : (mktime t_now).1 < window_end ical
      · obtain ⟨ev, y, hy, hk⟩ := find_next_event_active_total ical t_now t_next hv hen
          (by omega) hb
        refine ⟨ev, _, hy, ?_⟩
        rcases hk with hk | hk | hk | hk <;> subst hk <;> decide
      · refine ⟨ICALEVENT_NONE, t_next, ?_, by decide, by decide, by decide, by decide⟩
        rw [find_next_event_valid ical t_now t_next hv, if_pos hen, if_neg ha,
          if_neg (fun h => hb h.2)]
  · refine ⟨ICALEVENT_NONE, t_next, ?_, by decide, by decide, by decide, by decide⟩
    rw [find_next_event_valid ical t_now t_next hv, if_neg hen]

/-- C4: for every rule with `enabled = false` and every current time, `ical_find_next_event`
returns the error kind of the validation when the rule fails it and `ICALEVENT_NONE`
otherwise, so it never returns `ICALEVENT_START`, `ICALEVENT_RECUR` or `ICALEVENT_END`: the
error checks come before the gate on `enabled`. -/
theorem disabled_result (ical : ICAL) (t_now t_next : Tm) (hd : ical.enabled = false) :
    (Valid ical → ical_find_next_event ical t_now t_next = some (ICALEVENT_NONE, t_next)) ∧
    (¬ Valid ical → ∃ ev, ical_find_next_event ical t_now t_next = some (ev, t_next) ∧
      (ev = ICALERROR_START_GREATER_THAN_END ∨ ev = ICALERROR_INVALID_INTERVAL ∨
        ev = ICALERROR_INVALID_BYDAY ∨ ev = ICALERROR_INVALID_FREQ)) ∧
    (∀ t, ical_find_next_event ical t_now t_next ≠ some (ICALEVENT_START, t) ∧
      ical_find_next_event ical t_now t_next ≠ some (ICALEVENT_RECUR, t) ∧
      ical_find_next_event ical t_now t_next ≠ some (ICALEVENT_END, t)) := by
  have hvalid : Valid ical →
      ical_find_next_event ical t_now t_next = some (ICALEVENT_NONE, t_next) := by
    intro hv
    rw [find_next_event_valid ical t_now t_next hv, if_neg (by simp [hd])]
  have hinvalid := find_next_event_not_valid ical t_now t_next
  refine ⟨hvalid, hinvalid, ?_⟩
  intro t
  by_cases hv : Valid ical
  · rw [hvalid hv]
    simp
  · obtain ⟨ev, he, hk⟩ := hinvalid hv
    rw [he]
    rcases hk with hk | hk | hk | hk <;> subst hk <;> simp

/-- Witness of C4: the rule of the test suite, disabled, at 2016-10-24 16:57:00. -/
theorem disabled_result_witness :
    ical_find_next_event { ex_ical with enabled := false }
      (ical_set_time_struct 2016 10 24 16 57 0) ex_next = some (ICALEVENT_NONE, ex_next) :=
  (disabled_result { ex_ical with enabled := false }
    (ical_set_time_struct 2016 10 24 16 57 0) ex_next rfl).1 (by decide)

/-! ## Claims about the interior search -/

/-- C5: for every valid enabled rule with frequency `SECONDLY`, `MINUTELY` or `HOURLY` and
no occurrence limit, and every current time in `[window_start, window_end)` that lies in the
day-local window `[s, e)` of a date whose weekday is enabled: when `T = s + k * step`, with
`k ≥ 1`, is the first stepped time after the current time (`T - step ≤ now < T`) and
`T ≤ e` and `T ≤ window_end`, then `ical_find_next_event` returns `ICALEVENT_RECUR` and
writes the broken-down form of `T`. -/
theorem recur_in_day_window (ical : ICAL) (t_now t_next : Tm) (D : Int) (k : Nat)
    (hv : Valid ical) (hen : ical.enabled = true)
    (hf : ical.freq = SECONDLY ∨ ical.freq = MINUTELY ∨ ical.freq = HOURLY)
    (hc : ical.count = 0)
    (h1 : window_start ical ≤ (mktime t_now).1) (h2 : (mktime t_now).1 < window_end ical)
    (hD : day_enabled ical D)
    (hs : day_start ical D ≤ (mktime t_now).1) (he : (mktime t_now).1 < day_end ical D)
    (hk : 1 ≤ k)
    (hlo : day_start ical D + k * step_seconds ical.freq ical.interval
      - step_seconds ical.freq ical.interval ≤ (mktime t_now).1)
    (hhi : (mktime t_now).1 < day_start ical D + k * step_seconds ical.freq ical.interval)
    (hTe : day_start ical D + k * step_seconds ical.freq ical.interval ≤ day_end ical D)
    (hTw : day_start ical D + k * step_seconds ical.freq ical.interval ≤ window_end ical) :
    ical_find_next_event ical t_now t_next
      = some (ICALEVENT_RECUR,
          localtime (day_start ical D + k * step_seconds ical.freq ical.interval)) ∧
    (mktime (localtime (day_start ical D + k * step_seconds ical.freq ical.interval))).1
      = day_start ical D + k * step_seconds ical.freq ical.interval := by
  refine ⟨?_, by rw [mktime_fst, timestamp_localtime]⟩
  rw [active_window_hit ical t_now t_next D k _ hv hen h1 h2 hD hs he
    (Or.inr ⟨hf, hk, rfl, hlo, hhi⟩) hTe]
  have hl : ¬ ical.freq = LIMITS := by
    simp only [LIMITS, SECONDLY, MINUTELY, HOURLY] at hf ⊢; omega
  rw [if_neg (by omega)]
  simp only [landed, hc, recur_kind, if_neg hl, ne_eq, not_true_eq_false, if_false]

/-- Witness of C5: the rule of the test suite at 2016-10-24 08:55:00; the twelfth step of
five minutes from 08:00:00 is the recurrence at 09:00:00. -/
theorem recur_in_day_window_witness :
    ical_find_next_event ex_ical (ical_set_time_struct 2016 10 24 8 55 0) ex_next
      = some (ICALEVENT_RECUR, localtime 1477299600) :=
  (recur_in_day_window ex_ical (ical_set_time_struct 2016 10 24 8 55 0) ex_next 17098 12
    (by decide) (by decide) (by decide) (by decide) (by decide) (by decide) (by decide)
    (by decide) (by decide) (by decide) (by decide) (by decide) (by decide) (by decide)).1

/-- Counterexample to C7 as stated: the rule of the test suite with frequency `LIMITS` and
occurrence limit 1, at 2016-10-24 08:57:00.  The current time lies in the window and in the
day-local window of Monday 2016-10-24 (day 17098), whose end is not after `window_end`, yet
the call returns `ICALEVENT_NONE` and not `ICALEVENT_END`. -/
theorem limits_count_one_counterexample :
    Valid { ex_ical with freq := LIMITS, count := 1 } ∧
    ({ ex_ical with freq := LIMITS, count := 1 } : ICAL).enabled = true ∧
    ({ ex_ical with freq := LIMITS, count := 1 } : ICAL).freq = LIMITS ∧
    window_start { ex_ical with freq := LIMITS, count := 1 }
      ≤ (mktime (ical_set_time_struct 2016 10 24 8 57 0)).1 ∧
    (mktime (ical_set_time_struct 2016 10 24 8 57 0)).1
      < window_end { ex_ical with freq := LIMITS, count := 1 } ∧
    day_enabled { ex_ical with freq := LIMITS, count := 1 } 17098 ∧
    day_start { ex_ical with freq := LIMITS, count := 1 } 17098
      ≤ (mktime (ical_set_time_struct 2016 10 24 8 57 0)).1 ∧
    (mktime (ical_set_time_struct 2016 10 24 8 57 0)).1
      < day_end { ex_ical with freq := LIMITS, count := 1 } 17098 ∧
    day_end { ex_ical with freq := LIMITS, count := 1 } 17098
      ≤ window_end { ex_ical with freq := LIMITS, count := 1 } ∧
    ical_find_next_event { ex_ical with freq := LIMITS, count := 1 }
      (ical_set_time_struct 2016 10 24 8 57 0) ex_next
      = some (ICALEVENT_NONE,
          localtime (day_end { ex_ical with freq := LIMITS, count := 1 } 17098)) ∧
    ical_find_next_event { ex_ical with freq := LIMITS, count := 1 }
      (ical_set_time_struct 2016 10 24 8 57 0) ex_next
      ≠ some (ICALEVENT_END,
          localtime (day_end { ex_ical with freq := LIMITS, count := 1 } 17098)) := by
  decide

/-- C7, amended: for every valid enabled rule with frequency `LIMITS` and an occurrence limit
other than 1, and every current time in `[window_start, window_end)` that lies in the
day-local window `[s, e)` of a date whose weekday is enabled, with `e ≤ window_end`:
`ical_find_next_event` returns `ICALEVENT_END` and writes the broken-down form of `e`. -/
theorem limits_end_in_day_window (ical : ICAL) (t_now t_next : Tm) (D : Int)
    (hv : Valid ical) (hen : ical.enabled = true) (hf : ical.freq = LIMITS)
    (hc : ical.count ≠ 1)
    (h1 : window_start ical ≤ (mktime t_now).1) (h2 : (mktime t_now).1 < window_end ical)
    (hD : day_enabled ical D)
    (hs : day_start ical D ≤ (mktime t_now).1) (he : (mktime t_now).1 < day_end ical D)
    (hew : day_end ical D ≤ window_end ical) :
    ical_find_next_event ical t_now t_next
      = some (ICALEVENT_END, localtime (day_end ical D)) ∧
    (mktime (localtime (day_end ical D))).1 = day_end ical D := by
  refine ⟨?_, by rw [mktime_fst, timestamp_localtime]⟩
  rw [active_window_hit ical t_now t_next D 1 _ hv hen h1 h2 hD hs he
    (Or.inl ⟨hf, rfl, rfl⟩) (le_refl _)]
  rw [if_neg (by omega)]
  simp only [landed, recur_kind, if_pos hf]
  by_cases h0 : ical.count = 0
  · simp only [h0, ne_eq, not_true_eq_false, if_false]
  · have h3 : 1 % 256 < ical.count := by omega
    simp only [ne_eq, h0, not_false_eq_true, if_true, h3]

/-- Witness of C7, amended: the rule of the test suite with frequency `LIMITS` (no occurrence
limit) at 2016-10-24 08:57:00; the end event is at 16:00:00. -/
theorem limits_end_in_day_window_witness :
    ical_find_next_event { ex_ical with freq := LIMITS }
      (ical_set_time_struct 2016 10 24 8 57 0) ex_next
      = some (ICALEVENT_END, localtime 1477324800) :=
  (limits_end_in_day_window { ex_ical with freq := LIMITS }
    (ical_set_time_struct 2016 10 24 8 57 0) ex_next 17098
    (by decide) (by decide) (by decide) (by decide) (by decide) (by decide) (by decide)
    (by decide) (by decide) (by decide)).1

/-- C6: for every rule with frequency `SECONDLY`, `MINUTELY` or `HOURLY` and every current
time: when `ical_find_next_event` returns `ICALEVENT_RECUR` with the time `T`, then
`T = s + k * step` for some `k ≥ 1`, where `s` is the day-local start of a date whose weekday
is enabled and `s ≤ now`, and `T` is the first such time after the current time (`now < T`
and `T - step ≤ now`).  That the rule is valid and enabled need not be assumed: a rule that
is not gets no `ICALEVENT_RECUR`. -/
theorem recur_time_is_first_step (ical : ICAL) (t_now t_next t : Tm)
    (hf : ical.freq = SECONDLY ∨ ical.freq = MINUTELY ∨ ical.freq = HOURLY)
    (h : ical_find_next_event ical t_now t_next = some (ICALEVENT_RECUR, t)) :
    ∃ (D : Int) (k : Nat), day_enabled ical D ∧ day_start ical D ≤ (mktime t_now).1 ∧ 1 ≤ k ∧
      t = localtime (day_start ical D + k * step_seconds ical.freq ical.interval) ∧
      (mktime t).1 = day_start ical D + k * step_seconds ical.freq ical.interval ∧
      (mktime t_now).1 < day_start ical D + k * step_seconds ical.freq ical.interval ∧
      day_start ical D + k * step_seconds ical.freq ical.interval
        - step_seconds ical.freq ical.interval ≤ (mktime t_now).1 := by
  obtain ⟨_, _, _, _, x1, c, y, ht, _, a1, a2, _, a4, _, _⟩ :=
    recur_result_origin ical t_now t_next ICALEVENT_RECUR t (Or.inl rfl) h
  obtain ⟨k, hk1, hk2, hk3⟩ := step_while_result _ _ _ _ hf _ _ _ _ _ a4
  have hq : x1 / 86400 * 86400 / 86400 = x1 / 86400 := by omega
  have hs : day_start ical (x1 / 86400) = lin_start (window_start ical % 86400) x1 := by
    rw [day_start_lin]; exact lin_start_congr _ _ _ hq
  have hD : day_enabled ical (x1 / 86400) := by
    rw [day_enabled_lin, lin_enabled_congr _ _ _ hq]; exact a1
  refine ⟨x1 / 86400, k, hD, by rw [hs]; exact a2, (hk3 a2).1, ?_, ?_, ?_, ?_⟩
  · rw [hs, ← hk1]; exact ht
  · rw [hs, ← hk1, ht, mktime_fst, timestamp_localtime]
  · rw [hs, ← hk1]; exact hk2
  · rw [hs, ← hk1]; exact (hk3 a2).2

/-- Witness of C6: the rule of the test suite with a step of 241 seconds at
2016-10-24 09:55:00, where the call returns the recurrence at 09:56:29. -/
theorem recur_time_is_first_step_witness :
    ∃ (D : Int) (k : Nat), day_enabled { ex_ical with freq := SECONDLY, interval := 241 } D ∧
      day_start { ex_ical with freq := SECONDLY, interval := 241 } D
        ≤ (mktime (ical_set_time_struct 2016 10 24 9 55 0)).1 ∧ 1 ≤ k ∧
      localtime 1477302989
        = localtime (day_start { ex_ical with freq := SECONDLY, interval := 241 } D
            + k * step_seconds SECONDLY 241) ∧
      (mktime (localtime 1477302989)).1
        = day_start { ex_ical with freq := SECONDLY, interval := 241 } D
            + k * step_seconds SECONDLY 241 ∧
      (mktime (ical_set_time_struct 2016 10 24 9 55 0)).1
        < day_start { ex_ical with freq := SECONDLY, interval := 241 } D
            + k * step_seconds SECONDLY 241 ∧
      day_start { ex_ical with freq := SECONDLY, interval := 241 } D
          + k * step_seconds SECONDLY 241 - step_seconds SECONDLY 241
        ≤ (mktime (ical_set_time_struct 2016 10 24 9 55 0)).1 :=
  recur_time_is_first_step { ex_ical with freq := SECONDLY, interval := 241 }
    (ical_set_time_struct 2016 10 24 9 55 0) ex_next (localtime 1477302989)
    (by decide) (by decide)

/-- C8: for every rule with frequency `LIMITS`, whatever its interval, weekday mask,
occurrence limit and enabled flag, and every current time, `ical_find_next_event` never
returns `ICALEVENT_RECUR`. -/
theorem limits_never_recur (ical : ICAL) (t_now t_next : Tm) (hf : ical.freq = LIMITS) :
    ∀ t, ical_find_next_event ical t_now t_next ≠ some (ICALEVENT_RECUR, t) := by
  intro t h
  obtain ⟨_, _, _, _, x1, c, y, _, _, _, _, _, _, _, a6⟩ :=
    recur_result_origin ical t_now t_next ICALEVENT_RECUR t (Or.inl rfl) h
  have hk := (landed_kind ical.freq ical.count y c).2
  rw [a6] at hk
  simp only [recur_kind, if_pos hf] at hk
  rcases hk with hk | hk <;> exact absurd hk (by decide)

/-- Witness of C8: the rule of the test suite with frequency `LIMITS` at
2016-10-24 08:57:00 does not return a recurrence at 16:00:00. -/
theorem limits_never_recur_witness :
    ical_find_next_event { ex_ical with freq := LIMITS }
      (ical_set_time_struct 2016 10 24 8 57 0) ex_next
      ≠ some (ICALEVENT_RECUR, localtime 1477324800) :=
  limits_never_recur { ex_ical with freq := LIMITS }
    (ical_set_time_struct 2016 10 24 8 57 0) ex_next rfl (localtime 1477324800)

/-- Counterexample to C9 as stated: the rule of the test suite with occurrence limit 1 at
2016-10-23 08:00:00, the day before its window starts.  The current time lies in the
day-local window of Sunday 2016-10-23 (day 17097), one step of five minutes leads to the
first stepped time 08:05:00 after it, which is not after the day-local end, and `k = 1`
reaches the limit; yet the call returns `ICALEVENT_START`, not `ICALEVENT_NONE`. -/
theorem count_reached_counterexample :
    Valid { ex_ical with count := 1 } ∧ ({ ex_ical with count := 1 } : ICAL).enabled = true ∧
    ({ ex_ical with count := 1 } : ICAL).count > 0 ∧
    day_enabled { ex_ical with count := 1 } 17097 ∧
    day_start { ex_ical with count := 1 } 17097
      ≤ (mktime (ical_set_time_struct 2016 10 23 8 0 0)).1 ∧
    (mktime (ical_set_time_struct 2016 10 23 8 0 0)).1
      < day_end { ex_ical with count := 1 } 17097 ∧
    first_step_after MINUTELY 5 (day_start { ex_ical with count := 1 } 17097)
      (day_end { ex_ical with count := 1 } 17097)
      (mktime (ical_set_time_struct 2016 10 23 8 0 0)).1 1 1477209900 ∧
    1477209900 ≤ day_end { ex_ical with count := 1 } 17097 ∧
    ({ ex_ical with count := 1 } : ICAL).count ≤ 1 ∧
    ical_find_next_event { ex_ical with count := 1 }
      (ical_set_time_struct 2016 10 23 8 0 0) ex_next
      = some (ICALEVENT_START, localtime 1477296000) ∧
    ∀ t, ical_find_next_event { ex_ical with count := 1 }
      (ical_set_time_struct 2016 10 23 8 0 0) ex_next ≠ some (ICALEVENT_NONE, t) := by
  have hres : ical_find_next_event { ex_ical with count := 1 }
      (ical_set_time_struct 2016 10 23 8 0 0) ex_next
      = some (ICALEVENT_START, localtime 1477296000) := by decide
  refine ⟨by decide, by decide, by decide, by decide, by decide, by decide, by decide,
    by decide, by decide, hres, ?_⟩
  intro t ht
  rw [hres] at ht
  simp at ht

set_option maxRecDepth 100000 in
/-- The occurrence counter of the stepping loop wraps: the rule of the test suite with a step
of one second and occurrence limit 2, at 2016-10-24 08:04:16, needs 257 steps from 08:00:00;
the `uint8_t` counter then holds 1, and the call returns `ICALEVENT_RECUR` at 08:04:17 although
the limit is passed. -/
theorem count_wraps_at_256 :
    first_step_after SECONDLY 1
      (day_start { ex_ical with freq := SECONDLY, interval := 1, count := 2 } 17098)
      (day_end { ex_ical with freq := SECONDLY, interval := 1, count := 2 } 17098)
      (mktime (ical_set_time_struct 2016 10 24 8 4 16)).1 257 1477296257 ∧
    ical_find_next_event { ex_ical with freq := SECONDLY, interval := 1, count := 2 }
      (ical_set_time_struct 2016 10 24 8 4 16) ex_next
      = some (ICALEVENT_RECUR, localtime 1477296257) := by
  decide

/-- C9, amended: for every valid enabled rule with occurrence limit `n > 0` and every current
time at or after `window_start` that lies in the day-local window `[s, e)` of a date whose
weekday is enabled: when the first stepped time `T` after the current time is reached in `k`
steps from `s`, with `k ≤ 255` and `T ≤ e`, and `k ≥ n`, then `ical_find_next_event` returns
`ICALEVENT_NONE`. -/
theorem count_reached_none (ical : ICAL) (t_now t_next : Tm) (D : Int) (k : Nat) (T : Int)
    (hv : Valid ical) (hen : ical.enabled = true) (hn : ical.count > 0)
    (h1 : window_start ical ≤ (mktime t_now).1)
    (hD : day_enabled ical D)
    (hs : day_start ical D ≤ (mktime t_now).1) (he : (mktime t_now).1 < day_end ical D)
    (hk : first_step_after ical.freq ical.interval (day_start ical D) (day_end ical D)
      (mktime t_now).1 k T)
    (hTe : T ≤ day_end ical D) (hk255 : k ≤ 255) (hkn : ical.count ≤ k) :
    ∃ t, ical_find_next_event ical t_now t_next = some (ICALEVENT_NONE, t) := by
  by_cases h2 : (mktime t_now).1 < window_end ical
  · rw [active_window_hit ical t_now t_next D k T hv hen h1 h2 hD hs he hk hTe]
    by_cases h3 : T > window_end ical
    · exact ⟨_, by rw [if_pos h3]⟩
    · refine ⟨localtime T, ?_⟩
      rw [if_neg h3]
      have h4 : ¬ k % 256 < ical.count := by omega
      have h5 : ical.count ≠ 0 := by omega
      simp only [landed, if_pos h5, if_neg h4]
  · refine ⟨t_next, ?_⟩
    rw [find_next_event_valid ical t_now t_next hv, if_pos hen, if_neg (by omega),
      if_neg (fun hh => h2 hh.2)]

/-- Witness of C9, amended: the rule of the test suite with a step of one minute and
occurrence limit 50, at 2016-10-24 08:49:00; the fiftieth step from 08:00:00 leads to
08:50:00 and reaches the limit. -/
theorem count_reached_none_witness :
    ∃ t, ical_find_next_event { ex_ical with interval := 1, count := 50 }
      (ical_set_time_struct 2016 10 24 8 49 0) ex_next = some (ICALEVENT_NONE, t) :=
  count_reached_none { ex_ical with interval := 1, count := 50 }
    (ical_set_time_struct 2016 10 24 8 49 0) ex_next 17098 50 1477299000
    (by decide) (by decide) (by decide) (by decide) (by decide) (by decide) (by decide)
    (by decide) (by decide) (by decide) (by decide)

/-- Counterexample to C10 as stated: the rule of the test suite with occurrence limit 3 at
2016-10-23 08:01:00, the day before its window starts.  The current time lies in the
day-local window of Sunday 2016-10-23 (day 17097), the first stepped time after it is
`T` = 08:05:00, reached in `k = 1 < 3` steps, `T` is after neither the day-local end nor
`window_end`; yet the call returns `ICALEVENT_START` at `window_start`, not
`ICALEVENT_RECUR` at `T`. -/
theorem recur_below_count_counterexample :
    Valid { ex_ical with count := 3 } ∧ ({ ex_ical with count := 3 } : ICAL).enabled = true ∧
    ({ ex_ical with count := 3 } : ICAL).freq = MINUTELY ∧
    ({ ex_ical with count := 3 } : ICAL).count > 0 ∧
    day_enabled { ex_ical with count := 3 } 17097 ∧
    day_start { ex_ical with count := 3 } 17097
      ≤ (mktime (ical_set_time_struct 2016 10 23 8 1 0)).1 ∧
    (mktime (ical_set_time_struct 2016 10 23 8 1 0)).1
      < day_end { ex_ical with count := 3 } 17097 ∧
    first_step_after MINUTELY 5 (day_start { ex_ical with count := 3 } 17097)
      (day_end { ex_ical with count := 3 } 17097)
      (mktime (ical_set_time_struct 2016 10 23 8 1 0)).1 1 1477209900 ∧
    1 < ({ ex_ical with count := 3 } : ICAL).count ∧
    1477209900 ≤ day_end { ex_ical with count := 3 } 17097 ∧
    1477209900 ≤ window_end { ex_ical with count := 3 } ∧
    ical_find_next_event { ex_ical with count := 3 }
      (ical_set_time_struct 2016 10 23 8 1 0) ex_next
      = some (ICALEVENT_START, localtime 1477296000) ∧
    ical_find_next_event { ex_ical with count := 3 }
      (ical_set_time_struct 2016 10 23 8 1 0) ex_next
      ≠ some (ICALEVENT_RECUR, localtime 1477209900) := by
  decide

/-- C10, amended: for every valid enabled rule with frequency `SECONDLY`, `MINUTELY` or
`HOURLY` and occurrence limit `n > 0`, and every current time at or after `window_start` that
lies in the day-local window `[s, e)` of a date whose weekday is enabled: when the first
stepped time `T` after the current time is reached in `k < n` steps from `s`, and `T ≤ e` and
`T ≤ window_end`, then `ical_find_next_event` returns `ICALEVENT_RECUR` and writes the
broken-down form of `T`. -/
theorem recur_below_count (ical : ICAL) (t_now t_next : Tm) (D : Int) (k : Nat) (T : Int)
    (hv : Valid ical) (hen : ical.enabled = true)
    (hf : ical.freq = SECONDLY ∨ ical.freq = MINUTELY ∨ ical.freq = HOURLY)
    (hn : ical.count > 0)
    (h1 : window_start ical ≤ (mktime t_now).1)
    (hD : day_enabled ical D)
    (hs : day_start ical D ≤ (mktime t_now).1) (he : (mktime t_now).1 < day_end ical D)
    (hk : first_step_after ical.freq ical.interval (day_start ical D) (day_end ical D)
      (mktime t_now).1 k T)
    (hkn : k < ical.count) (hTe : T ≤ day_end ical D) (hTw : T ≤ window_end ical) :
    ical_find_next_event ical t_now t_next = some (ICALEVENT_RECUR, localtime T) ∧
    (mktime (localtime T)).1 = T := by
  refine ⟨?_, by rw [mktime_fst, timestamp_localtime]⟩
  have hl : ¬ ical.freq = LIMITS := by
    simp only [LIMITS, SECONDLY, MINUTELY, HOURLY] at hf ⊢; omega
  have hnowT : (mktime t_now).1 < T := by
    rcases hk with ⟨h0, _⟩ | ⟨_, _, _, _, h0⟩
    · exact absurd h0 hl
    · exact h0
  rw [active_window_hit ical t_now t_next D k T hv hen h1 (by omega) hD hs he hk hTe]
  rw [if_neg (by omega)]
  have h4 : k % 256 < ical.count := lt_of_le_of_lt (Nat.mod_le k 256) hkn
  have h5 : ical.count ≠ 0 := by omega
  simp only [landed, if_pos h5, if_pos h4, recur_kind, if_neg hl]

/-- Witness of C10, amended: the rule of the test suite with a step of one hour and
occurrence limit 3, at 2016-10-24 09:55:00; the second step from 08:00:00 leads to the
recurrence at 10:00:00. -/
theorem recur_below_count_witness :
    ical_find_next_event { ex_ical with freq := HOURLY, interval := 1, count := 3 }
      (ical_set_time_struct 2016 10 24 9 55 0) ex_next
      = some (ICALEVENT_RECUR, localtime 1477303200) :=
  (recur_below_count { ex_ical with freq := HOURLY, interval := 1, count := 3 }
    (ical_set_time_struct 2016 10 24 9 55 0) ex_next 17098 2 1477303200
    (by decide) (by decide) (by decide) (by decide) (by decide) (by decide) (by decide)
    (by decide) (by decide) (by decide) (by decide) (by decide)).1

/-! ## Claims about the anchoring and the time of an event -/

/-- Counterexample to C11 as stated: the rule of the test suite with the weekday mask `WE`
(Wednesdays only) at 2016-09-24 09:57:00, before its window.  The rule is valid and enabled,
the call returns `ICALEVENT_START` at `window_start`, 2016-10-24 08:00:00, and the date of
this time (day 17098, a Monday) is not in the mask. -/
theorem start_on_excluded_day_counterexample :
    Valid { ex_ical with byday := WE } ∧ ({ ex_ical with byday := WE } : ICAL).enabled = true ∧
    ical_find_next_event { ex_ical with byday := WE }
      (ical_set_time_struct 2016 9 24 9 57 0) ex_next
      = some (ICALEVENT_START, localtime 1477296000) ∧
    (mktime (localtime 1477296000)).1 / 86400 = 17098 ∧
    ¬ day_enabled { ex_ical with byday := WE } 17098 := by
  decide

/-- C11, amended: for every rule and every current time at or after `window_start`: when
`ical_find_next_event` returns `ICALEVENT_START`, the weekday of the date of the returned
time is in the mask and the returned time is the day-local start of this date; when it
returns `ICALEVENT_RECUR` or `ICALEVENT_END`, the returned time is the first stepped time
after the current time of the stepping loop that started at the day-local start of a date
whose weekday is in the mask and whose day-local window holds the current time.  (Before
`window_start` the call returns the start of the window whatever its weekday.) -/
theorem event_anchored_to_enabled_date (ical : ICAL) (t_now t_next : Tm) (ev : ICALEVENT)
    (t : Tm) (h1 : window_start ical ≤ (mktime t_now).1)
    (h : ical_find_next_event ical t_now t_next = some (ev, t)) :
    (ev = ICALEVENT_START →
      day_enabled ical ((mktime t).1 / 86400) ∧
      (mktime t).1 = day_start ical ((mktime t).1 / 86400)) ∧
    (ev = ICALEVENT_RECUR ∨ ev = ICALEVENT_END →
      ∃ (D : Int) (k : Nat), day_enabled ical D ∧ day_start ical D ≤ (mktime t_now).1 ∧
        (mktime t_now).1 < day_end ical D ∧
        first_step_after ical.freq ical.interval (day_start ical D) (day_end ical D)
          (mktime t_now).1 k (mktime t).1) := by
  constructor
  · intro hev
    subst hev
    obtain ⟨_, _, hc⟩ := start_result_origin ical t_now t_next t h
    rcases hc with ⟨h0, _⟩ | ⟨_, _, x1, a1, _, _, a4⟩
    · omega
    · have hS : 0 ≤ window_start ical % 86400 ∧ window_start ical % 86400 < 86400 := by omega
      have ht : (mktime t).1 = lin_start (window_start ical % 86400) x1 := by
        rw [a4, mktime_localtime_fst]
      have hq : (mktime t).1 / 86400 * 86400 / 86400 = x1 / 86400 := by
        rw [ht]; unfold lin_start; omega
      rw [day_enabled_lin, lin_enabled_congr _ _ _ hq, day_start_lin,
        lin_start_congr _ _ _ hq]
      exact ⟨a1, ht⟩
  · intro hev
    obtain ⟨hv, _, _, _, x1, c, y, ht, _, a1, a2, a3, a4, _, _⟩ :=
      recur_result_origin ical t_now t_next ev t hev h
    have hq : x1 / 86400 * 86400 / 86400 = x1 / 86400 := by omega
    have hs : day_start ical (x1 / 86400) = lin_start (window_start ical % 86400) x1 := by
      rw [day_start_lin]; exact lin_start_congr _ _ _ hq
    have he : day_end ical (x1 / 86400)
        = lin_end (window_start ical % 86400) (window_end ical % 86400) x1 := by
      rw [day_end_lin]; exact lin_end_congr _ _ _ _ hq
    have hD : day_enabled ical (x1 / 86400) := by
      rw [day_enabled_lin, lin_enabled_congr _ _ _ hq]; exact a1
    have hty : (mktime t).1 = y := by rw [ht, mktime_localtime_fst]
    obtain ⟨k, hk⟩ := step_while_first_conv ical.freq ical.interval _ _ _
      (by have := hv.2.2.2.2; omega) a2 a3 _ _ _ a4
    exact ⟨x1 / 86400, k, hD, by rw [hs]; exact a2, by rw [he]; exact a3,
      by rw [hs, he, hty]; exact hk⟩

/-- Witness of C11, amended: the rule of the test suite with the weekday mask `MO | WE` at
2016-11-10 04:25:00 (a Thursday); the call returns the start on Monday 2016-11-14 (day 17119),
and Monday is in the mask. -/
theorem event_anchored_to_enabled_date_witness :
    day_enabled { ex_ical with byday := MO ||| WE }
      ((mktime (localtime 1479110400)).1 / 86400) ∧
    (mktime (localtime 1479110400)).1
      = day_start { ex_ical with byday := MO ||| WE }
          ((mktime (localtime 1479110400)).1 / 86400) :=
  (event_anchored_to_enabled_date { ex_ical with byday := MO ||| WE }
    (ical_set_time_struct 2016 11 10 4 25 0) ex_next ICALEVENT_START (localtime 1479110400)
    (by decide) (by decide)).1 rfl

/-- C12: for every rule and every current time: when `ical_find_next_event` returns
`ICALEVENT_START`, `ICALEVENT_RECUR` or `ICALEVENT_END` with the time `T`, then
`now < T ≤ window_end`. -/
theorem event_time_bounds (ical : ICAL) (t_now t_next : Tm) (ev : ICALEVENT) (t : Tm)
    (hev : ev = ICALEVENT_START ∨ ev = ICALEVENT_RECUR ∨ ev = ICALEVENT_END)
    (h : ical_find_next_event ical t_now t_next = some (ev, t)) :
    (mktime t_now).1 < (mktime t).1 ∧ (mktime t).1 ≤ window_end ical := by
  rcases hev with hev | hev
  · subst hev
    obtain ⟨hv, _, hc⟩ := start_result_origin ical t_now t_next t h
    rcases hc with ⟨h0, ht⟩ | ⟨_, _, x1, _, a2, a3, a4⟩
    · rw [ht, mktime_localtime_fst]
      have := hv.1
      omega
    · rw [a4, mktime_localtime_fst]
      exact ⟨a2, a3⟩
  · obtain ⟨_, _, _, _, x1, c, y, ht, hy, _, _, _, a4, _, _⟩ :=
      recur_result_origin ical t_now t_next ev t hev h
    rw [ht, mktime_localtime_fst]
    exact ⟨step_while_gt _ _ _ _ _ _ _ _ _ a4, hy⟩

/-- Witness of C12: the rule of the test suite at 2016-10-24 08:55:00, where the call returns
the recurrence at 09:00:00. -/
theorem event_time_bounds_witness :
    (mktime (ical_set_time_struct 2016 10 24 8 55 0)).1 < (mktime (localtime 1477299600)).1 ∧
    (mktime (localtime 1477299600)).1 ≤ window_end ex_ical :=
  event_time_bounds ex_ical (ical_set_time_struct 2016 10 24 8 55 0) ex_next ICALEVENT_RECUR
    (localtime 1477299600) (by decide) (by decide)

/-! ## Claims about the schedule queue -/

/-- C13: starting from a freshly cleared scheduler, after `MAX_SCHEDULES = 5` calls of
`scheduler_add` have returned `true` (with any calls of `scheduler_remove_last` and
`scheduler_update_events` and any failed calls of `scheduler_add` in between), every further
call of `scheduler_add` returns `false` and leaves the whole state as it is: the schedule
queue, the id counter and the event queue. -/
theorem add_fails_at_capacity (st0 : State) (ops : List Op) (st : State)
    (hnc : (ops.all fun op => !op.is_clear) = true)
    (hrun : run (scheduler_clear st0) ops = some st)
    (h5 : add_successes (scheduler_clear st0) ops = MAX_SCHEDULES) :
    ∀ (group : Nat) (ical : ICAL) (m : Option SCHEDULE),
      scheduler_add st group ical m = (false, st) := by
  intro group ical m
  have hc := run_count ops (scheduler_clear st0) st hnc hrun
  rw [h5, scheduler_clear_eq] at hc
  exact add_full st group ical m (by rw [hc]; simp [init_state])

/-- Witness of C13: the five calls `ex_ops5` from the start lead to the state `ex_state5`, in
which a sixth call returns `false` and changes nothing. -/
theorem add_fails_at_capacity_witness :
    scheduler_add ex_state5 1 ex_ical (some ex_block) = (false, ex_state5) :=
  add_fails_at_capacity init_state ex_ops5 ex_state5 (by decide) (by decide) (by decide)
    1 ex_ical (some ex_block)

/-- C14: starting from a freshly cleared scheduler, under any interleaving of calls of
`scheduler_add` and `scheduler_remove_last` (and of `scheduler_update_events`): the id counter
is the number `n` of calls of `scheduler_add` that have returned `true` so far, and the next
such call appends a schedule with the id `n`; the ids of the stored schedules are strictly
increasing in insertion order (hence pairwise distinct) and below the id counter, so a new id
differs from every id assigned before. -/
theorem ids_are_sequential (st0 : State) (ops : List Op) (st : State)
    (hnc : (ops.all fun op => !op.is_clear) = true)
    (hrun : run (scheduler_clear st0) ops = some st) :
    st.schedule_count = add_successes (scheduler_clear st0) ops ∧
    (∀ (group : Nat) (ical : ICAL) (m : Option SCHEDULE),
      (scheduler_add st group ical m).1 = true →
      ∃ s, (scheduler_add st group ical m).2.schedule_head = st.schedule_head ++ [s] ∧
        s.id = add_successes (scheduler_clear st0) ops) ∧
    List.Pairwise (fun a b => a < b) (st.schedule_head.map fun s => s.id) ∧
    (st.schedule_head.map fun s => s.id).Nodup ∧
    (∀ s ∈ st.schedule_head, s.id < st.schedule_count) := by
  have hc := run_count ops (scheduler_clear st0) st hnc hrun
  have hinv : Inv st := by
    apply inv_run ops (scheduler_clear st0) st _ hrun
    rw [scheduler_clear_eq]; exact inv_init
  have h0 : (scheduler_clear st0).schedule_count = 0 := by rw [scheduler_clear_eq]; rfl
  rw [h0, Nat.zero_add] at hc
  refine ⟨hc, ?_, hinv.2.2.1, ?_, hinv.2.2.2⟩
  · intro group ical m hs
    obtain ⟨hlt, s, hm⟩ := add_true st group ical m hs
    subst hm
    rw [add_some st group ical s hlt]
    exact ⟨_, rfl, hc⟩
  · exact hinv.2.2.1.imp (fun h => Nat.ne_of_lt h)

/-- Witness of C14: after two successful calls, a removal and a third successful call the id
counter is 3, and the next successful call stores its schedule with the id 3. -/
theorem ids_are_sequential_witness :
    ∃ s, (scheduler_add
        { schedule_head := [ex_schedule 0 0 ex_ical, ex_schedule 2 2 ex_ical],
          event_head := [], schedule_count := 3, event_count := 0 }
        5 ex_ical (some ex_block)).2.schedule_head
        = [ex_schedule 0 0 ex_ical, ex_schedule 2 2 ex_ical] ++ [s] ∧
      s.id = add_successes (scheduler_clear init_state)
        [Op.add 0 ex_ical (some ex_block), Op.add 1 ex_ical (some ex_block), Op.remove_last,
         Op.add 2 ex_ical (some ex_block)] :=
  (ids_are_sequential init_state
    [Op.add 0 ex_ical (some ex_block), Op.add 1 ex_ical (some ex_block), Op.remove_last,
     Op.add 2 ex_ical (some ex_block)]
    { schedule_head := [ex_schedule 0 0 ex_ical, ex_schedule 2 2 ex_ical],
      event_head := [], schedule_count := 3, event_count := 0 }
    (by decide) (by decide)).2.1 5 ex_ical (some ex_block) (by decide)

/-- C15, the code at the failing input: on the freshly cleared scheduler a call of
`scheduler_add` for the group 0 and the rule of the test suite with the occurrence limit 1
returns `true` and assigns the id 0; `scheduler_get_schedule_by_id` for this id returns a
schedule with the group 0 and the six fields `t_start`, `t_end`, `freq`, `interval`, `byday`
and `enabled` of the rule, but its occurrence limit is the 7 that the fresh block held, not
the 1 of the rule: `scheduler_add` does not assign `count`. -/
theorem add_drops_count :
    (scheduler_add init_state 0 { ex_ical with count := 1 } (some ex_block)).1 = true ∧
    scheduler_get_schedule_by_id
      (scheduler_add init_state 0 { ex_ical with count := 1 } (some ex_block)).2 0
      = some { id := 0, group := 0, ical := { ex_ical with count := 7 } } ∧
    ({ ex_ical with count := 7 } : ICAL) ≠ { ex_ical with count := 1 } := by
  decide

/-- C16: for every state of the scheduler and every id, `scheduler_get_schedule_by_id` returns
a schedule if and only if a schedule with this id is stored, and the schedule returned is
stored and has this id.  In a reachable state no schedule is returned for an id that has not
been assigned since the last clear (an id at or above the id counter), and none for the id of
a schedule that `scheduler_remove_last` has removed, up to the next clear. -/
theorem get_schedule_iff_stored (st : State) (id : Nat) :
    ((∃ s, scheduler_get_schedule_by_id st id = some s) ↔
      ∃ s ∈ st.schedule_head, s.id = id) ∧
    (∀ s, scheduler_get_schedule_by_id st id = some s → s ∈ st.schedule_head ∧ s.id = id) ∧
    (Reachable st → st.schedule_count ≤ id → scheduler_get_schedule_by_id st id = none) ∧
    (Reachable st → ∀ s, TAILQ_LAST st.schedule_head = some s → s.id = id →
      ∀ (ops : List Op) (st1 : State), (ops.all fun op => !op.is_clear) = true →
        run (scheduler_remove_last st).2 ops = some st1 →
        scheduler_get_schedule_by_id st1 id = none) := by
  have hsome : ∀ s, scheduler_get_schedule_by_id st id = some s →
      s ∈ st.schedule_head ∧ s.id = id := by
    intro s h
    unfold scheduler_get_schedule_by_id at h
    have h1 := List.find?_some h
    simp only [beq_iff_eq] at h1
    exact ⟨List.mem_of_find?_eq_some h, h1.symm⟩
  refine ⟨⟨?_, ?_⟩, hsome, ?_, ?_⟩
  · rintro ⟨s, h⟩
    exact ⟨s, (hsome s h).1, (hsome s h).2⟩
  · rintro ⟨s, hs, hid⟩
    cases hg : scheduler_get_schedule_by_id st id with
    | some s1 => exact ⟨s1, rfl⟩
    | none =>
      unfold scheduler_get_schedule_by_id at hg
      rw [List.find?_eq_none] at hg
      have := hg s hs
      simp only [beq_iff_eq] at this
      exact absurd hid.symm this
  · intro hr hid
    apply find_id_none
    intro a ha
    have := (inv_reachable st hr).2.2.2 a ha
    omega
  · intro hr s hlast hid ops st1 hnc hrun
    have hinv := inv_reachable st hr
    have hne : st.schedule_head ≠ [] := by
      intro hn
      rw [hn] at hlast
      exact absurd hlast (by simp [TAILQ_LAST])
    have hmem : s ∈ st.schedule_head := List.mem_of_getLast?_eq_some hlast
    have hsplit : st.schedule_head = st.schedule_head.dropLast ++ [s] := by
      have h1 := List.dropLast_append_getLast hne
      have h2 : st.schedule_head.getLast hne = s := by
        have := List.getLast?_eq_getLast _ hne
        unfold TAILQ_LAST at hlast
        rw [this] at hlast
        exact Option.some.inj hlast
      rw [h2] at h1
      exact h1.symm
    have hpw := hinv.2.2.1
    rw [hsplit, List.map_append, List.pairwise_append] at hpw
    have habs : ∀ a ∈ (scheduler_remove_last st).2.schedule_head, a.id ≠ id := by
      rw [remove_last_cons st hne]
      intro a ha
      have := hpw.2.2 a.id (List.mem_map_of_mem _ ha) s.id (by simp)
      omega
    have hx : id < (scheduler_remove_last st).2.schedule_count := by
      rw [remove_last_cons st hne]
      have := hinv.2.2.2 s hmem
      simp only
      omega
    apply find_id_none
    exact absent_run ops _ st1 id hnc hx habs hrun

/-- Witness of C16: in the state `ex_state5` the id 3 is stored and the lookup returns a
schedule for it. -/
theorem get_schedule_iff_stored_witness :
    ∃ s, scheduler_get_schedule_by_id ex_state5 3 = some s :=
  (get_schedule_iff_stored ex_state5 3).1.2
    ⟨ex_schedule 3 2 { ex_ical with interval := 3 }, by decide, rfl⟩

/-- C17: on a non-empty schedule queue `scheduler_remove_last` returns `true` and the new
queue is the old one without its last entry, the other entries as they were and in their
order, the rest of the state untouched; on an empty queue it returns `false` and changes
nothing. -/
theorem remove_last_pops (st : State) :
    (st.schedule_head ≠ [] →
      (scheduler_remove_last st).1 = true ∧
      (scheduler_remove_last st).2.schedule_head = st.schedule_head.dropLast ∧
      (∃ s, TAILQ_LAST st.schedule_head = some s ∧
        st.schedule_head = (scheduler_remove_last st).2.schedule_head ++ [s]) ∧
      (scheduler_remove_last st).2.event_head = st.event_head ∧
      (scheduler_remove_last st).2.schedule_count = st.schedule_count ∧
      (scheduler_remove_last st).2.event_count = st.event_count) ∧
    (st.schedule_head = [] → scheduler_remove_last st = (false, st)) := by
  refine ⟨?_, remove_last_nil st⟩
  intro hne
  rw [remove_last_cons st hne]
  refine ⟨rfl, rfl, ⟨st.schedule_head.getLast hne, ?_, ?_⟩, rfl, rfl, rfl⟩
  · exact List.getLast?_eq_getLast _ hne
  · exact (List.dropLast_append_getLast hne).symm

/-- Witness of C17: in the state `ex_state5` the call removes the schedule with the id 4. -/
theorem remove_last_pops_witness :
    (scheduler_remove_last ex_state5).1 = true ∧
    (scheduler_remove_last ex_state5).2.schedule_head = ex_state5.schedule_head.dropLast :=
  ⟨((remove_last_pops ex_state5).1 (by decide)).1,
    ((remove_last_pops ex_state5).1 (by decide)).2.1⟩

/-- C18: after `scheduler_clear`, from any state, the schedule queue and the event queue are
empty, so that `scheduler_get_schedule_by_id` and `scheduler_get_event_by_group` return
nothing for every argument; and the next call of `scheduler_add` (given a block by `malloc`)
returns `true` and stores its schedule with the id 0. -/
theorem clear_empties (st : State) :
    (scheduler_clear st).schedule_head = [] ∧ (scheduler_clear st).event_head = [] ∧
    (∀ id, scheduler_get_schedule_by_id (scheduler_clear st) id = none) ∧
    (∀ group, scheduler_get_event_by_group (scheduler_clear st) group = none) ∧
    ∀ (group : Nat) (ical : ICAL) (fresh : SCHEDULE),
      (scheduler_add (scheduler_clear st) group ical (some fresh)).1 = true ∧
      ∃ s, (scheduler_add (scheduler_clear st) group ical (some fresh)).2.schedule_head = [s] ∧
        s.id = 0 ∧
        scheduler_get_schedule_by_id
          (scheduler_add (scheduler_clear st) group ical (some fresh)).2 0 = some s := by
  rw [scheduler_clear_eq]
  refine ⟨rfl, rfl, fun _ => rfl, fun _ => rfl, ?_⟩
  intro group ical fresh
  have hc : init_state.schedule_count < MAX_SCHEDULES := by decide
  have hget := add_then_get init_state group ical fresh inv_init hc
  rw [add_some init_state group ical fresh hc] at hget ⊢
  exact ⟨rfl, _, rfl, rfl, hget⟩

/-! ## Claims about the event queue -/

theorem find_group_iff (es : List EVENT) (g : Nat) :
    (∃ e, es.find? (fun e => g == e.group) = some e) ↔ g ∈ es.map fun e => e.group := by
  constructor
  · rintro ⟨e, he⟩
    have h1 := List.find?_some he
    simp only [beq_iff_eq] at h1
    exact List.mem_map.2 ⟨e, List.mem_of_find?_eq_some he, h1.symm⟩
  · intro h
    obtain ⟨e, he, hg⟩ := List.mem_map.1 h
    cases hf : es.find? (fun e => g == e.group) with
    | some e1 => exact ⟨e1, rfl⟩
    | none =>
      rw [List.find?_eq_none] at hf
      have := hf e he
      simp only [beq_iff_eq] at this
      exact absurd hg.symm this

theorem countP_group (es : List EVENT) (g : Nat) :
    es.countP (fun e => e.group == g) = (es.map fun e => e.group).count g := by
  induction es with
  | nil => rfl
  | cons e rest ih =>
    rw [List.countP_cons, List.map_cons, List.count_cons, ih]

/-- The run of `scheduler_update_events` in a state that satisfies the invariant, whatever the
event queue holds, when every call of `malloc` gives a block. -/
theorem update_events_spec (st : State) (es : List EVENT) (n : Nat) (now t_temp : Tm)
    (blocks : Nat → EVENT) (hinv : Inv st) :
    ∃ st1,
      scheduler_update_events { st with event_head := es, event_count := n } now t_temp
        (fun i => some (blocks i)) = some st1 ∧
      (∀ g, g ∈ st1.event_head.map (fun e => e.group) ↔
        ∃ s ∈ st.schedule_head, s.group = g ∧ s.ical.enabled = true) ∧
      (st1.event_head.map fun e => e.group).Nodup ∧
      (∀ s ∈ st.schedule_head, s.ical.enabled = true → ∀ (ev : ICALEVENT) (t tn : Tm),
        (ev = ICALEVENT_START ∨ ev = ICALEVENT_RECUR ∨ ev = ICALEVENT_END) →
        ical_find_next_event s.ical now tn = some (ev, t) →
        event_le st1.event_head s.group (mktime t).1) := by
  unfold scheduler_update_events
  simp only [_event_list_clear, clear_while_nil]
  obtain ⟨l1, st1, hrun, i1, i2, _, i4, _⟩ := update_foreach_spec blocks now st.schedule_head 0
    { schedule_head := st.schedule_head, event_head := [], schedule_count := st.schedule_count,
      event_count := 0 } t_temp now rfl
    (by simp only [List.length_nil, Nat.zero_add]; exact le_trans hinv.1 hinv.2.1) rfl
  rw [hrun]
  refine ⟨_, rfl, ?_, ?_, i4⟩
  · intro g
    rw [i1 g]
    simp
  · exact i2 (by simp)

/-- C19: after `scheduler_update_events`, starting from any reachable state of the scheduler
and whatever the event queue and the event counter held before the call (every call of
`malloc` giving a block): the call returns, and for every group `g` the event queue holds
exactly one event with the group `g` when a stored schedule with the group `g` has
`enabled = true`, and none otherwise; so `scheduler_get_event_by_group` returns an event for
`g` if and only if an enabled schedule has the group `g`. -/
theorem update_events_one_event_per_group (st : State) (es : List EVENT) (n : Nat)
    (now t_temp : Tm) (blocks : Nat → EVENT) (hr : Reachable st) :
    ∃ st1,
      scheduler_update_events { st with event_head := es, event_count := n } now t_temp
        (fun i => some (blocks i)) = some st1 ∧
      ∀ g,
        ((∃ s ∈ st.schedule_head, s.group = g ∧ s.ical.enabled = true) →
          st1.event_head.countP (fun e => e.group == g) = 1) ∧
        (¬ (∃ s ∈ st.schedule_head, s.group = g ∧ s.ical.enabled = true) →
          st1.event_head.countP (fun e => e.group == g) = 0) ∧
        ((∃ e, scheduler_get_event_by_group st1 g = some e) ↔
          ∃ s ∈ st.schedule_head, s.group = g ∧ s.ical.enabled = true) := by
  obtain ⟨st1, hrun, h1, h2, _⟩ := update_events_spec st es n now t_temp blocks
    (inv_reachable st hr)
  refine ⟨st1, hrun, fun g => ⟨?_, ?_, ?_⟩⟩
  · intro h
    rw [countP_group]
    exact List.count_eq_one_of_mem h2 ((h1 g).2 h)
  · intro h
    rw [countP_group]
    exact List.count_eq_zero_of_not_mem fun hh => h ((h1 g).1 hh)
  · unfold scheduler_get_event_by_group
    rw [find_group_iff, h1 g]

/-- Witness of C19: in the state `ex_state5`, reached by the five calls `ex_ops5`, the group 2
has an enabled schedule, and after the call the event queue holds one event with this
group. -/
theorem update_events_one_event_per_group_witness :
    ∃ st1,
      scheduler_update_events { ex_state5 with event_head := [], event_count := 0 }
        (ical_set_time_struct 2016 9 24 9 57 0) ex_next (fun _ => some ex_event_block)
        = some st1 ∧
      ∀ g,
        ((∃ s ∈ ex_state5.schedule_head, s.group = g ∧ s.ical.enabled = true) →
          st1.event_head.countP (fun e => e.group == g) = 1) ∧
        (¬ (∃ s ∈ ex_state5.schedule_head, s.group = g ∧ s.ical.enabled = true) →
          st1.event_head.countP (fun e => e.group == g) = 0) ∧
        ((∃ e, scheduler_get_event_by_group st1 g = some e) ↔
          ∃ s ∈ ex_state5.schedule_head, s.group = g ∧ s.ical.enabled = true) :=
  update_events_one_event_per_group ex_state5 [] 0 (ical_set_time_struct 2016 9 24 9 57 0)
    ex_next (fun _ => ex_event_block) ⟨ex_ops5, by decide⟩

/-- C20: after `scheduler_update_events` for the current time `t`, starting from any reachable
state (every call of `malloc` giving a block): the call returns, and for every stored
schedule with `enabled = true` whose own result of `ical_find_next_event` at `t` is
`ICALEVENT_START`, `ICALEVENT_RECUR` or `ICALEVENT_END` with the time `T`, the event that
`scheduler_get_event_by_group` returns for the group of the schedule has a timestamp at most
`T`. -/
theorem merge_keeps_earliest (st : State) (now t_temp t_any : Tm) (blocks : Nat → EVENT)
    (s : SCHEDULE) (ev : ICALEVENT) (t : Tm) (hr : Reachable st)
    (hs : s ∈ st.schedule_head) (hen : s.ical.enabled = true)
    (hev : ev = ICALEVENT_START ∨ ev = ICALEVENT_RECUR ∨ ev = ICALEVENT_END)
    (hres : ical_find_next_event s.ical now t_any = some (ev, t)) :
    ∃ st1 e,
      scheduler_update_events st now t_temp (fun i => some (blocks i)) = some st1 ∧
      scheduler_get_event_by_group st1 s.group = some e ∧ e.epoch ≤ (mktime t).1 := by
  obtain ⟨st1, hrun, _, _, h3⟩ := update_events_spec st st.event_head st.event_count now t_temp
    blocks (inv_reachable st hr)
  obtain ⟨e, he, hb⟩ := h3 s hs hen ev t t_any hev hres
  exact ⟨st1, e, hrun, he, hb⟩

/-- Witness of C20: in the state `ex_state5` at 2016-09-24 09:57:00 the schedule with the id 3
of the group 2 has the event `ICALEVENT_START` at 2016-10-24 08:00:00, and the event stored
for the group 2 is not later. -/
theorem merge_keeps_earliest_witness :
    ∃ st1 e,
      scheduler_update_events ex_state5 (ical_set_time_struct 2016 9 24 9 57 0) ex_next
        (fun _ => some ex_event_block) = some st1 ∧
      scheduler_get_event_by_group st1 2 = some e ∧
      e.epoch ≤ (mktime (localtime 1477296000)).1 :=
  merge_keeps_earliest ex_state5 (ical_set_time_struct 2016 9 24 9 57 0) ex_next ex_next
    (fun _ => ex_event_block) (ex_schedule 3 2 { ex_ical with interval := 3 }) ICALEVENT_START
    (localtime 1477296000) ⟨ex_ops5, by decide⟩ (by decide) (by decide) (by decide)
    (by decide)

/-! ## The search over the dates after the current time -/

/-- A weekday mask that passes the validation holds one of the seven weekdays. -/
theorem mask_has_day (byday : Nat) (h0 : byday ≠ 0) (h1 : byday ≤ 0x7F) :
    ∃ w, w < 7 ∧ _is_day_of_week w byday = true := by
  have h : ∀ b, b < 128 → b ≠ 0 → ∃ w, w < 7 ∧ _is_day_of_week w b = true := by
    decide
  exact h byday (by omega) h0

/-- Among seven dates in a row, one has its weekday in a mask that passes the validation. -/
theorem lin_enabled_week (byday : Nat) (h0 : byday ≠ 0) (h1 : byday ≤ 0x7F) (x : Int) :
    ∃ m : Nat, m < 7 ∧ lin_enabled byday (x + 86400 * ((m : Int) + 1)) = true := by
  obtain ⟨w, hw, hday⟩ := mask_has_day byday h0 h1
  refine ⟨(((w : Int) - (x / 86400 + 5)) % 7).toNat, by omega, ?_⟩
  unfold lin_enabled
  have e : (((x + 86400 * (((((w : Int) - (x / 86400 + 5)) % 7).toNat : Int) + 1)) / 86400 + 4)
      % 7).toNat = w := by omega
  rw [e]
  exact hday

/-- From the second pass on, when the day-local start of the next candidate date lies after
the current time, the day loop returns the start of the first date with an enabled weekday
among the next `n` dates. -/
theorem lin_forward (byday freq interval cnt : Nat) (S E now : Int) :
    ∀ (n i : Nat) (x : Int), i ≠ 0 → now < lin_start S (x + 86400) →
      (∃ m : Nat, m < n ∧ lin_enabled byday (x + 86400 * ((m : Int) + 1)) = true) →
      ∃ m : Nat, m < n ∧ lin_enabled byday (x + 86400 * ((m : Int) + 1)) = true ∧
        (∀ j : Nat, j < m → ¬ lin_enabled byday (x + 86400 * ((j : Int) + 1)) = true) ∧
        day_while_lin byday freq interval cnt S E now n i x
          = some (ICALEVENT_START, lin_start S (x + 86400 * ((m : Int) + 1))) := by
  intro n
  induction n with
  | zero =>
    intro i x _ _ h
    obtain ⟨m, hm, _⟩ := h
    omega
  | succ n ih =>
    intro i x hi hnow hex
    have hc : cand i x = x + 86400 := by unfold cand; rw [if_neg hi]
    by_cases h0 : lin_enabled byday (x + 86400) = true
    · refine ⟨0, by omega, by simpa using h0, fun j hj => by omega, ?_⟩
      rw [lin_before _ _ _ _ _ _ _ _ _ _ (by rw [hc]; exact h0) (by rw [hc]; exact hnow), hc]
      simp
    · rw [lin_skip _ _ _ _ _ _ _ _ _ _ (by rw [hc]; exact h0), hc]
      have hnow2 : now < lin_start S (x + 86400 + 86400) := by
        unfold lin_start at hnow ⊢; omega
      have hex2 : ∃ m : Nat, m < n ∧
          lin_enabled byday (x + 86400 + 86400 * ((m : Int) + 1)) = true := by
        obtain ⟨m, hm, hen⟩ := hex
        cases m with
        | zero => exact absurd (by simpa using hen) h0
        | succ m =>
          refine ⟨m, by omega, ?_⟩
          have e : x + 86400 + 86400 * ((m : Int) + 1)
              = x + 86400 * (((m + 1 : Nat) : Int) + 1) := by push_cast; ring
          rw [e]; exact hen
      obtain ⟨m, hm, hen, hfirst, hres⟩ := ih (i + 1) (x + 86400) (by omega) hnow2 hex2
      have e : x + 86400 + 86400 * ((m : Int) + 1)
          = x + 86400 * (((m + 1 : Nat) : Int) + 1) := by push_cast; ring
      refine ⟨m + 1, by omega, by rw [← e]; exact hen, ?_, by rw [hres, e]⟩
      intro j hj
      cases j with
      | zero => simpa using h0
      | succ j =>
        have e2 : x + 86400 + 86400 * ((j : Int) + 1)
            = x + 86400 * (((j + 1 : Nat) : Int) + 1) := by push_cast; ring
        rw [← e2]
        exact hfirst j (by omega)

/-- From the second pass on, when the value of `e_next_event` lies on the date of the current
time, the day loop returns the start of the first date after it with an enabled weekday. -/
theorem lin_forward_day (byday freq interval cnt : Nat) (S E now : Int)
    (h0 : byday ≠ 0) (h1 : byday ≤ 0x7F) (hS : 0 ≤ S ∧ S < 86400)
    (n i : Nat) (x : Int) (hn : 7 ≤ n) (hi : i ≠ 0) (hx : x / 86400 = now / 86400) :
    ∃ D : Int, now / 86400 < D ∧ lin_enabled byday (D * 86400) = true ∧
      (∀ D' : Int, now / 86400 < D' → lin_enabled byday (D' * 86400) = true → D ≤ D') ∧
      day_while_lin byday freq interval cnt S E now n i x
        = some (ICALEVENT_START, lin_start S (D * 86400)) := by
  have hnow : now < lin_start S (x + 86400) := by unfold lin_start; omega
  obtain ⟨m0, hm0, hen0⟩ := lin_enabled_week byday h0 h1 x
  obtain ⟨m, hm, hen, hfirst, hres⟩ := lin_forward byday freq interval cnt S E now n i x hi hnow
    ⟨m0, by omega, hen0⟩
  have hq : ∀ j : Nat, (x + 86400 * ((j : Int) + 1)) / 86400
      = (now / 86400 + j + 1) * 86400 / 86400 := by intro j; omega
  refine ⟨now / 86400 + m + 1, by omega, ?_, ?_, ?_⟩
  · rw [← lin_enabled_congr byday _ _ (hq m)]; exact hen
  · intro D' hD' hen'
    by_contra hlt
    have hj : D' = now / 86400 + ((D' - now / 86400 - 1).toNat : Int) + 1 := by omega
    apply hfirst (D' - now / 86400 - 1).toNat (by omega)
    rw [lin_enabled_congr byday _ _ (hq _), ← hj]
    exact hen'
  · rw [hres, lin_start_congr S _ _ (hq m)]

/-- When the current time lies in no day-local window of a date with an enabled weekday, the
day loop returns the earliest day-local start after the current time over these dates. -/
theorem lin_gap (byday freq interval cnt : Nat) (S E now : Int)
    (h0 : byday ≠ 0) (h1 : byday ≤ 0x7F) (hS : 0 ≤ S ∧ S < 86400)
    (hnot : ∀ D : Int, lin_enabled byday (D * 86400) = true →
      ¬ (lin_start S (D * 86400) ≤ now ∧ now < lin_end S E (D * 86400))) :
    ∃ D : Int, lin_enabled byday (D * 86400) = true ∧ now < lin_start S (D * 86400) ∧
      (∀ D' : Int, lin_enabled byday (D' * 86400) = true → now < lin_start S (D' * 86400) →
        D ≤ D') ∧
      day_while_lin byday freq interval cnt S E now 10 0 now
        = some (ICALEVENT_START, lin_start S (D * 86400)) := by
  have hc0 : cand 0 now = now - 86400 := rfl
  have hc1 : cand 1 (now - 86400) = now := by unfold cand; simp
  have hq0 : (now - 86400) / 86400 = (now / 86400 - 1) * 86400 / 86400 := by omega
  have hq1 : now / 86400 = now / 86400 * 86400 / 86400 := by omega
  have hpass0 : day_while_lin byday freq interval cnt S E now 10 0 now
      = day_while_lin byday freq interval cnt S E now 9 1 (now - 86400) := by
    by_cases h : lin_enabled byday (cand 0 now) = true
    · rw [lin_after _ _ _ _ _ _ _ _ _ _ _ _, hc0]
      · rw [hc0]; unfold lin_start; omega
      · rw [hc0] at h ⊢
        have hs : lin_start S ((now / 86400 - 1) * 86400) ≤ now := by unfold lin_start; omega
        have := hnot (now / 86400 - 1) (by rw [← lin_enabled_congr byday _ _ hq0]; exact h)
        rw [lin_end_congr S E _ _ hq0]
        exact fun hh => this ⟨hs, hh⟩
    · rw [lin_skip _ _ _ _ _ _ _ _ _ _ h, hc0]
  rw [hpass0]
  have hlater : ∀ D' : Int, now < lin_start S (D' * 86400) → now / 86400 ≤ D' := by
    intro D' h; unfold lin_start at h; omega
  by_cases hen : lin_enabled byday (cand 1 (now - 86400)) = true
  · by_cases hb : now < lin_start S (cand 1 (now - 86400))
    · rw [lin_before _ _ _ _ _ _ _ _ _ _ hen hb]
      rw [hc1] at hen hb
      refine ⟨now / 86400, by rw [← lin_enabled_congr byday _ _ hq1]; exact hen,
        by rw [← lin_start_congr S _ _ hq1]; exact hb, fun D' _ h => hlater D' h,
        by rw [hc1, lin_start_congr S _ _ hq1]⟩
    · have ha : ¬ now < lin_end S E (cand 1 (now - 86400)) := by
        rw [hc1] at hen hb ⊢
        have := hnot (now / 86400) (by rw [← lin_enabled_congr byday _ _ hq1]; exact hen)
        rw [lin_end_congr S E _ _ hq1]
        rw [lin_start_congr S _ _ hq1] at hb
        exact fun hh => this ⟨by omega, hh⟩
      rw [lin_after _ _ _ _ _ _ _ _ _ _ hb ha, hc1]
      obtain ⟨D, hD, hDen, hmin, hres⟩ := lin_forward_day byday freq interval cnt S E now h0 h1
        hS 8 2 now (by omega) (by omega) rfl
      refine ⟨D, hDen, by unfold lin_start; omega, ?_, hres⟩
      intro D' hen' hlt'
      rcases lt_or_eq_of_le (hlater D' hlt') with h | h
      · exact hmin D' h hen'
      · rw [hc1, lin_start_congr S _ _ hq1, h] at hb
        exact absurd hlt' hb
  · rw [lin_skip _ _ _ _ _ _ _ _ _ _ hen, hc1]
    obtain ⟨D, hD, hDen, hmin, hres⟩ := lin_forward_day byday freq interval cnt S E now h0 h1
      hS 8 2 now (by omega) (by omega) rfl
    refine ⟨D, hDen, by unfold lin_start; omega, ?_, hres⟩
    intro D' hen' hlt'
    rcases lt_or_eq_of_le (hlater D' hlt') with h | h
    · exact hmin D' h hen'
    · rw [hc1, lin_enabled_congr byday _ _ hq1, h] at hen
      exact absurd hen' hen

/-- When the current time lies in the day-local window of its own date and the stepping loop
lands after the day-local end but on the same date, the day loop returns the start of the
first date after it with an enabled weekday. -/
theorem lin_overshoot (byday freq interval cnt : Nat) (S E now : Int)
    (h0 : byday ≠ 0) (h1 : byday ≤ 0x7F) (hS : 0 ≤ S ∧ S < 86400) (hE : 0 ≤ E ∧ E < 86400)
    (T : Int) (c : Nat)
    (hen : lin_enabled byday now = true) (hs : lin_start S now ≤ now)
    (he : now < lin_end S E now)
    (hstep : step_while freq interval (lin_end S E now) now ((now - lin_start S now).toNat + 1)
      (lin_start S now) 0 = some (T, c))
    (hT : lin_end S E now < T) (hday : T / 86400 = now / 86400) :
    ∃ D : Int, now / 86400 < D ∧ lin_enabled byday (D * 86400) = true ∧
      (∀ D' : Int, now / 86400 < D' → lin_enabled byday (D' * 86400) = true → D ≤ D') ∧
      day_while_lin byday freq interval cnt S E now 10 0 now
        = some (ICALEVENT_START, lin_start S (D * 86400)) := by
  have hc0 : cand 0 now = now - 86400 := rfl
  have hc1 : cand 1 (now - 86400) = now := by unfold cand; simp
  have hpass0 : day_while_lin byday freq interval cnt S E now 10 0 now
      = day_while_lin byday freq interval cnt S E now 9 1 (now - 86400) := by
    by_cases h : lin_enabled byday (cand 0 now) = true
    · rw [lin_after _ _ _ _ _ _ _ _ _ _ _ _, hc0]
      · rw [hc0]; unfold lin_start; omega
      · have := lin_end_le S E (cand 0 now) hS hE
        rw [hc0] at this ⊢
        unfold lin_start at hs this; omega
    · rw [lin_skip _ _ _ _ _ _ _ _ _ _ h, hc0]
  rw [hpass0]
  rw [lin_inside byday freq interval cnt S E now 8 1 (now - 86400) T c (by rw [hc1]; exact hen)
    (by rw [hc1]; omega) (by rw [hc1]; exact he) (by rw [hc1]; exact hstep)]
  rw [hc1, if_neg (by omega)]
  exact lin_forward_day byday freq interval cnt S E now h0 h1 hS 8 2 T (by omega) (by omega) hday

/-! ## The kind of the result of the entry point -/

/-- The kind of the result of `ical_find_next_event` does not depend on the content of
`*t_next_event` before the call, and it is never `ICALERROR_INVALID_RECURRENCE`. -/
theorem find_next_event_kind (ical : ICAL) (tc : Tm) :
    ∃ ev, ev ≠ ICALERROR_INVALID_RECURRENCE ∧
      ∀ tn, ∃ t, ical_find_next_event ical tc tn = some (ev, t) := by
  by_cases hv : Valid ical
  · by_cases hen : ical.enabled = true
    · by_cases h1 : (mktime tc).1 < window_start ical
      · refine ⟨ICALEVENT_START, by decide, fun tn => ⟨localtime (window_start ical), ?_⟩⟩
        rw [find_next_event_valid ical tc tn hv, if_pos hen, if_pos h1]
      · by_cases h2 : (mktime tc).1 < window_end ical
        · obtain ⟨ev, y, hy, hk⟩ := day_while_lin_total ical.byday ical.freq ical.interval
            ical.count (window_start ical % 86400) (window_end ical % 86400) (mktime tc).1
            (by have := hv.2.2.2.2; omega) hv.2.1 10 0 (mktime tc).1
          by_cases h : y > window_end ical
          · refine ⟨ICALEVENT_NONE, by decide, fun tn => ⟨localtime y, ?_⟩⟩
            rw [find_next_event_active ical tc tn hv hen (by omega) h2, hy]
            simp only [if_pos h]
          · refine ⟨ev, ?_, fun tn => ⟨localtime y, ?_⟩⟩
            · rcases hk with hk | hk | hk | hk <;> subst hk <;> decide
            · rw [find_next_event_active ical tc tn hv hen (by omega) h2, hy]
              simp only [if_neg h]
        · refine ⟨ICALEVENT_NONE, by decide, fun tn => ⟨tn, ?_⟩⟩
          rw [find_next_event_valid ical tc tn hv, if_pos hen, if_neg h1,
            if_neg (fun hh => h2 hh.2)]
    · refine ⟨ICALEVENT_NONE, by decide, fun tn => ⟨tn, ?_⟩⟩
      rw [find_next_event_valid ical tc tn hv, if_neg hen]
  · obtain ⟨ev, he, hk⟩ := find_next_event_not_valid ical tc ex_next hv
    refine ⟨ev, ?_, fun tn => ⟨tn, ?_⟩⟩
    · rcases hk with hk | hk | hk | hk <;> subst hk <;> decide
    · obtain ⟨ev1, he1, _⟩ := find_next_event_not_valid ical tc tn hv
      have hinv := find_next_event_invalid ical tc tn
      have hinv0 := find_next_event_invalid ical tc ex_next
      by_cases h1 : window_start ical > window_end ical
      · rw [hinv0.1 h1] at he
        rw [hinv.1 h1]
        simp only [Option.some.injEq, Prod.mk.injEq] at he ⊢
        exact ⟨he.1, trivial⟩
      · by_cases h2 : ical.interval = 0 ∨ (ical.interval > 24 ∧ ical.freq = HOURLY)
        · rw [hinv0.2.1 h1 h2] at he
          rw [hinv.2.1 h1 h2]
          simp only [Option.some.injEq, Prod.mk.injEq] at he ⊢
          exact ⟨he.1, trivial⟩
        · by_cases h3 : ical.byday = 0 ∨ ical.byday > 0x7F
          · rw [hinv0.2.2.1 h1 h2 h3] at he
            rw [hinv.2.2.1 h1 h2 h3]
            simp only [Option.some.injEq, Prod.mk.injEq] at he ⊢
            exact ⟨he.1, trivial⟩
          · by_cases h4 : ical.freq > 3
            · rw [hinv0.2.2.2 h1 h2 h3 h4] at he
              rw [hinv.2.2.2 h1 h2 h3 h4]
              simp only [Option.some.injEq, Prod.mk.injEq] at he ⊢
              exact ⟨he.1, trivial⟩
            · exact absurd ((valid_iff ical).2 ⟨h1, h2, h3, h4⟩) hv

/-- The number of passes of the stepping loop for a recurring frequency: the quotient of the
distance from the start to the current time by the step, and one more. -/
theorem step_while_bound (freq interval : Nat) (e now s : Int) (c : Nat)
    (hf : freq = SECONDLY ∨ freq = MINUTELY ∨ freq = HOURLY) (hi : interval ≠ 0)
    (hs : s ≤ now) :
    ∃ y c1, step_while freq interval e now
      (((now - s) / step_seconds freq interval).toNat + 1) s c = some (y, c1) ∧ now < y := by
  have hpos := step_seconds_pos freq interval hf hi
  have hq0 : 0 ≤ (now - s) / step_seconds freq interval := Int.ediv_nonneg (by omega) (by omega)
  have hdm := Int.ediv_add_emod (now - s) (step_seconds freq interval)
  have hm0 := Int.emod_nonneg (now - s) (ne_of_gt hpos)
  have hm1 := Int.emod_lt_of_pos (now - s) hpos
  have hk : ((((now - s) / step_seconds freq interval).toNat + 1 : Nat) : Int)
      = (now - s) / step_seconds freq interval + 1 := by
    push_cast; omega
  have hhi : now < s + ((((now - s) / step_seconds freq interval).toNat + 1 : Nat) : Int)
      * step_seconds freq interval := by
    rw [hk]; linarith
  refine ⟨_, _, step_while_recur freq interval e now hf _ _ s c (le_refl _) ?_ hhi, hhi⟩
  intro j hj
  have hj1 : (j : Int) ≤ (now - s) / step_seconds freq interval := by omega
  have := mul_le_mul_of_nonneg_right hj1 (le_of_lt hpos)
  linarith

/-! ## The event of a group along the loop over the schedules -/

/-- The loop of `_event_list_update` that meets the group of the schedule: the events of the
other groups stay, and the event of this group is replaced when the new time is earlier. -/
theorem foreach_find (s : SCHEDULE) (ev : ICALEVENT) (ne : Int) :
    ∀ (es es1 : List EVENT), event_list_update_foreach s ev ne es = some es1 →
      (∀ g, g ≠ s.group →
        es1.find? (fun e => g == e.group) = es.find? (fun e => g == e.group)) ∧
      ∃ e0, es.find? (fun e => s.group == e.group) = some e0 ∧
        es1.find? (fun e => s.group == e.group)
          = some (if ne < e0.epoch then
              { ical_event := ev, epoch := ne, id := s.id, group := s.group } else e0) := by
  intro es
  induction es with
  | nil => intro es1 h; simp [event_list_update_foreach] at h
  | cons e rest ih =>
    intro es1 h
    unfold event_list_update_foreach at h
    by_cases hg : s.group = e.group
    · rw [if_pos hg] at h
      by_cases hl : ne < e.epoch
      · rw [if_pos hl] at h
        simp only [Option.some.injEq] at h
        subst h
        refine ⟨?_, e, find_group_cons_pos _ _ _ hg, ?_⟩
        · intro g hne
          rw [find_group_cons_neg g _ rest (by simpa using hne),
            find_group_cons_neg g e rest (by rw [← hg]; exact hne)]
        · rw [if_pos hl]
          exact find_group_cons_pos s.group _ rest rfl
      · rw [if_neg hl] at h
        simp only [Option.some.injEq] at h
        subst h
        exact ⟨fun _ _ => rfl, e, find_group_cons_pos _ _ _ hg,
          by rw [if_neg hl, find_group_cons_pos _ _ _ hg]⟩
    · rw [if_neg hg] at h
      cases hr : event_list_update_foreach s ev ne rest with
      | none => rw [hr] at h; exact absurd h (by simp)
      | some rest1 =>
        rw [hr] at h
        simp only [Option.some.injEq] at h
        subst h
        obtain ⟨i1, e0, i2, i3⟩ := ih rest1 hr
        refine ⟨?_, e0, by rw [find_group_cons_neg _ _ _ hg]; exact i2,
          by rw [find_group_cons_neg _ _ _ hg]; exact i3⟩
        intro g hne
        by_cases hge : g = e.group
        · rw [find_group_cons_pos _ _ _ hge, find_group_cons_pos _ _ _ hge]
        · rw [find_group_cons_neg _ _ _ hge, find_group_cons_neg _ _ _ hge]
          exact i1 g hne

/-- The function `_event_list_update` seen through `scheduler_get_event_by_group`, when
`malloc` gives a block and the event queue has room: the events of the other groups stay; the
group of the schedule gets the event of the schedule when it had none, or when the new time
is earlier than that of its event. -/
theorem event_list_update_find (st : State) (s : SCHEDULE) (t : Tm) (ev : ICALEVENT)
    (blk : EVENT) (hc : st.event_count = st.event_head.length)
    (hlt : st.event_head.length < MAX_SCHEDULES) :
    (∀ g, g ≠ s.group →
      (_event_list_update st s t ev (some blk)).1.event_head.find? (fun e => g == e.group)
        = st.event_head.find? (fun e => g == e.group)) ∧
    (st.event_head.find? (fun e => s.group == e.group) = none →
      (_event_list_update st s t ev (some blk)).1.event_head.find?
        (fun e => s.group == e.group) = some (own_event s ev t)) ∧
    (∀ e0, st.event_head.find? (fun e => s.group == e.group) = some e0 →
      (_event_list_update st s t ev (some blk)).1.event_head.find?
        (fun e => s.group == e.group)
        = some (if (mktime t).1 < e0.epoch then own_event s ev t else e0)) := by
  unfold _event_list_update
  simp only
  cases hr : event_list_update_foreach s ev (mktime t).1 st.event_head with
  | some es1 =>
    simp only
    obtain ⟨i1, e0, i2, i3⟩ := foreach_find s ev _ _ _ hr
    refine ⟨i1, ?_, ?_⟩
    · intro hn; rw [hn] at i2; exact absurd i2 (by simp)
    · intro e1 he1
      rw [i2] at he1
      simp only [Option.some.injEq] at he1
      subst he1
      exact i3
  | none =>
    simp only
    have hnot := (foreach_none_iff s ev (mktime t).1 st.event_head).1 hr
    have h1 : ¬ st.event_count ≥ MAX_SCHEDULES := by omega
    have h2 : (st.event_count + 1) % 256 = st.event_count + 1 := by
      unfold MAX_SCHEDULES at hlt; omega
    have hfn : st.event_head.find? (fun e => s.group == e.group) = none := by
      rw [List.find?_eq_none]
      intro e he
      simp only [beq_iff_eq]
      exact fun hh => hnot e he hh.symm
    simp only [_event_add, if_neg h1, TAILQ_INSERT_TAIL, h2]
    refine ⟨?_, ?_, ?_⟩
    · intro g hne
      rw [List.find?_append]
      have : ([({ ical_event := ev, epoch := (mktime t).1, id := s.id, group := s.group }
          : EVENT)].find? fun e => g == e.group) = none := by
        have hb : (g == s.group) = false := by simpa using hne
        simp [List.find?, hb]
      rw [this]
      simp
    · intro _
      rw [List.find?_append, hfn]
      simp [List.find?, own_event]
    · intro e0 he0
      rw [hfn] at he0
      exact absurd he0 (by simp)

theorem winner_nil (now tn0 : Tm) (g : Nat) (o : Option EVENT) :
    group_winner now tn0 g [] o o :=
  Or.inl ⟨rfl, fun _ hs => absurd hs (List.not_mem_nil _)⟩

/-- A schedule that is not enabled or has another group does not take part. -/
theorem winner_skip (now tn0 : Tm) (g : Nat) (x : SCHEDULE) (rest : List SCHEDULE)
    (o o1 : Option EVENT) (hx : ¬ (x.group = g ∧ x.ical.enabled = true))
    (h : group_winner now tn0 g rest o o1) : group_winner now tn0 g (x :: rest) o o1 := by
  rcases h with ⟨h1, h2⟩ | ⟨pre, s, post, ev, t, hl, hg, hen, hf, ho, hb, hpre, hpost⟩
  · refine Or.inl ⟨h1, ?_⟩
    intro s hs hg hen
    rcases List.mem_cons.1 hs with hs | hs
    · subst hs; exact absurd ⟨hg, hen⟩ hx
    · exact h2 s hs hg hen
  · refine Or.inr ⟨x :: pre, s, post, ev, t, by rw [hl]; rfl, hg, hen, hf, ho, hb, ?_, hpost⟩
    intro s' hs' hg' hen'
    rcases List.mem_cons.1 hs' with hs' | hs'
    · subst hs'; exact absurd ⟨hg', hen'⟩ hx
    · exact hpre s' hs' hg' hen'

/-- An enabled schedule of the group takes the slot when the group has no event or a later
one, and leaves it otherwise. -/
theorem winner_take (now tn0 : Tm) (g : Nat) (x : SCHEDULE) (rest : List SCHEDULE)
    (o o1 : Option EVENT) (ev0 : ICALEVENT) (t0 : Tm) (hg : x.group = g)
    (hen : x.ical.enabled = true)
    (hf : ical_find_next_event x.ical now tn0 = some (ev0, t0))
    (h : group_winner now tn0 g rest
      (match o with
        | none => some (own_event x ev0 t0)
        | some e0 => some (if (mktime t0).1 < e0.epoch then own_event x ev0 t0 else e0)) o1) :
    group_winner now tn0 g (x :: rest) o o1 := by
  have hx : ∀ ev t, ical_find_next_event x.ical now tn0 = some (ev, t) → t = t0 := by
    intro ev t h1
    rw [hf] at h1
    simp only [Option.some.injEq, Prod.mk.injEq] at h1
    exact h1.2.symm
  have hown : (own_event x ev0 t0).epoch = (mktime t0).1 := rfl
  cases o with
  | none =>
    simp only at h
    rcases h with ⟨h1, h2⟩ | ⟨pre, s, post, ev, t, hl, hg1, hen1, hf1, ho, hb, hpre, hpost⟩
    · refine Or.inr ⟨[], x, rest, ev0, t0, rfl, hg, hen, hf, h1, fun e0 he0 => absurd he0 (by simp),
        fun s' hs' => absurd hs' (List.not_mem_nil _), ?_⟩
      intro s' hs' hg' hen' ev' t' hf'
      obtain ⟨e0, he0, hle⟩ := h2 s' hs' hg' hen'
      simp only [Option.some.injEq] at he0
      rw [← he0] at hle
      exact hle ev' t' hf'
    · refine Or.inr ⟨x :: pre, s, post, ev, t, by rw [hl]; rfl, hg1, hen1, hf1, ho,
        fun e0 he0 => absurd he0 (by simp), ?_, hpost⟩
      intro s' hs' hg' hen' ev' t' hf'
      rcases List.mem_cons.1 hs' with hs' | hs'
      · subst hs'
        rw [hx ev' t' hf']
        exact hb _ rfl
      · exact hpre s' hs' hg' hen' ev' t' hf'
  | some e0 =>
    simp only at h
    by_cases hlt : (mktime t0).1 < e0.epoch
    · rw [if_pos hlt] at h
      rcases h with ⟨h1, h2⟩ | ⟨pre, s, post, ev, t, hl, hg1, hen1, hf1, ho, hb, hpre, hpost⟩
      · refine Or.inr ⟨[], x, rest, ev0, t0, rfl, hg, hen, hf, h1, ?_,
          fun s' hs' => absurd hs' (List.not_mem_nil _), ?_⟩
        · intro e1 he1
          simp only [Option.some.injEq] at he1
          rw [← he1]; exact hlt
        · intro s' hs' hg' hen' ev' t' hf'
          obtain ⟨e1, he1, hle⟩ := h2 s' hs' hg' hen'
          simp only [Option.some.injEq] at he1
          rw [← he1] at hle
          exact hle ev' t' hf'
      · have hb0 := hb _ rfl
        rw [hown] at hb0
        refine Or.inr ⟨x :: pre, s, post, ev, t, by rw [hl]; rfl, hg1, hen1, hf1, ho, ?_, ?_,
          hpost⟩
        · intro e1 he1
          simp only [Option.some.injEq] at he1
          rw [← he1]; omega
        · intro s' hs' hg' hen' ev' t' hf'
          rcases List.mem_cons.1 hs' with hs' | hs'
          · subst hs'
            rw [hx ev' t' hf']
            exact hb0
          · exact hpre s' hs' hg' hen' ev' t' hf'
    · rw [if_neg hlt] at h
      rcases h with ⟨h1, h2⟩ | ⟨pre, s, post, ev, t, hl, hg1, hen1, hf1, ho, hb, hpre, hpost⟩
      · refine Or.inl ⟨h1, ?_⟩
        intro s' hs' hg' hen'
        rcases List.mem_cons.1 hs' with hs' | hs'
        · subst hs'
          refine ⟨e0, rfl, ?_⟩
          intro ev' t' hf'
          rw [hx ev' t' hf']
          omega
        · exact h2 s' hs' hg' hen'
      · have hb0 := hb _ rfl
        refine Or.inr ⟨x :: pre, s, post, ev, t, by rw [hl]; rfl, hg1, hen1, hf1, ho, hb, ?_,
          hpost⟩
        intro s' hs' hg' hen' ev' t' hf'
        rcases List.mem_cons.1 hs' with hs' | hs'
        · subst hs'
          rw [hx ev' t' hf']
          omega
        · exact hpre s' hs' hg' hen' ev' t' hf'

/-- One pass of the loop over the schedules keeps the event counter equal to the length of the
event queue, and adds at most one event. -/
theorem event_list_update_length (st : State) (s : SCHEDULE) (t : Tm) (ev : ICALEVENT)
    (blk : EVENT) (hc : st.event_count = st.event_head.length)
    (hlt : st.event_head.length < MAX_SCHEDULES) :
    (_event_list_update st s t ev (some blk)).1.event_count
      = (_event_list_update st s t ev (some blk)).1.event_head.length ∧
    (_event_list_update st s t ev (some blk)).1.event_head.length
      ≤ st.event_head.length + 1 := by
  obtain ⟨q1, q2, _, _⟩ := event_list_update_spec st s t ev blk hc hlt
  refine ⟨q1, ?_⟩
  have := congrArg List.length q2
  rw [List.length_map] at this
  rw [this]
  split <;> simp

/-- The event of the group `g` after the loop of `scheduler_update_events` over the schedules
that are left, when every call of `malloc` gives a block, the event queue has room, and every
enabled schedule of the group has a start, a recurrence or an end as its own event. -/
theorem update_foreach_winner (blocks : Nat → EVENT) (now tn0 : Tm) (g : Nat) :
    ∀ (l : List SCHEDULE) (j : Nat) (st : State) (t_temp cur : Tm),
      st.event_count = st.event_head.length →
      st.event_head.length + l.length ≤ MAX_SCHEDULES →
      mktime cur = mktime now →
      (∀ s ∈ l, s.group = g → s.ical.enabled = true → ∃ ev t,
        (ev = ICALEVENT_START ∨ ev = ICALEVENT_RECUR ∨ ev = ICALEVENT_END) ∧
        ical_find_next_event s.ical now tn0 = some (ev, t)) →
      ∃ l1 st1,
        update_events_foreach (fun i => some (blocks i)) l j st t_temp cur = some (l1, st1) ∧
        group_winner now tn0 g l (st.event_head.find? fun e => g == e.group)
          (st1.event_head.find? fun e => g == e.group) := by
  intro l
  induction l with
  | nil =>
    intro j st t_temp cur _ _ _ _
    exact ⟨[], st, rfl, winner_nil now tn0 g _⟩
  | cons x rest ih =>
    intro j st t_temp cur hc hlen hcur hall
    simp only [List.length_cons] at hlen
    have hall1 : ∀ s ∈ rest, s.group = g → s.ical.enabled = true → ∃ ev t,
        (ev = ICALEVENT_START ∨ ev = ICALEVENT_RECUR ∨ ev = ICALEVENT_END) ∧
        ical_find_next_event s.ical now tn0 = some (ev, t) :=
      fun s hs => hall s (List.mem_cons_of_mem _ hs)
    rw [update_events_foreach_cons]
    by_cases hen : x.ical.enabled = true
    · rw [if_pos hen]
      obtain ⟨ev, t1, hf⟩ := find_next_event_total x.ical cur t_temp
      rw [hf]
      simp only
      obtain ⟨q1, q2⟩ := event_list_update_length st
        { x with ical := ical_after_find x.ical } t1 ev (blocks j) hc (by omega)
      obtain ⟨f1, f2, f3⟩ := event_list_update_find st
        { x with ical := ical_after_find x.ical } t1 ev (blocks j) hc (by omega)
      simp only at f1 f2 f3
      generalize (_event_list_update st { x with ical := ical_after_find x.ical } t1 ev
        (some (blocks j))) = r at q1 q2 f1 f2 f3 ⊢
      have hown : own_event { x with ical := ical_after_find x.ical } ev t1
          = own_event x ev t1 := rfl
      rw [hown] at f2 f3
      obtain ⟨l1, st1, hrun, hw⟩ := ih (j + 1) r.1 r.2 (mktime cur).2 q1 (by omega)
        (by rw [mktime_idem]; exact hcur) hall1
      rw [hrun]
      refine ⟨_, st1, rfl, ?_⟩
      by_cases hg : x.group = g
      · obtain ⟨ev0, t0, hk, hf0⟩ := hall x (List.mem_cons_self _ _) hg hen
        have hf1 : ical_find_next_event x.ical cur t_temp = some (ev0, t0) := by
          rw [find_next_event_cur x.ical cur now t_temp hcur]
          exact find_next_event_indep x.ical now tn0 t_temp ev0 t0 hk hf0
        rw [hf] at hf1
        simp only [Option.some.injEq, Prod.mk.injEq] at hf1
        obtain ⟨h1, h2⟩ := hf1
        subst h1 h2
        subst hg
        apply winner_take now tn0 x.group x rest _ _ ev t1 rfl hen hf0
        cases ho : st.event_head.find? (fun e => x.group == e.group) with
        | none =>
          simp only
          rw [← f2 ho]
          exact hw
        | some e0 =>
          simp only
          rw [← f3 e0 ho]
          exact hw
      · apply winner_skip now tn0 g x rest _ _ (fun h => hg h.1)
        rw [← f1 g (fun h => hg h.symm)]
        exact hw
    · rw [if_neg hen]
      obtain ⟨l1, st1, hrun, hw⟩ := ih (j + 1) st t_temp cur hc (by omega) hcur hall1
      rw [hrun]
      exact ⟨_, st1, rfl, winner_skip now tn0 g x rest _ _ (fun h => hen h.2) hw⟩

/-- The kind and the id of the event of the group `g` along the loop of
`scheduler_update_events`, when every enabled schedule of the group that is left has the id
`i` and the kind `k` as the kind of its own event. -/
theorem update_foreach_kind (blocks : Nat → EVENT) (now : Tm) (g i : Nat) (k : ICALEVENT) :
    ∀ (l : List SCHEDULE) (j : Nat) (st : State) (t_temp cur : Tm),
      st.event_count = st.event_head.length →
      st.event_head.length + l.length ≤ MAX_SCHEDULES →
      mktime cur = mktime now →
      (∀ s ∈ l, s.group = g → s.ical.enabled = true →
        s.id = i ∧ ∀ tn, ∃ t, ical_find_next_event s.ical now tn = some (k, t)) →
      (∀ e, st.event_head.find? (fun e => g == e.group) = some e →
        e.id = i ∧ e.ical_event = k) →
      ∃ l1 st1,
        update_events_foreach (fun i => some (blocks i)) l j st t_temp cur = some (l1, st1) ∧
        ∀ e, st1.event_head.find? (fun e => g == e.group) = some e →
          e.id = i ∧ e.ical_event = k := by
  intro l
  induction l with
  | nil =>
    intro j st t_temp cur _ _ _ _ hinit
    exact ⟨[], st, rfl, hinit⟩
  | cons x rest ih =>
    intro j st t_temp cur hc hlen hcur hall hinit
    simp only [List.length_cons] at hlen
    have hall1 : ∀ s ∈ rest, s.group = g → s.ical.enabled = true →
        s.id = i ∧ ∀ tn, ∃ t, ical_find_next_event s.ical now tn = some (k, t) :=
      fun s hs => hall s (List.mem_cons_of_mem _ hs)
    rw [update_events_foreach_cons]
    by_cases hen : x.ical.enabled = true
    · rw [if_pos hen]
      obtain ⟨ev, t1, hf⟩ := find_next_event_total x.ical cur t_temp
      rw [hf]
      simp only
      obtain ⟨q1, q2⟩ := event_list_update_length st
        { x with ical := ical_after_find x.ical } t1 ev (blocks j) hc (by omega)
      obtain ⟨f1, f2, f3⟩ := event_list_update_find st
        { x with ical := ical_after_find x.ical } t1 ev (blocks j) hc (by omega)
      simp only at f1 f2 f3
      generalize (_event_list_update st { x with ical := ical_after_find x.ical } t1 ev
        (some (blocks j))) = r at q1 q2 f1 f2 f3 ⊢
      have hinit1 : ∀ e, r.1.event_head.find? (fun e => g == e.group) = some e →
          e.id = i ∧ e.ical_event = k := by
        intro e he
        by_cases hg : x.group = g
        · obtain ⟨hid, hkind⟩ := hall x (List.mem_cons_self _ _) hg hen
          obtain ⟨t2, hf2⟩ := hkind t_temp
          rw [← find_next_event_cur x.ical cur now t_temp hcur, hf] at hf2
          simp only [Option.some.injEq, Prod.mk.injEq] at hf2
          subst hg
          cases ho : st.event_head.find? (fun e => x.group == e.group) with
          | none =>
            rw [f2 ho] at he
            simp only [Option.some.injEq] at he
            subst he
            exact ⟨hid, hf2.1⟩
          | some e0 =>
            rw [f3 e0 ho] at he
            simp only [Option.some.injEq] at he
            subst he
            split
            · exact ⟨hid, hf2.1⟩
            · exact hinit e0 ho
        · rw [f1 g (fun h => hg h.symm)] at he
          exact hinit e he
      obtain ⟨l1, st1, hrun, hw⟩ := ih (j + 1) r.1 r.2 (mktime cur).2 q1 (by omega)
        (by rw [mktime_idem]; exact hcur) hall1 hinit1
      rw [hrun]
      exact ⟨_, st1, rfl, hw⟩
    · rw [if_neg hen]
      obtain ⟨l1, st1, hrun, hw⟩ := ih (j + 1) st t_temp cur hc (by omega) hcur hall1 hinit
      rw [hrun]
      exact ⟨_, st1, rfl, hw⟩

/-! ## Claims about the merge of the events of a group -/

/-- C21: after `scheduler_update_events` for the current time `t`, starting from any
reachable state (every call of `malloc` giving a block), for every group `g` that has an
enabled schedule and in which every enabled schedule has `ICALEVENT_START`,
`ICALEVENT_RECUR` or `ICALEVENT_END` as its own result at `t`: the call returns, and the
event that `scheduler_get_event_by_group` returns for `g` has the kind, the timestamp and
the id of an enabled schedule `s` of `g` whose timestamp is strictly before those of the
enabled schedules of `g` inserted before it and not after those of the ones inserted after
it; so `s` is the earliest inserted among the schedules with the earliest time. -/
theorem merge_picks_earliest_inserted (st : State) (now t_temp t_any : Tm)
    (blocks : Nat → EVENT) (g : Nat) (hr : Reachable st)
    (hex : ∃ s ∈ st.schedule_head, s.group = g ∧ s.ical.enabled = true)
    (hall : ∀ s ∈ st.schedule_head, s.group = g → s.ical.enabled = true → ∃ ev t,
      (ev = ICALEVENT_START ∨ ev = ICALEVENT_RECUR ∨ ev = ICALEVENT_END) ∧
      ical_find_next_event s.ical now t_any = some (ev, t)) :
    ∃ st1 pre s post ev t,
      scheduler_update_events st now t_temp (fun i => some (blocks i)) = some st1 ∧
      st.schedule_head = pre ++ s :: post ∧ s.group = g ∧ s.ical.enabled = true ∧
      ical_find_next_event s.ical now t_any = some (ev, t) ∧
      scheduler_get_event_by_group st1 g
        = some { ical_event := ev, epoch := (mktime t).1, id := s.id, group := g } ∧
      (∀ s' ∈ pre, s'.group = g → s'.ical.enabled = true → ∀ ev' t',
        ical_find_next_event s'.ical now t_any = some (ev', t') →
        (mktime t).1 < (mktime t').1) ∧
      (∀ s' ∈ post, s'.group = g → s'.ical.enabled = true → ∀ ev' t',
        ical_find_next_event s'.ical now t_any = some (ev', t') →
        (mktime t).1 ≤ (mktime t').1) := by
  have hinv := inv_reachable st hr
  unfold scheduler_update_events scheduler_get_event_by_group
  simp only [_event_list_clear, clear_while_nil]
  obtain ⟨l1, st1, hrun, hw⟩ := update_foreach_winner blocks now t_any g st.schedule_head 0
    { schedule_head := st.schedule_head, event_head := [], schedule_count := st.schedule_count,
      event_count := 0 } t_temp now rfl
    (by simp only [List.length_nil, Nat.zero_add]; exact le_trans hinv.1 hinv.2.1) rfl hall
  rw [hrun]
  rcases hw with ⟨_, h2⟩ | ⟨pre, s, post, ev, t, hl, hg, hen, hf, ho, _, hpre, hpost⟩
  · obtain ⟨s, hs, hg, hen⟩ := hex
    obtain ⟨e0, he0, _⟩ := h2 s hs hg hen
    exact absurd he0 (by simp)
  · refine ⟨_, pre, s, post, ev, t, rfl, hl, hg, hen, hf, ?_, hpre, hpost⟩
    simp only
    rw [ho, own_event, hg]

/-- Witness of C21: in the state `ex_state5` at 2016-10-24 08:14:00 the three enabled
schedules of the group 2, with the ids 1, 2 and 3 and the steps of ten, five and three
minutes, have their next recurrences at 08:20:00, 08:15:00 and 08:15:00; the event stored
for the group is that of the schedule with the id 2, the earlier inserted of the two with the
earliest time. -/
theorem merge_picks_earliest_inserted_witness :
    (∃ st1 pre s post ev t,
      scheduler_update_events ex_state5 (ical_set_time_struct 2016 10 24 8 14 0) ex_next
        (fun _ => some ex_event_block) = some st1 ∧
      ex_state5.schedule_head = pre ++ s :: post ∧ s.group = 2 ∧ s.ical.enabled = true ∧
      ical_find_next_event s.ical (ical_set_time_struct 2016 10 24 8 14 0) ex_next
        = some (ev, t) ∧
      scheduler_get_event_by_group st1 2
        = some { ical_event := ev, epoch := (mktime t).1, id := s.id, group := 2 } ∧
      (∀ s' ∈ pre, s'.group = 2 → s'.ical.enabled = true → ∀ ev' t',
        ical_find_next_event s'.ical (ical_set_time_struct 2016 10 24 8 14 0) ex_next
          = some (ev', t') →
        (mktime t).1 < (mktime t').1) ∧
      (∀ s' ∈ post, s'.group = 2 → s'.ical.enabled = true → ∀ ev' t',
        ical_find_next_event s'.ical (ical_set_time_struct 2016 10 24 8 14 0) ex_next
          = some (ev', t') →
        (mktime t).1 ≤ (mktime t').1)) ∧
    (scheduler_update_events ex_state5 (ical_set_time_struct 2016 10 24 8 14 0) ex_next
      (fun _ => some ex_event_block)).bind (fun st1 => scheduler_get_event_by_group st1 2)
      = some { ical_event := ICALEVENT_RECUR, epoch := 1477296900, id := 2, group := 2 } :=
  ⟨merge_picks_earliest_inserted ex_state5 (ical_set_time_struct 2016 10 24 8 14 0) ex_next
    ex_next (fun _ => ex_event_block) 2 ⟨ex_ops5, by decide⟩
    ⟨ex_schedule 1 2 { ex_ical with interval := 10 }, by decide, by decide, by decide⟩
    (fun s hs hg hen => by
      simp only [ex_state5, List.mem_cons, List.mem_singleton, List.not_mem_nil, or_false]
        at hs
      rcases hs with h | h | h | h | h <;> subst h
      · exact absurd hg (by decide)
      · exact ⟨ICALEVENT_RECUR, localtime 1477297200, Or.inr (Or.inl rfl), by decide⟩
      · exact ⟨ICALEVENT_RECUR, localtime 1477296900, Or.inr (Or.inl rfl), by decide⟩
      · exact ⟨ICALEVENT_RECUR, localtime 1477296900, Or.inr (Or.inl rfl), by decide⟩
      · exact absurd hen (by decide)),
    by decide⟩

/-- C27: starting from any reachable state (every call of `malloc` giving a block), when
exactly one stored schedule with `enabled = true` has the group `g` and its own result of
`ical_find_next_event` at the current time is `ICALEVENT_NONE` or an error kind, then
`scheduler_update_events` returns and `scheduler_get_event_by_group` returns for `g` an
event with this kind and the id of this schedule. -/
theorem none_and_errors_occupy_slot (st : State) (now t_temp t_any : Tm)
    (blocks : Nat → EVENT) (s : SCHEDULE) (ev : ICALEVENT) (t : Tm) (hr : Reachable st)
    (hs : s ∈ st.schedule_head) (hen : s.ical.enabled = true)
    (huniq : ∀ s' ∈ st.schedule_head, s'.group = s.group → s'.ical.enabled = true → s' = s)
    (hev : ev = ICALEVENT_NONE ∨ ev = ICALERROR_INVALID_FREQ ∨ ev = ICALERROR_INVALID_BYDAY ∨
      ev = ICALERROR_INVALID_INTERVAL ∨ ev = ICALERROR_INVALID_RECURRENCE ∨
      ev = ICALERROR_START_GREATER_THAN_END)
    (hres : ical_find_next_event s.ical now t_any = some (ev, t)) :
    ∃ st1 e,
      scheduler_update_events st now t_temp (fun i => some (blocks i)) = some st1 ∧
      scheduler_get_event_by_group st1 s.group = some e ∧
      e.ical_event = ev ∧ e.id = s.id ∧ e.group = s.group ∧
      e.ical_event ≠ ICALEVENT_START ∧ e.ical_event ≠ ICALEVENT_RECUR ∧
      e.ical_event ≠ ICALEVENT_END := by
  have hinv := inv_reachable st hr
  obtain ⟨st1, hrun, h1, _, _⟩ := update_events_spec st st.event_head st.event_count now t_temp
    blocks hinv
  have hrun0 : scheduler_update_events st now t_temp (fun i => some (blocks i)) = some st1 :=
    hrun
  obtain ⟨e, he⟩ : ∃ e, scheduler_get_event_by_group st1 s.group = some e := by
    unfold scheduler_get_event_by_group
    rw [find_group_iff, h1 s.group]
    exact ⟨s, hs, rfl, hen⟩
  have hkind : ∀ tn, ∃ t1, ical_find_next_event s.ical now tn = some (ev, t1) := by
    obtain ⟨k, _, hk⟩ := find_next_event_kind s.ical now
    obtain ⟨t0, h0⟩ := hk t_any
    rw [hres] at h0
    simp only [Option.some.injEq, Prod.mk.injEq] at h0
    rw [h0.1]
    exact hk
  have hfacts : e.id = s.id ∧ e.ical_event = ev := by
    have h := hrun0
    unfold scheduler_update_events at h
    simp only [_event_list_clear, clear_while_nil] at h
    obtain ⟨l1, st2, hrun2, hw⟩ := update_foreach_kind blocks now s.group s.id ev
      st.schedule_head 0
      { schedule_head := st.schedule_head, event_head := [],
        schedule_count := st.schedule_count, event_count := 0 } t_temp now rfl
      (by simp only [List.length_nil, Nat.zero_add]; exact le_trans hinv.1 hinv.2.1) rfl
      (fun s' hs' hg' hen' => by rw [huniq s' hs' hg' hen']; exact ⟨rfl, hkind⟩)
      (fun e0 he0 => absurd he0 (by simp))
    rw [hrun2] at h
    simp only [Option.some.injEq] at h
    subst h
    exact hw e he
  have hgroup : e.group = s.group := by
    unfold scheduler_get_event_by_group at he
    have := List.find?_some he
    simp only [beq_iff_eq] at this
    exact this.symm
  refine ⟨st1, e, hrun0, he, hfacts.2, hfacts.1, hgroup, ?_, ?_, ?_⟩ <;>
    rw [hfacts.2] <;> rcases hev with h | h | h | h | h | h <;> subst h <;> decide

/-- Witness of C27: in the state `ex_state5` the schedule with the id 0 is the one enabled
schedule of the group 0; at 2019-01-01 00:00:00, after the end of its window, its own result
is `ICALEVENT_NONE`, and the event stored for the group 0 has this kind and the id 0. -/
theorem none_and_errors_occupy_slot_witness :
    ∃ st1 e,
      scheduler_update_events ex_state5 (ical_set_time_struct 2019 1 1 0 0 0) ex_next
        (fun _ => some ex_event_block) = some st1 ∧
      scheduler_get_event_by_group st1 (ex_schedule 0 0 ex_ical).group = some e ∧
      e.ical_event = ICALEVENT_NONE ∧ e.id = (ex_schedule 0 0 ex_ical).id ∧
      e.group = (ex_schedule 0 0 ex_ical).group ∧
      e.ical_event ≠ ICALEVENT_START ∧ e.ical_event ≠ ICALEVENT_RECUR ∧
      e.ical_event ≠ ICALEVENT_END :=
  none_and_errors_occupy_slot ex_state5 (ical_set_time_struct 2019 1 1 0 0 0) ex_next ex_next
    (fun _ => ex_event_block) (ex_schedule 0 0 ex_ical) ICALEVENT_NONE ex_next
    ⟨ex_ops5, by decide⟩ (by decide) (by decide) (by decide) (Or.inl rfl) (by decide)

/-! ## Claims about the search over the following dates -/
/-- Counterexample to C22 as stated: the rule of the test suite with a step of seven minutes
at 2016-10-20 15:59:00, four days before its window starts.  The current time lies in the
day-local window of Thursday 2016-10-20 (day 17094), the first stepped time after it,
16:03:00, is after the day-local end, and the earliest day-local start after the current time
is that of 2016-10-21 (day 17095); yet the call returns `ICALEVENT_START` at `window_start`,
2016-10-24 08:00:00. -/
theorem overshoot_before_window_counterexample :
    Valid { ex_ical with interval := 7 } ∧ ({ ex_ical with interval := 7 } : ICAL).enabled = true ∧
    ({ ex_ical with interval := 7 } : ICAL).freq = MINUTELY ∧
    day_enabled { ex_ical with interval := 7 } 17094 ∧
    day_start { ex_ical with interval := 7 } 17094
      ≤ (mktime (ical_set_time_struct 2016 10 20 15 59 0)).1 ∧
    (mktime (ical_set_time_struct 2016 10 20 15 59 0)).1
      < day_end { ex_ical with interval := 7 } 17094 ∧
    first_step_after MINUTELY 7 (day_start { ex_ical with interval := 7 } 17094)
      (day_end { ex_ical with interval := 7 } 17094)
      (mktime (ical_set_time_struct 2016 10 20 15 59 0)).1 69 1476979380 ∧
    day_end { ex_ical with interval := 7 } 17094 < 1476979380 ∧
    day_enabled { ex_ical with interval := 7 } 17095 ∧
    day_start { ex_ical with interval := 7 } 17095 = 1477036800 ∧
    (mktime (ical_set_time_struct 2016 10 20 15 59 0)).1 < 1477036800 ∧
    (∀ D : Int, (mktime (ical_set_time_struct 2016 10 20 15 59 0)).1
      < day_start { ex_ical with interval := 7 } D →
      1477036800 ≤ day_start { ex_ical with interval := 7 } D) ∧
    1477036800 ≤ window_end { ex_ical with interval := 7 } ∧
    ical_find_next_event { ex_ical with interval := 7 }
      (ical_set_time_struct 2016 10 20 15 59 0) ex_next
      = some (ICALEVENT_START, localtime 1477296000) ∧
    ical_find_next_event { ex_ical with interval := 7 }
      (ical_set_time_struct 2016 10 20 15 59 0) ex_next
      ≠ some (ICALEVENT_START, localtime 1477036800) := by
  refine ⟨by decide, by decide, by decide, by decide, by decide, by decide, by decide,
    by decide, by decide, by decide, by decide, ?_, by decide, by decide, by decide⟩
  intro D h
  have e1 : window_start { ex_ical with interval := 7 } = 1477296000 := by decide
  have e3 : (mktime (ical_set_time_struct 2016 10 20 15 59 0)).1 = 1476979140 := by decide
  rw [day_start_eq, e1, e3] at h
  rw [day_start_eq, e1]
  omega

/-- The date that the day loop skips after a stepped time beyond midnight: the rule of the
test suite with a step of 24 hours at 2016-10-24 09:00:00.  The current time lies in the
window of the rule and in the day-local window of 2016-10-24 (day 17098); the first stepped
time after it is 2016-10-25 08:00:00, after the day-local end.  The loop adds one day to
this stepped time, so the next candidate date is 2016-10-26: the call returns
`ICALEVENT_START` at 2016-10-26 08:00:00 and not at 2016-10-25 08:00:00, the earliest
day-local start after the current time. -/
theorem overshoot_skips_a_date :
    Valid { ex_ical with freq := HOURLY, interval := 24 } ∧
    window_start { ex_ical with freq := HOURLY, interval := 24 }
      ≤ (mktime (ical_set_time_struct 2016 10 24 9 0 0)).1 ∧
    (mktime (ical_set_time_struct 2016 10 24 9 0 0)).1
      < window_end { ex_ical with freq := HOURLY, interval := 24 } ∧
    day_enabled { ex_ical with freq := HOURLY, interval := 24 } 17098 ∧
    day_start { ex_ical with freq := HOURLY, interval := 24 } 17098
      ≤ (mktime (ical_set_time_struct 2016 10 24 9 0 0)).1 ∧
    (mktime (ical_set_time_struct 2016 10 24 9 0 0)).1
      < day_end { ex_ical with freq := HOURLY, interval := 24 } 17098 ∧
    first_step_after HOURLY 24 (day_start { ex_ical with freq := HOURLY, interval := 24 } 17098)
      (day_end { ex_ical with freq := HOURLY, interval := 24 } 17098)
      (mktime (ical_set_time_struct 2016 10 24 9 0 0)).1 1 1477382400 ∧
    day_end { ex_ical with freq := HOURLY, interval := 24 } 17098 < 1477382400 ∧
    day_enabled { ex_ical with freq := HOURLY, interval := 24 } 17099 ∧
    day_start { ex_ical with freq := HOURLY, interval := 24 } 17099 = 1477382400 ∧
    (mktime (ical_set_time_struct 2016 10 24 9 0 0)).1 < 1477382400 ∧
    day_start { ex_ical with freq := HOURLY, interval := 24 } 17098
      ≤ (mktime (ical_set_time_struct 2016 10 24 9 0 0)).1 ∧
    ical_find_next_event { ex_ical with freq := HOURLY, interval := 24 }
      (ical_set_time_struct 2016 10 24 9 0 0) ex_next
      = some (ICALEVENT_START, localtime 1477468800) ∧
    localtime 1477468800 = (mktime (ical_set_time_struct 2016 10 26 8 0 0)).2 := by
  decide

/-- C22, amended: for every valid enabled rule with frequency `SECONDLY`, `MINUTELY` or
`HOURLY` and every current time at or after `window_start` that lies in the day-local window
`[s, e)` of a date `D` with an enabled weekday: when the first stepped time `T` after the
current time is after `e` and lies on the date `D` itself, there is a date `D1` with an
enabled weekday whose day-local start `S` is the earliest one after the current time over all
such dates; `ical_find_next_event` returns `ICALEVENT_START` at `S` when `S ≤ window_end`,
and `ICALEVENT_NONE` otherwise. -/
theorem overshoot_start_next_date (ical : ICAL) (t_now t_next : Tm) (D : Int) (k : Nat)
    (T : Int) (hv : Valid ical) (hen : ical.enabled = true)
    (hf : ical.freq = SECONDLY ∨ ical.freq = MINUTELY ∨ ical.freq = HOURLY)
    (h1 : window_start ical ≤ (mktime t_now).1)
    (hD : day_enabled ical D)
    (hs : day_start ical D ≤ (mktime t_now).1) (he : (mktime t_now).1 < day_end ical D)
    (hk : first_step_after ical.freq ical.interval (day_start ical D) (day_end ical D)
      (mktime t_now).1 k T)
    (hT : day_end ical D < T) (hday : T / ONE_DAY = D) :
    ∃ D1 : Int, day_enabled ical D1 ∧ (mktime t_now).1 < day_start ical D1 ∧
      (∀ D' : Int, day_enabled ical D' → (mktime t_now).1 < day_start ical D' →
        day_start ical D1 ≤ day_start ical D') ∧
      (day_start ical D1 ≤ window_end ical →
        ical_find_next_event ical t_now t_next
          = some (ICALEVENT_START, localtime (day_start ical D1))) ∧
      (window_end ical < day_start ical D1 →
        ∃ t, ical_find_next_event ical t_now t_next = some (ICALEVENT_NONE, t)) := by
  rw [ONE_DAY_eq] at hday
  have hb := hv.2.2.2.1
  have hl : ¬ ical.freq = LIMITS := by
    simp only [LIMITS, SECONDLY, MINUTELY, HOURLY] at hf ⊢; omega
  have hnowT : (mktime t_now).1 < T := by
    rcases hk with ⟨h0, _⟩ | ⟨_, _, _, _, h0⟩
    · exact absurd h0 hl
    · exact h0
  have hsD := day_start_eq ical D
  have hN : (mktime t_now).1 / 86400 = D := by omega
  have hq : (mktime t_now).1 / 86400 = D * 86400 / 86400 := by omega
  have hmin : ∀ D1 : Int, (mktime t_now).1 / 86400 < D1 →
      (∀ D' : Int, (mktime t_now).1 / 86400 < D' → lin_enabled ical.byday (D' * 86400) = true →
        D1 ≤ D') →
      (mktime t_now).1 < day_start ical D1 ∧
      ∀ D' : Int, day_enabled ical D' → (mktime t_now).1 < day_start ical D' →
        day_start ical D1 ≤ day_start ical D' := by
    intro D1 hD1 hm
    refine ⟨by rw [day_start_eq]; omega, ?_⟩
    intro D' hD' hlt'
    rw [day_start_eq] at hlt'
    have := hm D' (by omega) ((day_enabled_lin ical D').1 hD')
    rw [day_start_eq, day_start_eq]
    omega
  by_cases h2 : (mktime t_now).1 < window_end ical
  · have hstep := step_while_first _ _ _ _ _ _ _ hk hs he
    rw [day_start_lin, day_end_lin, ← lin_start_congr _ _ _ hq, ← lin_end_congr _ _ _ _ hq]
      at hstep
    obtain ⟨D1, hD1, hD1en, hm, hres⟩ := lin_overshoot ical.byday ical.freq ical.interval
      ical.count (window_start ical % 86400) (window_end ical % 86400) (mktime t_now).1
      (fun h => hb (Or.inl h)) (by omega) (by omega) (by omega) T (k % 256)
      (by rw [lin_enabled_congr _ _ _ hq]; exact (day_enabled_lin ical D).1 hD)
      (by rw [lin_start_congr _ _ _ hq, ← day_start_lin]; exact hs)
      (by rw [lin_end_congr _ _ _ _ hq, ← day_end_lin]; exact he) hstep
      (by rw [lin_end_congr _ _ _ _ hq, ← day_end_lin]; exact hT) (by omega)
    rw [← day_start_lin] at hres
    have hcall := find_next_event_active ical t_now t_next hv hen h1 h2
    rw [hres] at hcall
    simp only at hcall
    refine ⟨D1, (day_enabled_lin ical D1).2 hD1en, (hmin D1 hD1 hm).1, (hmin D1 hD1 hm).2,
      ?_, ?_⟩
    · intro hle
      rw [hcall, if_neg (not_lt.2 hle)]
    · intro hgt
      exact ⟨_, by rw [hcall, if_pos hgt]⟩
  · obtain ⟨D1, hD1, hD1en, hm, _⟩ := lin_forward_day ical.byday ical.freq ical.interval
      ical.count (window_start ical % 86400) (window_end ical % 86400) (mktime t_now).1
      (fun h => hb (Or.inl h)) (by omega) (by omega) 7 1 (mktime t_now).1 (by omega)
      (by omega) rfl
    refine ⟨D1, (day_enabled_lin ical D1).2 hD1en, (hmin D1 hD1 hm).1, (hmin D1 hD1 hm).2,
      ?_, ?_⟩
    · intro hle
      have := (hmin D1 hD1 hm).1
      omega
    · intro _
      refine ⟨t_next, ?_⟩
      rw [find_next_event_valid ical t_now t_next hv, if_pos hen, if_neg (by omega),
        if_neg (by omega)]

/-- Witness of C22, amended: the rule of the test suite with a step of one hour and the end
of the day-local window at 16:30:00, at 2016-10-24 16:10:00; the stepped time 17:00:00 is
after the day-local end, on the same date. -/
theorem overshoot_start_next_date_witness :
    ∃ D1 : Int, day_enabled ex_ical_hourly D1 ∧
      (mktime (ical_set_time_struct 2016 10 24 16 10 0)).1 < day_start ex_ical_hourly D1 ∧
      (∀ D' : Int, day_enabled ex_ical_hourly D' →
        (mktime (ical_set_time_struct 2016 10 24 16 10 0)).1 < day_start ex_ical_hourly D' →
        day_start ex_ical_hourly D1 ≤ day_start ex_ical_hourly D') ∧
      (day_start ex_ical_hourly D1 ≤ window_end ex_ical_hourly →
        ical_find_next_event ex_ical_hourly (ical_set_time_struct 2016 10 24 16 10 0) ex_next
          = some (ICALEVENT_START, localtime (day_start ex_ical_hourly D1))) ∧
      (window_end ex_ical_hourly < day_start ex_ical_hourly D1 →
        ∃ t, ical_find_next_event ex_ical_hourly (ical_set_time_struct 2016 10 24 16 10 0)
          ex_next = some (ICALEVENT_NONE, t)) :=
  overshoot_start_next_date ex_ical_hourly (ical_set_time_struct 2016 10 24 16 10 0) ex_next
    17098 9 1477328400 (by decide) (by decide) (by decide) (by decide) (by decide) (by decide)
    (by decide) (by decide) (by decide) (by decide)

/-- C23: for every valid enabled rule and every current time in `[window_start, window_end)`
that lies in the day-local window of no date with an enabled weekday, there is a date `D` with
an enabled weekday whose day-local start `S` is the earliest one after the current time over
all such dates; `ical_find_next_event` returns `ICALEVENT_START` at `S` when
`S ≤ window_end`, and `ICALEVENT_NONE` otherwise. -/
theorem start_outside_day_windows (ical : ICAL) (t_now t_next : Tm)
    (hv : Valid ical) (hen : ical.enabled = true)
    (h1 : window_start ical ≤ (mktime t_now).1) (h2 : (mktime t_now).1 < window_end ical)
    (hnot : ∀ D : Int, day_enabled ical D →
      ¬ (day_start ical D ≤ (mktime t_now).1 ∧ (mktime t_now).1 < day_end ical D)) :
    ∃ D : Int, day_enabled ical D ∧ (mktime t_now).1 < day_start ical D ∧
      (∀ D' : Int, day_enabled ical D' → (mktime t_now).1 < day_start ical D' →
        day_start ical D ≤ day_start ical D') ∧
      (day_start ical D ≤ window_end ical →
        ical_find_next_event ical t_now t_next
          = some (ICALEVENT_START, localtime (day_start ical D))) ∧
      (window_end ical < day_start ical D →
        ical_find_next_event ical t_now t_next
          = some (ICALEVENT_NONE, localtime (day_start ical D))) := by
  have hb := hv.2.2.2.1
  obtain ⟨D, hD, hlt, hmin, hres⟩ := lin_gap ical.byday ical.freq ical.interval ical.count
    (window_start ical % 86400) (window_end ical % 86400) (mktime t_now).1
    (fun h => hb (Or.inl h)) (by omega) (by omega)
    (fun D hD => by
      rw [← day_start_lin, ← day_end_lin]
      exact hnot D ((day_enabled_lin ical D).2 hD))
  rw [← day_start_lin] at hlt hres
  refine ⟨D, (day_enabled_lin ical D).2 hD, hlt, ?_, ?_, ?_⟩
  · intro D' hD' hlt'
    have := hmin D' ((day_enabled_lin ical D').1 hD') (by rw [← day_start_lin]; exact hlt')
    rw [day_start_eq, day_start_eq]
    omega
  · intro hle
    rw [find_next_event_active ical t_now t_next hv hen h1 h2, hres]
    simp only [if_neg (not_lt.2 hle)]
  · intro hgt
    rw [find_next_event_active ical t_now t_next hv hen h1 h2, hres]
    simp only [gt_iff_lt, if_pos hgt]

/-- Witness of C23: the rule of the test suite at 2016-10-24 17:00:00, after the end of the
day-local window of this date; the day-local windows are `[08:00:00, 16:00:00)`. -/
theorem start_outside_day_windows_witness :
    ∃ D : Int, day_enabled ex_ical D ∧
      (mktime (ical_set_time_struct 2016 10 24 17 0 0)).1 < day_start ex_ical D ∧
      (∀ D' : Int, day_enabled ex_ical D' →
        (mktime (ical_set_time_struct 2016 10 24 17 0 0)).1 < day_start ex_ical D' →
        day_start ex_ical D ≤ day_start ex_ical D') ∧
      (day_start ex_ical D ≤ window_end ex_ical →
        ical_find_next_event ex_ical (ical_set_time_struct 2016 10 24 17 0 0) ex_next
          = some (ICALEVENT_START, localtime (day_start ex_ical D))) ∧
      (window_end ex_ical < day_start ex_ical D →
        ical_find_next_event ex_ical (ical_set_time_struct 2016 10 24 17 0 0) ex_next
          = some (ICALEVENT_NONE, localtime (day_start ex_ical D))) :=
  start_outside_day_windows ex_ical (ical_set_time_struct 2016 10 24 17 0 0) ex_next
    (by decide) (by decide) (by decide) (by decide)
    (fun D _ h => by
      have e1 : window_start ex_ical = 1477296000 := by decide
      have e2 : window_end ex_ical = 1540396800 := by decide
      have e3 : (mktime (ical_set_time_struct 2016 10 24 17 0 0)).1 = 1477328400 := by decide
      rw [day_start_eq, day_end_eq, e1, e2, e3] at h
      simp only [Int.reduceMod, gt_iff_lt, Int.reduceLT, if_false] at h
      omega)

/-- C25: for every valid enabled rule whose `window_start` and `window_end` have the same
time of day, and every current time in `[window_start, window_end)`: `ical_find_next_event`
never returns `ICALEVENT_RECUR` or `ICALEVENT_END`; there is a date `D` with an enabled
weekday whose day-local start `S` is the earliest one after the current time over all such
dates, and the call returns `ICALEVENT_START` at `S` when `S ≤ window_end` and
`ICALEVENT_NONE` otherwise. -/
theorem equal_time_of_day_only_start (ical : ICAL) (t_now t_next : Tm)
    (hv : Valid ical) (hen : ical.enabled = true)
    (h1 : window_start ical ≤ (mktime t_now).1) (h2 : (mktime t_now).1 < window_end ical)
    (heq : window_start ical % ONE_DAY = window_end ical % ONE_DAY) :
    (∀ t, ical_find_next_event ical t_now t_next ≠ some (ICALEVENT_RECUR, t)) ∧
    (∀ t, ical_find_next_event ical t_now t_next ≠ some (ICALEVENT_END, t)) ∧
    ∃ D : Int, day_enabled ical D ∧ (mktime t_now).1 < day_start ical D ∧
      (∀ D' : Int, day_enabled ical D' → (mktime t_now).1 < day_start ical D' →
        day_start ical D ≤ day_start ical D') ∧
      (day_start ical D ≤ window_end ical →
        ical_find_next_event ical t_now t_next
          = some (ICALEVENT_START, localtime (day_start ical D))) ∧
      (window_end ical < day_start ical D →
        ical_find_next_event ical t_now t_next
          = some (ICALEVENT_NONE, localtime (day_start ical D))) := by
  rw [ONE_DAY_eq] at heq
  have hb := hv.2.2.2.1
  obtain ⟨D, hD, hlt, hmin, hres⟩ := lin_gap ical.byday ical.freq ical.interval ical.count
    (window_start ical % 86400) (window_end ical % 86400) (mktime t_now).1
    (fun h => hb (Or.inl h)) (by omega) (by omega)
    (fun D _ => by
      unfold lin_start lin_end
      rw [heq, if_neg (lt_irrefl _)]
      omega)
  rw [← day_start_lin] at hlt hres
  have hcall := find_next_event_active ical t_now t_next hv hen h1 h2
  rw [hres] at hcall
  simp only at hcall
  refine ⟨?_, ?_, D, (day_enabled_lin ical D).2 hD, hlt, ?_, ?_, ?_⟩
  · intro t
    rw [hcall]
    split_ifs <;> simp
  · intro t
    rw [hcall]
    split_ifs <;> simp
  · intro D' hD' hlt'
    have := hmin D' ((day_enabled_lin ical D').1 hD') (by rw [← day_start_lin]; exact hlt')
    rw [day_start_eq, day_start_eq]
    omega
  · intro hle
    rw [hcall, if_neg (not_lt.2 hle)]
  · intro hgt
    rw [hcall, if_pos hgt]

/-- Witness of C25: the rule of the test suite with the end of the window at 08:00:00, at
2016-10-24 08:57:00; the call returns the start of the next day, 2016-10-25 08:00:00. -/
theorem equal_time_of_day_only_start_witness :
    (∀ t, ical_find_next_event ex_ical_equal (ical_set_time_struct 2016 10 24 8 57 0) ex_next
      ≠ some (ICALEVENT_RECUR, t)) ∧
    ical_find_next_event ex_ical_equal (ical_set_time_struct 2016 10 24 8 57 0) ex_next
      = some (ICALEVENT_START, localtime 1477382400) :=
  ⟨(equal_time_of_day_only_start ex_ical_equal (ical_set_time_struct 2016 10 24 8 57 0) ex_next
      (by decide) (by decide) (by decide) (by decide) (by decide)).1, by decide⟩

/-! ## Claims about the day-local window and the termination -/

/-- Counterexample to C24 as stated: the rule of the test suite with the end of the window at
08:00:00, the time of day of its start.  For the candidate date 2016-10-24 (day 17098) the
time of day of the end re-anchored to the date equals the day-local start, the end is not
advanced by one day, and the day-local end is the day-local start, not after it. -/
theorem equal_time_of_day_counterexample :
    window_end ex_ical_equal % ONE_DAY = window_start ex_ical_equal % ONE_DAY ∧
    17098 * ONE_DAY + window_end ex_ical_equal % ONE_DAY = day_start ex_ical_equal 17098 ∧
    day_end ex_ical_equal 17098 = day_start ex_ical_equal 17098 ∧
    day_end ex_ical_equal 17098 ≠ 17098 * ONE_DAY + window_end ex_ical_equal % ONE_DAY + ONE_DAY ∧
    ¬ day_start ex_ical_equal 17098 < day_end ex_ical_equal 17098 := by
  decide

/-- C24, amended: for every candidate date `D`, the day-local end used by the interior search
is at or after the day-local start and less than 24 hours after it.  When the time of day of
`window_end` re-anchored to the date is strictly before the day-local start, the end is
advanced by one day; otherwise it is not advanced.  The day-local end equals the day-local
start, and the day-local window is empty, exactly when `window_start` and `window_end` have
the same time of day. -/
theorem day_window_bounds (ical : ICAL) (D : Int) :
    day_start ical D = D * ONE_DAY + window_start ical % ONE_DAY ∧
    day_start ical D ≤ day_end ical D ∧ day_end ical D < day_start ical D + ONE_DAY ∧
    (D * ONE_DAY + window_end ical % ONE_DAY < day_start ical D →
      day_end ical D = D * ONE_DAY + window_end ical % ONE_DAY + ONE_DAY) ∧
    (day_start ical D ≤ D * ONE_DAY + window_end ical % ONE_DAY →
      day_end ical D = D * ONE_DAY + window_end ical % ONE_DAY) ∧
    (day_end ical D = day_start ical D ↔
      window_start ical % ONE_DAY = window_end ical % ONE_DAY) := by
  rw [day_start_eq, day_end_eq, ONE_DAY_eq]
  split_ifs with h <;> refine ⟨rfl, ?_, ?_, ?_, ?_, ?_⟩ <;> omega

/-- C29: for every rule that passes the validation and every current time,
`ical_find_next_event` returns: the ten passes of the day loop and the fuel of the stepping
loop are enough.  Each pass of the stepping loop that starts at a stepped time `x ≤ now`
continues with a stepped time after `x`; and started at `s ≤ now` with the day-local end
after `now`, the stepping loop stops within `⌊(now - s) / step⌋ + 1` passes (one pass for the
frequency `LIMITS`, whose step goes to the day-local end). -/
theorem find_next_event_terminates (ical : ICAL) (t_now t_next : Tm) (hv : Valid ical) :
    (∃ ev t, ical_find_next_event ical t_now t_next = some (ev, t)) ∧
    (∀ (e now x : Int) (c fuel : Nat), x ≤ now → now < e →
      ∃ x1, x < x1 ∧
        step_while ical.freq ical.interval e now (fuel + 1) x c
          = step_while ical.freq ical.interval e now fuel x1 ((c + 1) % 256)) ∧
    (∀ (s e now : Int) (c : Nat), s ≤ now → now < e →
      ∃ y c1, step_while ical.freq ical.interval e now
        (((now - s) / step_seconds ical.freq ical.interval).toNat + 1) s c = some (y, c1) ∧
        now < y) := by
  have hi : ical.interval ≠ 0 := hv.2.1
  have hf : ical.freq = LIMITS ∨ ical.freq = SECONDLY ∨ ical.freq = MINUTELY ∨
      ical.freq = HOURLY := by
    have := hv.2.2.2.2
    simp only [LIMITS, SECONDLY, MINUTELY, HOURLY]
    omega
  refine ⟨find_next_event_total ical t_now t_next, ?_, ?_⟩
  · intro e now x c fuel hx he
    rcases hf with h | h
    · refine ⟨e, by omega, ?_⟩
      rw [step_while_succ, if_pos hx, h]
      rfl
    · exact ⟨x + step_seconds ical.freq ical.interval,
        by have := step_seconds_pos ical.freq ical.interval h hi; omega,
        step_while_succ_recur _ _ _ _ _ _ _ h hx⟩
  · intro s e now c hs he
    rcases hf with h | h
    · refine ⟨e, (c + 1) % 256, ?_, he⟩
      rw [h]
      have h0 : step_seconds LIMITS ical.interval = 0 := rfl
      rw [h0, Int.ediv_zero]
      show step_while LIMITS ical.interval e now (0 + 1) s c = _
      rw [step_while_succ, if_pos hs]
      exact step_while_exit _ _ _ _ _ _ _ he
    · exact step_while_bound ical.freq ical.interval e now s c h hi hs

/-- Witness of C29: the rule of the test suite at 2016-10-24 08:55:00. -/
theorem find_next_event_terminates_witness :
    (∃ ev t, ical_find_next_event ex_ical (ical_set_time_struct 2016 10 24 8 55 0) ex_next
      = some (ev, t)) ∧
    ∃ y c1, step_while ex_ical.freq ex_ical.interval 1477324800 1477299300
      (((1477299300 - 1477296000) / step_seconds ex_ical.freq ex_ical.interval).toNat + 1)
      1477296000 0 = some (y, c1) ∧ 1477299300 < y :=
  ⟨(find_next_event_terminates ex_ical (ical_set_time_struct 2016 10 24 8 55 0) ex_next
      (by decide)).1,
    (find_next_event_terminates ex_ical (ical_set_time_struct 2016 10 24 8 55 0) ex_next
      (by decide)).2.2 1477296000 1477324800 1477299300 0 (by decide) (by decide)⟩

/-- C30: for every rule and every current time, `ical_find_next_event` never returns
`ICALERROR_INVALID_RECURRENCE`: after the checks of the interval, an hourly interval is
between 1 and 24 and so no multiple of 168, which the condition of this branch requires. -/
theorem never_invalid_recurrence (ical : ICAL) (t_now t_next : Tm) :
    (∀ t, ical_find_next_event ical t_now t_next ≠ some (ICALERROR_INVALID_RECURRENCE, t)) ∧
    (¬ ical.interval = 0 → ¬ (ical.interval > 24 ∧ ical.freq = HOURLY) →
      ¬ (ical.interval % 168 = 0 ∧ ical.freq = HOURLY)) := by
  refine ⟨?_, ?_⟩
  · intro t h
    obtain ⟨ev, hne, hk⟩ := find_next_event_kind ical t_now
    obtain ⟨t1, h1⟩ := hk t_next
    rw [h1] at h
    simp only [Option.some.injEq, Prod.mk.injEq] at h
    exact hne h.1
  · intro h1 h2 h3
    have : ¬ ical.interval > 24 := fun hh => h2 ⟨hh, h3.2⟩
    omega

/-! ## Claims about the capacity counter and the frame of the calls -/

/-- C26: `scheduler_remove_last` leaves the id counter, which is the capacity counter, as it
is.  Starting from a freshly cleared scheduler, under any interleaving of calls of
`scheduler_add`, `scheduler_remove_last` and `scheduler_update_events`, a call of
`scheduler_add` that gets a block from `malloc` returns `true` if and only if fewer than
`MAX_SCHEDULES = 5` calls of `scheduler_add` have returned `true` so far; once five have,
every further call returns `false`, however many schedules are still stored. -/
theorem remove_last_keeps_capacity (st0 : State) (ops : List Op) (st : State)
    (hnc : (ops.all fun op => !op.is_clear) = true)
    (hrun : run (scheduler_clear st0) ops = some st) :
    (scheduler_remove_last st).2.schedule_count = st.schedule_count ∧
    (∀ (group : Nat) (ical : ICAL) (fresh : SCHEDULE),
      (scheduler_add st group ical (some fresh)).1 = true ↔
        add_successes (scheduler_clear st0) ops < MAX_SCHEDULES) ∧
    (add_successes (scheduler_clear st0) ops = MAX_SCHEDULES →
      ∀ (group : Nat) (ical : ICAL) (m : Option SCHEDULE),
        (scheduler_add (scheduler_remove_last st).2 group ical m).1 = false) := by
  have hc := run_count ops (scheduler_clear st0) st hnc hrun
  have h0 : (scheduler_clear st0).schedule_count = 0 := by rw [scheduler_clear_eq]; rfl
  rw [h0, Nat.zero_add] at hc
  have hrem : (scheduler_remove_last st).2.schedule_count = st.schedule_count := by
    by_cases hn : st.schedule_head = []
    · rw [remove_last_nil st hn]
    · rw [remove_last_cons st hn]
  refine ⟨hrem, ?_, ?_⟩
  · intro group ical fresh
    rw [← hc]
    constructor
    · intro h; exact (add_true st group ical _ h).1
    · intro h; rw [add_some st group ical fresh h]
  · intro h5 group ical m
    rw [add_full _ group ical m (by rw [hrem, hc, h5])]

/-- Witness of C26: after the five calls `ex_ops5` and two calls of `scheduler_remove_last`
three schedules are stored, and a call of `scheduler_add` returns `false`. -/
theorem remove_last_keeps_capacity_witness :
    (scheduler_remove_last ex_state5).2.schedule_head.length = 4 ∧
    (scheduler_add (scheduler_remove_last (scheduler_remove_last ex_state5).2).2 1 ex_ical
      (some ex_block)).1 = false :=
  ⟨by decide,
    (remove_last_keeps_capacity init_state (ex_ops5 ++ [Op.remove_last])
      (scheduler_remove_last ex_state5).2 (by decide) (by decide)).2.2 (by decide)
      1 ex_ical (some ex_block)⟩

/-- Counterexample to C28 as stated: the scheduler holds the rule of the test suite, stored by
one call of `scheduler_add`; the fields `tm_wday`, `tm_yday` and `tm_isdst` of its `t_start`
are 0, 0 and -1, as `ical_set_time_struct` left them.  After `scheduler_update_events` the
stored schedule is another one: `mktime` has normalised `t_start` in place, the three fields
are 1, 297 and 0. -/
theorem update_events_normalises_counterexample :
    Reachable (scheduler_add init_state 0 ex_ical (some ex_block)).2 ∧
    ((scheduler_add init_state 0 ex_ical (some ex_block)).2.schedule_head.map fun s =>
      (s.ical.t_start.tm_wday, s.ical.t_start.tm_yday, s.ical.t_start.tm_isdst))
      = [(0, 0, -1)] ∧
    ((scheduler_update_events (scheduler_add init_state 0 ex_ical (some ex_block)).2
      (ical_set_time_struct 2016 10 24 8 55 0) ex_next (fun _ => some ex_event_block)).map
      fun st1 => st1.schedule_head.map fun s =>
        (s.ical.t_start.tm_wday, s.ical.t_start.tm_yday, s.ical.t_start.tm_isdst))
      = some [(1, 297, 0)] ∧
    (scheduler_update_events (scheduler_add init_state 0 ex_ical (some ex_block)).2
      (ical_set_time_struct 2016 10 24 8 55 0) ex_next (fun _ => some ex_event_block)).map
      (fun st1 => st1.schedule_head)
      ≠ some (scheduler_add init_state 0 ex_ical (some ex_block)).2.schedule_head := by
  refine ⟨⟨[Op.add 0 ex_ical (some ex_block)], by decide⟩, by decide, by decide, by decide⟩

/-- C28, amended: `scheduler_add` and `scheduler_remove_last` leave the event queue and the
event counter as they are, so that after `scheduler_remove_last` the lookup
`scheduler_get_event_by_group` returns what it returned before.  `scheduler_update_events`
leaves the id counter as it is and keeps the schedules in their order, each with its id, its
group and its rule, except that in the rule of every schedule with `enabled = true` the
fields `t_start` and `t_end` are replaced by their forms normalised by `mktime`, which stand
for the same timestamps. -/
theorem frame_of_the_calls :
    (∀ (st : State) (group : Nat) (ical : ICAL) (m : Option SCHEDULE),
      (scheduler_add st group ical m).2.event_head = st.event_head ∧
      (scheduler_add st group ical m).2.event_count = st.event_count) ∧
    (∀ (st : State) (g : Nat),
      (scheduler_remove_last st).2.event_head = st.event_head ∧
      (scheduler_remove_last st).2.event_count = st.event_count ∧
      scheduler_get_event_by_group (scheduler_remove_last st).2 g
        = scheduler_get_event_by_group st g) ∧
    (∀ (st : State) (now t_temp : Tm) (mem : Nat → Option EVENT) (st1 : State),
      scheduler_update_events st now t_temp mem = some st1 →
      st1.schedule_count = st.schedule_count ∧
      st1.schedule_head = st.schedule_head.map fun s =>
        if s.ical.enabled = true then { s with ical := ical_after_find s.ical } else s) ∧
    (∀ ical : ICAL,
      ical_after_find ical = { ical with t_start := (mktime ical.t_start).2,
                                         t_end := (mktime ical.t_end).2 } ∧
      window_start (ical_after_find ical) = window_start ical ∧
      window_end (ical_after_find ical) = window_end ical ∧
      ical_after_find (ical_after_find ical) = ical_after_find ical) := by
  refine ⟨?_, ?_, ?_, ?_⟩
  · intro st group ical m
    by_cases hs : (scheduler_add st group ical m).1 = true
    · obtain ⟨hlt, s, hm⟩ := add_true st group ical m hs
      subst hm
      rw [add_some st group ical s hlt]
      exact ⟨rfl, rfl⟩
    · rw [add_false st group ical m hs]
      exact ⟨rfl, rfl⟩
  · intro st g
    unfold scheduler_get_event_by_group
    by_cases hn : st.schedule_head = []
    · rw [remove_last_nil st hn]
      exact ⟨rfl, rfl, rfl⟩
    · rw [remove_last_cons st hn]
      exact ⟨rfl, rfl, rfl⟩
  · intro st now t_temp mem st1 h
    obtain ⟨h1, h2⟩ := update_events_schedules st now t_temp mem st1 h
    exact ⟨h2, h1⟩
  · intro ical
    refine ⟨rfl, ?_, ?_, ?_⟩
    · unfold window_start ical_after_find
      exact mktime_mktime_snd _
    · unfold window_end ical_after_find
      exact mktime_mktime_snd _
    · unfold ical_after_find
      simp only [mktime_snd, mktime_fst, timestamp_localtime]

/-- Witness of C28, amended: two schedules are stored and the event queue holds the event of
the second one, of the group 2; after `scheduler_remove_last` has removed this schedule the
lookup for the group 2 still returns its event. -/
theorem frame_of_the_calls_witness :
    (scheduler_remove_last
      { schedule_head := [ex_schedule 0 0 ex_ical, ex_schedule 1 2 ex_ical],
        event_head := [{ ical_event := ICALEVENT_RECUR, epoch := 1477299600, id := 1,
                         group := 2 }],
        schedule_count := 2, event_count := 1 }).2.schedule_head = [ex_schedule 0 0 ex_ical] ∧
    scheduler_get_event_by_group
      (scheduler_remove_last
        { schedule_head := [ex_schedule 0 0 ex_ical, ex_schedule 1 2 ex_ical],
          event_head := [{ ical_event := ICALEVENT_RECUR, epoch := 1477299600, id := 1,
                           group := 2 }],
          schedule_count := 2, event_count := 1 }).2 2
      = scheduler_get_event_by_group
        { schedule_head := [ex_schedule 0 0 ex_ical, ex_schedule 1 2 ex_ical],
          event_head := [{ ical_event := ICALEVENT_RECUR, epoch := 1477299600, id := 1,
                           group := 2 }],
          schedule_count := 2, event_count := 1 } 2 ∧
    scheduler_get_event_by_group
      { schedule_head := [ex_schedule 0 0 ex_ical, ex_schedule 1 2 ex_ical],
        event_head := [{ ical_event := ICALEVENT_RECUR, epoch := 1477299600, id := 1,
                         group := 2 }],
        schedule_count := 2, event_count := 1 } 2
      = some { ical_event := ICALEVENT_RECUR, epoch := 1477299600, id := 1, group := 2 } :=
  ⟨by decide, (frame_of_the_calls.2.1 _ 2).2.2, by decide⟩

/-! ## The day loop always reaches an enabled date -/

/-- A step of the stepping loop is at most one day: the interval is a `uint8_t`, and an hourly
interval that passes the validation is at most 24. -/
theorem step_seconds_le_day (freq interval : Nat) (hu : interval ≤ 255)
    (h24 : ¬ (interval > 24 ∧ freq = HOURLY)) : step_seconds freq interval ≤ 86400 := by
  unfold step_seconds
  split
  · omega
  · omega
  · have : interval ≤ 24 := by
      by_contra hh
      exact h24 ⟨by omega, rfl⟩
    omega
  · omega

/-- From the second pass on, with seven passes or more left and the day-local start of the
next candidate date after the current time, the day loop returns a start within the eight
dates that follow the date of `e_next_event`. -/
theorem lin_forward_bound (byday freq interval cnt : Nat) (S E now : Int)
    (h0 : byday ≠ 0) (h1 : byday ≤ 0x7F) (hS : 0 ≤ S ∧ S < 86400)
    (n i : Nat) (x : Int) (hn : 7 ≤ n) (hi : i ≠ 0) (hx : now < lin_start S (x + 86400)) :
    ∃ y, day_while_lin byday freq interval cnt S E now n i x = some (ICALEVENT_START, y) ∧
      y < (x / 86400 + 8) * 86400 := by
  obtain ⟨m0, hm0, hen0⟩ := lin_enabled_week byday h0 h1 x
  obtain ⟨m, _, _, hfirst, hres⟩ := lin_forward byday freq interval cnt S E now n i x hi hx
    ⟨m0, by omega, hen0⟩
  have hm : m ≤ m0 := by
    by_contra hh
    exact hfirst m0 (by omega) hen0
  refine ⟨_, hres, ?_⟩
  unfold lin_start
  omega

/-- A pass of the day loop that finds the current time in the day-local window of its
candidate date, with seven passes or more left after it and no occurrence limit: the loop
returns a recurrence, an end or a start, less than nine days after the start of the date of
the current time. -/
theorem lin_inside_some (byday freq interval : Nat) (S E now : Int)
    (h0 : byday ≠ 0) (h1 : byday ≤ 0x7F) (hS : 0 ≤ S ∧ S < 86400) (hE : 0 ≤ E ∧ E < 86400)
    (hf : freq ≤ 3) (hi0 : interval ≠ 0) (hstep : step_seconds freq interval ≤ 86400)
    (n i : Nat) (x : Int) (hn : 7 ≤ n)
    (hen : lin_enabled byday (cand i x) = true) (hs : ¬ now < lin_start S (cand i x))
    (he : now < lin_end S E (cand i x)) :
    ∃ ev y, day_while_lin byday freq interval 0 S E now (n + 1) i x = some (ev, y) ∧
      (ev = ICALEVENT_START ∨ ev = ICALEVENT_RECUR ∨ ev = ICALEVENT_END) ∧
      y < (now / 86400 + 9) * 86400 := by
  obtain ⟨⟨T, c⟩, hr⟩ := step_while_isSome freq interval _ now hf hi0 he
    ((now - lin_start S (cand i x)).toNat + 1) (lin_start S (cand i x)) 0 (by omega)
  rw [lin_inside _ _ _ _ _ _ _ _ _ _ T c hen hs he hr]
  have hle := lin_end_le S E (cand i x) hS hE
  obtain ⟨k, hk⟩ := step_while_first_conv freq interval _ _ now hf (by omega) he _ T c hr
  by_cases hT : T ≤ lin_end S E (cand i x)
  · rw [if_pos hT]
    have hl : landed freq 0 T c = (recur_kind freq, T) := by simp [landed]
    rw [hl]
    refine ⟨_, _, rfl, ?_, by omega⟩
    rcases recur_kind_cases freq with h | h <;> rw [h] <;> simp
  · rw [if_neg hT]
    have hlate : now < T ∧ T ≤ now + 86400 := by
      rcases hk with ⟨_, _, h⟩ | ⟨_, _, _, hlo, hhi⟩
      · exact absurd (le_of_eq h) hT
      · exact ⟨hhi, by omega⟩
    obtain ⟨y, hy, hb⟩ := lin_forward_bound byday freq interval 0 S E now h0 h1 hS n (i + 1) T
      hn (by omega) (by unfold lin_start; omega)
    exact ⟨_, y, hy, Or.inl rfl, by omega⟩

/-- With no occurrence limit the day loop never ends without an event: its result is a start,
a recurrence or an end, less than nine days after the start of the date of the current
time. -/
theorem lin_never_none (byday freq interval : Nat) (S E now : Int)
    (h0 : byday ≠ 0) (h1 : byday ≤ 0x7F) (hS : 0 ≤ S ∧ S < 86400) (hE : 0 ≤ E ∧ E < 86400)
    (hf : freq ≤ 3) (hi0 : interval ≠ 0) (hstep : step_seconds freq interval ≤ 86400) :
    ∃ ev y, day_while_lin byday freq interval 0 S E now 10 0 now = some (ev, y) ∧
      (ev = ICALEVENT_START ∨ ev = ICALEVENT_RECUR ∨ ev = ICALEVENT_END) ∧
      y < (now / 86400 + 9) * 86400 := by
  have hc0 : cand 0 now = now - 86400 := rfl
  have hc1 : cand 1 (now - 86400) = now := by unfold cand; simp
  have hs0 : ¬ now < lin_start S (cand 0 now) := by rw [hc0]; unfold lin_start; omega
  have hpass2 : ∃ ev y, day_while_lin byday freq interval 0 S E now 8 2 now = some (ev, y) ∧
      (ev = ICALEVENT_START ∨ ev = ICALEVENT_RECUR ∨ ev = ICALEVENT_END) ∧
      y < (now / 86400 + 9) * 86400 := by
    obtain ⟨y, hy, hb⟩ := lin_forward_bound byday freq interval 0 S E now h0 h1 hS 8 2 now
      (by omega) (by omega) (by unfold lin_start; omega)
    exact ⟨_, y, hy, Or.inl rfl, by omega⟩
  have hpass1 : ∃ ev y,
      day_while_lin byday freq interval 0 S E now 9 1 (now - 86400) = some (ev, y) ∧
      (ev = ICALEVENT_START ∨ ev = ICALEVENT_RECUR ∨ ev = ICALEVENT_END) ∧
      y < (now / 86400 + 9) * 86400 := by
    by_cases hen : lin_enabled byday (cand 1 (now - 86400)) = true
    · by_cases hb : now < lin_start S (cand 1 (now - 86400))
      · refine ⟨_, _, lin_before _ _ _ _ _ _ _ _ _ _ hen hb, Or.inl rfl, ?_⟩
        rw [hc1]; unfold lin_start; omega
      · by_cases ha : now < lin_end S E (cand 1 (now - 86400))
        · exact lin_inside_some byday freq interval S E now h0 h1 hS hE hf hi0 hstep 8 1
            (now - 86400) (by omega) hen hb ha
        · rw [lin_after _ _ _ _ _ _ _ _ _ _ hb ha, hc1]
          exact hpass2
    · rw [lin_skip _ _ _ _ _ _ _ _ _ _ hen, hc1]
      exact hpass2
  by_cases hen : lin_enabled byday (cand 0 now) = true
  · by_cases ha : now < lin_end S E (cand 0 now)
    · exact lin_inside_some byday freq interval S E now h0 h1 hS hE hf hi0 hstep 9 0 now
        (by omega) hen hs0 ha
    · rw [lin_after _ _ _ _ _ _ _ _ _ _ hs0 ha, hc0]
      exact hpass1
  · rw [lin_skip _ _ _ _ _ _ _ _ _ _ hen, hc0]
    exact hpass1

/-! ## The length of the event queue along the loop over the schedules -/

/-- One pass of the loop over the schedules, whatever `malloc` returns: when the event counter
is the length of the event queue and below the capacity, it stays the length of the event
queue, and the queue grows by one event at most. -/
theorem event_list_update_count (st : State) (s : SCHEDULE) (t : Tm) (ev : ICALEVENT)
    (m : Option EVENT) (hc : st.event_count = st.event_head.length)
    (hlt : st.event_head.length < MAX_SCHEDULES) :
    (_event_list_update st s t ev m).1.event_count
      = (_event_list_update st s t ev m).1.event_head.length ∧
    (_event_list_update st s t ev m).1.event_head.length ≤ st.event_head.length + 1 := by
  unfold _event_list_update
  simp only
  cases hr : event_list_update_foreach s ev (mktime t).1 st.event_head with
  | some es1 =>
    simp only
    have hg := congrArg List.length (foreach_some_groups s ev _ _ _ hr)
    simp only [List.length_map] at hg
    rw [hg]
    exact ⟨hc, by omega⟩
  | none =>
    simp only
    have h1 : ¬ st.event_count ≥ MAX_SCHEDULES := by omega
    have h2 : (st.event_count + 1) % 256 = st.event_count + 1 := by
      unfold MAX_SCHEDULES at hlt; omega
    cases m with
    | none =>
      simp only [_event_add, if_neg h1]
      exact ⟨hc, by omega⟩
    | some blk =>
      simp only [_event_add, if_neg h1, TAILQ_INSERT_TAIL, h2, List.length_append,
        List.length_singleton]
      exact ⟨by omega, le_refl _⟩

/-- The loop of `scheduler_update_events` over the schedules that are left, whatever `malloc`
returns: when the event counter is the length of the event queue and the queue has room for
one event for each schedule left, the loop returns, the event counter is the length of the
event queue again, and the queue has grown by one event for each enabled schedule at most. -/
theorem update_foreach_count (mem : Nat → Option EVENT) :
    ∀ (l : List SCHEDULE) (j : Nat) (st : State) (t_temp cur : Tm),
      st.event_count = st.event_head.length →
      st.event_head.length + l.length ≤ MAX_SCHEDULES →
      ∃ l1 st1,
        update_events_foreach mem l j st t_temp cur = some (l1, st1) ∧
        st1.event_count = st1.event_head.length ∧
        st1.event_head.length
          ≤ st.event_head.length + l.countP (fun s => s.ical.enabled) := by
  intro l
  induction l with
  | nil =>
    intro j st t_temp cur hc _
    exact ⟨[], st, rfl, hc, by simp⟩
  | cons x rest ih =>
    intro j st t_temp cur hc hlen
    simp only [List.length_cons] at hlen
    rw [update_events_foreach_cons]
    by_cases hen : x.ical.enabled = true
    · rw [if_pos hen]
      obtain ⟨ev, t1, hf⟩ := find_next_event_total x.ical cur t_temp
      rw [hf]
      simp only
      obtain ⟨q1, q2⟩ := event_list_update_count st
        { x with ical := ical_after_find x.ical } t1 ev (mem j) hc (by omega)
      generalize (_event_list_update st { x with ical := ical_after_find x.ical } t1 ev
        (mem j)) = r at q1 q2 ⊢
      obtain ⟨l1, st1, hrun, i1, i2⟩ := ih (j + 1) r.1 r.2 (mktime cur).2 q1 (by omega)
      rw [hrun]
      refine ⟨_, st1, rfl, i1, ?_⟩
      rw [List.countP_cons, if_pos hen]
      omega
    · rw [if_neg hen]
      obtain ⟨l1, st1, hrun, i1, i2⟩ := ih (j + 1) st t_temp cur hc (by omega)
      rw [hrun]
      refine ⟨_, st1, rfl, i1, ?_⟩
      rw [List.countP_cons, if_neg hen]
      exact i2

/-- The loop over the schedules `pre ++ rest` is the loop over `pre` followed by the loop over
`rest`, which starts in the state that the loop over `pre` leaves. -/
theorem update_foreach_append (mem : Nat → Option EVENT) (rest : List SCHEDULE) :
    ∀ (pre : List SCHEDULE) (j : Nat) (st : State) (t_temp cur : Tm) (l1 : List SCHEDULE)
      (st2 : State),
      update_events_foreach mem pre j st t_temp cur = some (l1, st2) →
      ∃ t_temp1 cur1,
        update_events_foreach mem (pre ++ rest) j st t_temp cur
          = (update_events_foreach mem rest (j + pre.length) st2 t_temp1 cur1).map
              fun r => (l1 ++ r.1, r.2) := by
  intro pre
  induction pre with
  | nil =>
    intro j st t_temp cur l1 st2 h
    rw [update_events_foreach_nil] at h
    simp only [Option.some.injEq, Prod.mk.injEq] at h
    obtain ⟨h1, h2⟩ := h
    subst h1 h2
    refine ⟨t_temp, cur, ?_⟩
    simp only [List.nil_append, List.length_nil, Nat.add_zero]
    cases update_events_foreach mem rest j st t_temp cur <;> rfl
  | cons x pre ih =>
    intro j st t_temp cur l1 st2 h
    rw [update_events_foreach_cons] at h
    rw [List.cons_append, update_events_foreach_cons]
    have hj : j + (x :: pre).length = j + 1 + pre.length := by
      simp only [List.length_cons]; omega
    rw [hj]
    by_cases hen : x.ical.enabled = true
    · rw [if_pos hen] at h ⊢
      cases hf : ical_find_next_event x.ical cur t_temp with
      | none => rw [hf] at h; exact absurd h (by simp)
      | some r0 =>
        obtain ⟨ev, t1⟩ := r0
        rw [hf] at h
        simp only at h ⊢
        cases hp : update_events_foreach mem pre (j + 1)
            (_event_list_update st { x with ical := ical_after_find x.ical } t1 ev (mem j)).1
            (_event_list_update st { x with ical := ical_after_find x.ical } t1 ev (mem j)).2
            (mktime cur).2 with
        | none => rw [hp] at h; exact absurd h (by simp)
        | some p =>
          obtain ⟨p1, st3⟩ := p
          rw [hp] at h
          simp only [Option.some.injEq, Prod.mk.injEq] at h
          obtain ⟨h1, h2⟩ := h
          subst h1 h2
          obtain ⟨t2, cur2, hih⟩ := ih _ _ _ _ _ _ hp
          refine ⟨t2, cur2, ?_⟩
          rw [hih]
          cases update_events_foreach mem rest (j + 1 + pre.length) st3 t2 cur2 <;> rfl
    · rw [if_neg hen] at h ⊢
      cases hp : update_events_foreach mem pre (j + 1) st t_temp cur with
      | none => rw [hp] at h; exact absurd h (by simp)
      | some p =>
        obtain ⟨p1, st3⟩ := p
        rw [hp] at h
        simp only [Option.some.injEq, Prod.mk.injEq] at h
        obtain ⟨h1, h2⟩ := h
        subst h1 h2
        obtain ⟨t2, cur2, hih⟩ := ih _ _ _ _ _ _ hp
        refine ⟨t2, cur2, ?_⟩
        rw [hih]
        cases update_events_foreach mem rest (j + 1 + pre.length) st3 t2 cur2 <;> rfl

/-! ## Claims about the capacity of the event queue and the reach of the day search -/

/-- C31: in every state reachable from the state at program start through calls of
`scheduler_add`, `scheduler_remove_last`, `scheduler_clear` and `scheduler_update_events`,
at most `MAX_SCHEDULES = 5` schedules are stored.  A call of `scheduler_update_events` in
such a state returns, whatever `malloc` returns, and after it the event queue holds at most
as many events as schedules with `enabled = true` are stored, and the event counter is its
length.  The capacity check of `_event_add` never rejects an event: before the pass of the
loop for any stored schedule `s`, that is after the passes for the schedules `pre` stored
before it, the event counter is below `MAX_SCHEDULES`, so that `_event_add` returns `true`
when `malloc` gives a block. -/
theorem event_capacity_never_reached (st : State) (now t_temp : Tm)
    (mem : Nat → Option EVENT) (hr : Reachable st) :
    st.schedule_head.length ≤ MAX_SCHEDULES ∧
    (∃ st1, scheduler_update_events st now t_temp mem = some st1 ∧
      st1.schedule_head.length ≤ MAX_SCHEDULES ∧
      st1.event_head.length ≤ st1.schedule_head.countP (fun s => s.ical.enabled) ∧
      st1.event_count = st1.event_head.length) ∧
    (∀ pre s post, st.schedule_head = pre ++ s :: post →
      ∃ l1 st2 t_temp1 cur1,
        update_events_foreach mem pre 0 (_event_list_clear st) t_temp now = some (l1, st2) ∧
        update_events_foreach mem st.schedule_head 0 (_event_list_clear st) t_temp now
          = (update_events_foreach mem (s :: post) pre.length st2 t_temp1 cur1).map
              (fun r => (l1 ++ r.1, r.2)) ∧
        st2.event_count < MAX_SCHEDULES ∧
        ∀ (ev : ICALEVENT) (epoch : Int) (id group : Nat) (blk : EVENT),
          (_event_add st2 ev epoch id group (some blk)).1 = true) := by
  have hinv := inv_reachable st hr
  have hlen : st.schedule_head.length ≤ MAX_SCHEDULES := le_trans hinv.1 hinv.2.1
  have hc0 : (_event_list_clear st).event_count = (_event_list_clear st).event_head.length := by
    simp only [_event_list_clear, clear_while_nil, List.length_nil]
  have hl0 : (_event_list_clear st).event_head.length = 0 := by
    simp only [_event_list_clear, clear_while_nil, List.length_nil]
  refine ⟨hlen, ?_, ?_⟩
  · obtain ⟨l1, st1, hrun, i1, i2⟩ := update_foreach_count mem st.schedule_head 0
      (_event_list_clear st) t_temp now hc0 (by rw [hl0]; omega)
    have hrun1 : scheduler_update_events st now t_temp mem
        = some { st1 with schedule_head := l1 } := by
      unfold scheduler_update_events
      simp only
      have hs : (_event_list_clear st).schedule_head = st.schedule_head := rfl
      rw [hs, hrun]
    obtain ⟨hsch, _⟩ := update_events_schedules st now t_temp mem _ hrun1
    refine ⟨_, hrun1, ?_, ?_, i1⟩
    · rw [hsch, List.length_map]; exact hlen
    · have hcount : (st.schedule_head.map visited).countP (fun s => s.ical.enabled)
          = st.schedule_head.countP (fun s => s.ical.enabled) := by
        rw [List.countP_map]
        apply List.countP_congr
        intro s _
        simp only [Function.comp_apply, visited_enabled]
      rw [hsch, hcount]
      rw [hl0, Nat.zero_add] at i2
      exact i2
  · intro pre s post hsplit
    have hpre : pre.length < st.schedule_head.length := by
      rw [hsplit, List.length_append, List.length_cons]; omega
    obtain ⟨l1, st2, hrun, i1, i2⟩ := update_foreach_count mem pre 0
      (_event_list_clear st) t_temp now hc0 (by rw [hl0]; omega)
    obtain ⟨t1, cur1, happ⟩ := update_foreach_append mem (s :: post) pre 0
      (_event_list_clear st) t_temp now l1 st2 hrun
    have hcp : pre.countP (fun s => s.ical.enabled) ≤ pre.length := List.countP_le_length _
    have hlt : st2.event_count < MAX_SCHEDULES := by
      rw [hl0] at i2
      omega
    refine ⟨l1, st2, t1, cur1, hrun, ?_, hlt, ?_⟩
    · rw [hsplit, happ, Nat.zero_add]
    · intro ev epoch id group blk
      have h1 : ¬ st2.event_count ≥ MAX_SCHEDULES := by omega
      simp only [_event_add, if_neg h1]

/-- Witness of C31: the state `ex_state5`, reached by the five calls `ex_ops5`, holds five
schedules; after `scheduler_update_events` the event queue holds no more events than
enabled schedules are stored. -/
theorem event_capacity_never_reached_witness :
    ex_state5.schedule_head.length ≤ MAX_SCHEDULES ∧
    ∃ st1,
      scheduler_update_events ex_state5 (ical_set_time_struct 2016 10 24 8 14 0) ex_next
        (fun _ => some ex_event_block) = some st1 ∧
      st1.schedule_head.length ≤ MAX_SCHEDULES ∧
      st1.event_head.length ≤ st1.schedule_head.countP (fun s => s.ical.enabled) ∧
      st1.event_count = st1.event_head.length :=
  ⟨(event_capacity_never_reached ex_state5 (ical_set_time_struct 2016 10 24 8 14 0) ex_next
      (fun _ => some ex_event_block) ⟨ex_ops5, by decide⟩).1,
    (event_capacity_never_reached ex_state5 (ical_set_time_struct 2016 10 24 8 14 0) ex_next
      (fun _ => some ex_event_block) ⟨ex_ops5, by decide⟩).2.1⟩

/-- C32: for every valid enabled rule without occurrence limit (the interval, a `uint8_t`, at
most 255) and every current time in `[window_start, window_end)` with `window_end` at least
nine days after it, `ical_find_next_event` returns `ICALEVENT_START`, `ICALEVENT_RECUR` or
`ICALEVENT_END`, never `ICALEVENT_NONE`; the time written is less than nine days after the
current time. -/
theorem never_none_nine_days (ical : ICAL) (t_now t_next : Tm)
    (hv : Valid ical) (hen : ical.enabled = true) (hc : ical.count = 0)
    (hu : ical.interval ≤ 255)
    (h1 : window_start ical ≤ (mktime t_now).1)
    (h9 : (mktime t_now).1 + 9 * ONE_DAY ≤ window_end ical) :
    (∃ ev t, ical_find_next_event ical t_now t_next = some (ev, t) ∧
      (ev = ICALEVENT_START ∨ ev = ICALEVENT_RECUR ∨ ev = ICALEVENT_END) ∧
      (mktime t).1 < (mktime t_now).1 + 9 * ONE_DAY) ∧
    ∀ t, ical_find_next_event ical t_now t_next ≠ some (ICALEVENT_NONE, t) := by
  rw [ONE_DAY_eq] at h9 ⊢
  have hb := hv.2.2.2.1
  have key : ∃ ev t, ical_find_next_event ical t_now t_next = some (ev, t) ∧
      (ev = ICALEVENT_START ∨ ev = ICALEVENT_RECUR ∨ ev = ICALEVENT_END) ∧
      (mktime t).1 < (mktime t_now).1 + 9 * 86400 := by
    obtain ⟨ev, y, hy, hk, hlt⟩ := lin_never_none ical.byday ical.freq ical.interval
      (window_start ical % 86400) (window_end ical % 86400) (mktime t_now).1
      (fun h => hb (Or.inl h)) (by omega) (by omega) (by omega)
      (by have := hv.2.2.2.2; omega) hv.2.1
      (step_seconds_le_day ical.freq ical.interval hu hv.2.2.1)
    refine ⟨ev, localtime y, ?_, hk, ?_⟩
    · rw [find_next_event_active ical t_now t_next hv hen h1 (by omega), hc, hy]
      simp only
      rw [if_neg (by omega)]
    · rw [mktime_localtime_fst]
      omega
  refine ⟨key, ?_⟩
  intro t h
  obtain ⟨ev, t1, h2, hk, _⟩ := key
  rw [h2] at h
  simp only [Option.some.injEq, Prod.mk.injEq] at h
  rcases hk with hk | hk | hk <;> rw [hk] at h <;> exact absurd h.1 (by decide)

/-- Witness of C32: the rule of the test suite with a step of 24 hours at 2016-10-24
09:00:00.  The stepped time 2016-10-25 08:00:00 is after the end of the day-local window, the
candidate dates are shifted by it, and the call returns `ICALEVENT_START` at 2016-10-26
08:00:00. -/
theorem never_none_nine_days_witness :
    (∃ ev t, ical_find_next_event { ex_ical with freq := HOURLY, interval := 24 }
      (ical_set_time_struct 2016 10 24 9 0 0) ex_next = some (ev, t) ∧
      (ev = ICALEVENT_START ∨ ev = ICALEVENT_RECUR ∨ ev = ICALEVENT_END) ∧
      (mktime t).1 < (mktime (ical_set_time_struct 2016 10 24 9 0 0)).1 + 9 * ONE_DAY) ∧
    ical_find_next_event { ex_ical with freq := HOURLY, interval := 24 }
      (ical_set_time_struct 2016 10 24 9 0 0) ex_next
      = some (ICALEVENT_START, localtime 1477468800) :=
  ⟨(never_none_nine_days { ex_ical with freq := HOURLY, interval := 24 }
      (ical_set_time_struct 2016 10 24 9 0 0) ex_next (by decide) (by decide) (by decide)
      (by decide) (by decide) (by decide)).1, by decide⟩

end Scheduler
